import Mathlib

/-!
Verification of the `redis` package of feslima/coding-challenges-golang.

Shallow embedding conventions:
* Go strings are byte sequences; they are modelled as `List Char` (`Str`).
* Go `time.Time` is modelled as an `Int` count of nanoseconds since the epoch
  (`GoTime`); `time.Duration` is likewise an `Int` in nanoseconds.
* Go maps (`map[string]T`) are modelled as association lists with distinct
  keys; `insertS` replaces any previous binding and `eraseS` removes it.
  Go's map iteration order is unspecified, so the list order carried by the
  model is one admissible order.
* Methods that mutate their receiver are modelled as functions returning the
  updated state (paired with the Go return value when there is one).
* Go code that can panic (out-of-range indexing / slicing) is modelled with
  an explicit panic-signalling constructor or `Option` result.
-/

namespace RedisGo


/-- Go strings, as byte/character sequences. -/
abbrev Str := List Char

/-- Go `time.Time`, as nanoseconds since the epoch. -/
abbrev GoTime := Int

/-- `time.Second` in nanoseconds. -/
def nsPerSec : Int := 1000000000

/-- `time.Millisecond` in nanoseconds. -/
def nsPerMilli : Int := 1000000

/-! ### Association-list maps (the model of Go's `map[string]T`) -/

/-- Lookup in a Go map: the value bound to `k`, if any. -/
def lookupS (k : Str) : List (Str × α) → Option α
  | [] => none
  | (k2, v) :: rest => if k2 = k then some v else lookupS k rest

/-- Deletion from a Go map (`delete(m, k)`). -/
def eraseS (k : Str) (m : List (Str × α)) : List (Str × α) :=
  m.filter (fun p => decide (p.1 ≠ k))

/-- Insertion into a Go map (`m[k] = v`), replacing any previous binding. -/
def insertS (k : Str) (v : α) (m : List (Str × α)) : List (Str × α) :=
  (k, v) :: eraseS k m

/-! ### `list.go` — singly linked list

The Go `list` records head, tail and size of a singly linked chain of
strings; its observable content is the head-to-tail sequence returned by
`ToSlice`, and `size` always equals the length of that sequence.  The model
therefore carries the sequence itself. -/

/-- The Go `list` value: head-to-tail sequence of its nodes. -/
abbrev GoList := List Str

/-- `NewListFromSlice`: builds a list holding exactly the given values. -/
def NewListFromSlice (values : List Str) : GoList := values

/-- `AppendSliceToTail`: appends each value at the tail, in order. -/
def AppendSliceToTail (l : GoList) (values : List Str) : GoList := l ++ values

/-- `AppendSliceToHead`: prepends each value in turn, so the result is the
reverse of the input concatenated with the prior content. -/
def AppendSliceToHead (l : GoList) (values : List Str) : GoList :=
  values.foldl (fun acc v => v :: acc) l

/-- `ToSlice`: the head-to-tail sequence. -/
def ToSlice (l : GoList) : List Str := l

/-- `list.size` — maintained by the Go code to equal the node count. -/
def listSize (l : GoList) : Int := (l.length : Int)

/-! ### `keyspace.go` — data model -/

/-- `keyspaceEntry`: the tag-map entry of a key. -/
structure keyspaceEntry where
  group : String
  expires : Option GoTime
deriving DecidableEq, Repr

/-- `KeyResult`: result of `keyspace.Get`. -/
structure KeyResult where
  str : Option Str := none
  arr : Option (List Str) := none
deriving DecidableEq, Repr

/-- `KeyResult.IsValid`. -/
def KeyResult.IsValid (kr : KeyResult) : Bool :=
  kr.str.isSome || kr.arr.isSome

/-- `KeyResult.IsString`. -/
def KeyResult.IsString (kr : KeyResult) : Bool :=
  kr.IsValid && kr.str.isSome

/-- The red-black tree of `rbtree.go`, reduced to the fields that carry its
contents: node key, the per-node entry bucket and the two children.  Parent
pointers are represented by the tree structure itself.  The node colours and
the rebalancing steps of `Put` (`insertCase1`–`insertCase5`) are omitted:
they perform only recolouring and BST rotations, which change the shape of
the tree but never the in-order sequence of `(key, entries)` pairs, and that
sequence is the only thing `Get`, `Min`, `Max` and the traversal/range
operations observe. -/
inductive RBNode (K : Type) where
  | leaf : RBNode K
  | node (left : RBNode K) (key : K) (entries : List Str) (right : RBNode K) : RBNode K
deriving DecidableEq, Repr

/-- The `rbtree` struct: root plus the explicitly maintained `size` field. -/
structure rbtree (K : Type) where
  root : RBNode K
  size : Int
deriving DecidableEq, Repr

/-- `NewTree`. -/
def NewTree (K : Type) : rbtree K := { root := .leaf, size := 0 }

/-- The `keyspace` struct: tag map, three group maps and the modification
counter.  The clock and mutex are modelled by the explicit `now` argument of
each operation (single-threaded interleaving). -/
structure keyspace (K : Type) where
  keys : List (Str × keyspaceEntry)
  stringMap : List (Str × Str)
  listMap : List (Str × GoList)
  sortedSetMap : List (Str × rbtree K)
  modifications : Int
deriving DecidableEq, Repr

/-- `newKeyspace`. -/
def newKeyspace (K : Type) : keyspace K :=
  { keys := [], stringMap := [], listMap := [], sortedSetMap := [], modifications := 0 }

/-- The read phase of `keyspace.Get` after the expiry check: dispatch on the
group tag; a Go map read of a missing key yields the zero value. -/
def keyspace.getRead (ks : keyspace K) (key : Str) (ke : keyspaceEntry) :
    KeyResult × keyspace K :=
  if ke.group = "string" then
    ({ str := some ((lookupS key ks.stringMap).getD []) }, ks)
  else if ke.group = "list" then
    ({ arr := some (ToSlice ((lookupS key ks.listMap).getD [])) }, ks)
  else ({}, ks)

/-- `keyspace.Get`: reads a key, lazily deleting it (and counting a
modification) when its deadline lies strictly in the past.  Returns the
`KeyResult` together with the updated keyspace.  Note that the expiry
`switch` has cases only for the `string` and `list` groups. -/
def keyspace.Get (now : GoTime) (ks : keyspace K) (key : Str) :
    KeyResult × keyspace K :=
  match lookupS key ks.keys with
  | none => ({}, ks)
  | some ke =>
    match ke.expires with
    | some deadline =>
      if deadline < now then
        let ks1 :=
          { ks with
            stringMap := if ke.group = "string" then eraseS key ks.stringMap else ks.stringMap
            listMap := if ke.group = "list" then eraseS key ks.listMap else ks.listMap
            keys := eraseS key ks.keys
            modifications := ks.modifications + 1 }
        ({}, ks1)
      else keyspace.getRead ks key ke
    | none => keyspace.getRead ks key ke

/-- Go `int` (64-bit two's-complement) wrap-around. -/
def wrap64 (n : Int) : Int := (n + 2 ^ 63) % 2 ^ 64 - 2 ^ 63

/-- `keyspace.Expire`: on a persistent key the deadline becomes `now` plus
the duration; on a volatile key the duration accumulates onto the stored
deadline.  The duration is `time.Duration(duration) * time.Second`, an
`int64` multiplication that wraps, so it is `duration` seconds only while
`duration * 10^9` fits `int64`. -/
def keyspace.Expire (now : GoTime) (ks : keyspace K) (key : Str) (duration : Int) :
    Bool × keyspace K :=
  match lookupS key ks.keys with
  | none => (false, ks)
  | some ke =>
    let final : GoTime :=
      match ke.expires with
      | none => now + wrap64 (duration * nsPerSec)
      | some old => old + wrap64 (duration * nsPerSec)
    (true,
      { ks with
        keys := insertS key { ke with expires := some final } ks.keys
        modifications := ks.modifications + 1 })

/-- `keyspace.ExpireAt`: replaces the deadline with the given instant. -/
def keyspace.ExpireAt (ks : keyspace K) (key : Str) (deadline : GoTime) :
    Bool × keyspace K :=
  match lookupS key ks.keys with
  | none => (false, ks)
  | some ke =>
    (true,
      { ks with
        keys := insertS key { ke with expires := some deadline } ks.keys
        modifications := ks.modifications + 1 })

/-- `keyspace.Exists` — delegates to `Get`, so it inherits its lazy-deletion
side effect. -/
def keyspace.Exists (now : GoTime) (ks : keyspace K) (key : Str) :
    Bool × keyspace K :=
  let r := keyspace.Get now ks key
  (r.1.IsValid, r.2)

/-- One step of the `BulkExists` loop: bump the per-key count map (a
missing key unconditionally records `0`). -/
def bulkExistsStep (present : Bool) (keyCount : List (Str × Int)) (key : Str) :
    List (Str × Int) :=
  if present then
    match lookupS key keyCount with
    | some c => insertS key (c + 1) keyCount
    | none => insertS key 1 keyCount
  else insertS key 0 keyCount

/-- `keyspace.BulkExists`: per-key occurrence counts of existing keys
(an occurrence of a missing key records `0`).  Read-only. -/
def keyspace.BulkExists (ks : keyspace K) (keysArg : List Str) : List (Str × Int) :=
  keysArg.foldl (fun keyCount key =>
    bulkExistsStep (lookupS key ks.keys).isSome keyCount key) []

/-- One step of the `BulkDelete` loop over one listed key. -/
def bulkDeleteStep (acc : List (Str × Int) × keyspace K) (key : Str) :
    List (Str × Int) × keyspace K :=
  let keyCount := acc.1
  let s := acc.2
  match lookupS key s.keys with
  | some ke =>
    let s1 :=
      { s with
        stringMap := if ke.group = "string" then eraseS key s.stringMap else s.stringMap
        listMap := if ke.group = "list" then eraseS key s.listMap else s.listMap
        keys := eraseS key s.keys
        modifications := s.modifications + 1 }
    match lookupS key keyCount with
    | some c => (insertS key (c + 1) keyCount, s1)
    | none => (insertS key 1 keyCount, s1)
  | none =>
    match lookupS key keyCount with
    | some _ => (keyCount, s)
    | none => (insertS key 0 keyCount, s)

/-- `keyspace.BulkDelete`: deletes each listed key (once), counting one
modification per removal; the returned map records `1` for removed keys and
`0` for the rest.  The `switch` removes the value only for the `string` and
`list` groups. -/
def keyspace.BulkDelete (ks : keyspace K) (keysArg : List Str) :
    List (Str × Int) × keyspace K :=
  keysArg.foldl bulkDeleteStep ([], ks)

/-- `ExpiryDuration` (magnitude together with a resolution in nanoseconds). -/
structure ExpiryDuration where
  magnitude : Int
  resolution : Int
deriving DecidableEq, Repr

/-- `keyspace.SetStringKey`.  The expiry offset
`time.Duration(exp.magnitude) * exp.resolution` is an `int64`
multiplication that wraps. -/
def keyspace.SetStringKey (now : GoTime) (ks : keyspace K) (key : Str) (value : Str)
    (exp : Option ExpiryDuration) : keyspace K :=
  let ks1 :=
    match lookupS key ks.keys with
    | some ke => if ke.group = "list" then { ks with listMap := eraseS key ks.listMap } else ks
    | none => ks
  let expires : Option GoTime := exp.map (fun e => now + wrap64 (e.magnitude * e.resolution))
  { ks1 with
    stringMap := insertS key value ks1.stringMap
    keys := insertS key { group := "string", expires := expires } ks1.keys
    modifications := ks1.modifications + 1 }

/-- `keyspace.SetListKey`.  Faithful to the source: the new tag-map entry is
written with group `"string"` although the value is stored in `listMap`; the
expiry offset multiplication wraps `int64` as in `SetStringKey`. -/
def keyspace.SetListKey (now : GoTime) (ks : keyspace K) (key : Str) (value : List Str)
    (exp : Option ExpiryDuration) : keyspace K :=
  let ks1 :=
    match lookupS key ks.keys with
    | some ke => if ke.group = "string" then { ks with stringMap := eraseS key ks.stringMap } else ks
    | none => ks
  let expires : Option GoTime := exp.map (fun e => now + wrap64 (e.magnitude * e.resolution))
  { ks1 with
    listMap := insertS key (NewListFromSlice value) ks1.listMap
    keys := insertS key { group := "string", expires := expires } ks1.keys
    modifications := ks1.modifications + 1 }

/-- The argument of `keyspace.SetKey` (`interface{}` restricted to the two
types its `switch` handles). -/
inductive SetValue where
  | str (s : Str)
  | list (vs : List Str)
deriving DecidableEq, Repr

/-- `keyspace.SetKey`. -/
def keyspace.SetKey (now : GoTime) (ks : keyspace K) (key : Str) (value : SetValue)
    (exp : Option ExpiryDuration) : keyspace K :=
  match value with
  | .str s => keyspace.SetStringKey now ks key s exp
  | .list vs => keyspace.SetListKey now ks key vs exp

/-! ### Decimal integers (the fragment of `fmt` / `strconv` the server uses) -/

/-- The decimal digit character of `d` (for `d < 10`). -/
def digitChar : Nat → Char
  | 0 => '0'
  | 1 => '1'
  | 2 => '2'
  | 3 => '3'
  | 4 => '4'
  | 5 => '5'
  | 6 => '6'
  | 7 => '7'
  | 8 => '8'
  | 9 => '9'
  | _ => '0'

/-- Fuel-driven digit extraction (structural, so that it reduces inside
the kernel); `natDigits` supplies enough fuel for it never to run dry. -/
def natDigitsAux : Nat → Nat → List Char
  | 0, _ => []
  | fuel + 1, n =>
    if n < 10 then [digitChar n]
    else natDigitsAux fuel (n / 10) ++ [digitChar (n % 10)]

/-- Decimal digits of a natural number, most significant first
(`fmt.Sprintf` with a non-negative `%d` argument). -/
def natDigits (n : Nat) : List Char := natDigitsAux (n + 1) n

/-- `fmt.Sprintf` of a signed `%d` argument. -/
def intDigits (i : Int) : List Char :=
  if i < 0 then '-' :: natDigits (-i).toNat else natDigits i.toNat

/-- Whether a character is a decimal digit. -/
def isDigit (c : Char) : Bool := 48 ≤ c.toNat && c.toNat ≤ 57

/-- Numeric value of a digit character. -/
def digitVal (c : Char) : Nat := c.toNat - 48

/-- Value of a digit run (the accumulation loop of `strconv`). -/
def digitsVal (s : List Char) : Nat := s.foldl (fun a c => a * 10 + digitVal c) 0

/-- `strconv.ParseUint(s, 10, 0)`: digits only (no sign), error on empty
input, on a non-digit and on overflow past `2^64 - 1`. -/
def goParseUint (s : Str) : Option Nat :=
  if s ≠ [] ∧ s.all isDigit ∧ digitsVal s < 2 ^ 64 then some (digitsVal s) else none

/-- `strconv.ParseInt(s, 10, 0)`: an optional single sign followed by
digits; errors mirror `ParseUint`, with the `int64` range check. -/
def goParseInt (s : Str) : Option Int :=
  match s with
  | [] => none
  | c :: rest =>
    if c = '-' then
      if rest ≠ [] ∧ rest.all isDigit ∧ digitsVal rest ≤ 2 ^ 63 then
        some (-(digitsVal rest : Int))
      else none
    else if c = '+' then
      if rest ≠ [] ∧ rest.all isDigit ∧ digitsVal rest < 2 ^ 63 then
        some (digitsVal rest : Int)
      else none
    else
      if (c :: rest).all isDigit ∧ digitsVal (c :: rest) < 2 ^ 63 then
        some (digitsVal (c :: rest) : Int)
      else none


/-! ### `keyspace.go` — remaining operations -/

/-- `keyspace.IncrementBy`: on an absent key the key is created with value
`"0"` and `0` is returned, without counting a modification; on a `string`
key holding a decimal integer the value is bumped and one modification is
counted. -/
def keyspace.IncrementBy (ks : keyspace K) (key : Str) (value : Int) :
    Except Str Int × keyspace K :=
  match lookupS key ks.keys with
  | none =>
    (.ok 0,
      { ks with
        keys := insertS key { group := "string", expires := none } ks.keys
        stringMap := insertS key "0".data ks.stringMap })
  | some ke =>
    if ke.group ≠ "string" then
      (.error ("key '".data ++ key ++ "' does not support this operation".data), ks)
    else
      match lookupS key ks.stringMap with
      | none => (.error ("key '".data ++ key ++ "' not found".data), ks)
      | some strVal =>
        match goParseInt strVal with
        | none => (.error ("key '".data ++ key ++ "' cannot be parsed to integer".data), ks)
        | some intVal =>
          let newVal := wrap64 (intVal + value)
          (.ok newVal,
            { ks with
              stringMap := insertS key (intDigits newVal) ks.stringMap
              modifications := ks.modifications + 1 })

/-- `keyspace.PushToTail`: on an absent key a fresh list is created (without
counting a modification); on a `list` key the values are appended and one
modification is counted. -/
def keyspace.PushToTail (ks : keyspace K) (key : Str) (values : List Str) :
    Except Str Int × keyspace K :=
  match lookupS key ks.keys with
  | none =>
    (.ok (values.length : Int),
      { ks with
        listMap := insertS key (NewListFromSlice values) ks.listMap
        keys := insertS key { group := "list", expires := none } ks.keys })
  | some ke =>
    if ke.group ≠ "list" then
      (.error ("key '".data ++ key ++ "' does not support this operation".data), ks)
    else
      match lookupS key ks.listMap with
      | none => (.error ("key '".data ++ key ++ "' not found".data), ks)
      | some listVal =>
        let l2 := AppendSliceToTail listVal values
        (.ok (listSize l2),
          { ks with
            listMap := insertS key l2 ks.listMap
            modifications := ks.modifications + 1 })

/-- `keyspace.PushToHead` — as `PushToTail` with head insertion. -/
def keyspace.PushToHead (ks : keyspace K) (key : Str) (values : List Str) :
    Except Str Int × keyspace K :=
  match lookupS key ks.keys with
  | none =>
    (.ok (values.length : Int),
      { ks with
        listMap := insertS key (NewListFromSlice values) ks.listMap
        keys := insertS key { group := "list", expires := none } ks.keys })
  | some ke =>
    if ke.group ≠ "list" then
      (.error ("key '".data ++ key ++ "' does not support this operation".data), ks)
    else
      match lookupS key ks.listMap with
      | none => (.error ("key '".data ++ key ++ "' not found".data), ks)
      | some listVal =>
        let l2 := AppendSliceToHead listVal values
        (.ok (listSize l2),
          { ks with
            listMap := insertS key l2 ks.listMap
            modifications := ks.modifications + 1 })

/-! ### `rbtree.go` — operations -/

/-- Ascending sort of a bucket of strings (`sort.Sort` on a `nodevalue`,
whose `Less` is the Go byte-wise `<` on strings; for valid UTF-8 that order
coincides with the lexicographic order on the character sequences). -/
def sortStr (l : List Str) : List Str := List.insertionSort (· ≤ ·) l

/-- The descent of `rbtree.Put`: appends to (and re-sorts) the bucket of an
equal key, otherwise inserts a fresh node at the leaf reached. -/
def RBNode.put [LinearOrder K] : RBNode K → K → Str → RBNode K
  | .leaf, k, v => .node .leaf k [v] .leaf
  | .node l key es r, k, v =>
    if k > key then .node l key es (RBNode.put r k v)
    else if k < key then .node (RBNode.put l k v) key es r
    else .node l key (sortStr (es ++ [v])) r

/-- `rbtree.Put` — `size` is incremented on every call. -/
def rbtree.Put [LinearOrder K] (t : rbtree K) (k : K) (v : Str) : rbtree K :=
  { root := t.root.put k v, size := t.size + 1 }

/-- `rbtree.Size`. -/
def rbtree.Size (t : rbtree K) : Int := t.size

/-- The key of the leftmost node (`rbtree.min`); `none` models the nil
dereference `Min` performs on an empty tree. -/
def RBNode.minKey : RBNode K → Option K
  | .leaf => none
  | .node l k _ _ => some ((RBNode.minKey l).getD k)

/-- The key of the rightmost node (`rbtree.max`). -/
def RBNode.maxKey : RBNode K → Option K
  | .leaf => none
  | .node _ k _ r => some ((RBNode.maxKey r).getD k)

/-- `rbtree.rangeGetValues`: in-order collection of the buckets of all keys
in `[lo, hi]`, pruned by the `> lo` / `< hi` guards of the source. -/
def RBNode.rangeGetValues [LinearOrder K] : RBNode K → K → K → List Str
  | .leaf, _, _ => []
  | .node l key es r, lo, hi =>
    (if key > lo then RBNode.rangeGetValues l lo hi else []) ++
      (if lo ≤ key ∧ key ≤ hi then es else []) ++
      (if key < hi then RBNode.rangeGetValues r lo hi else [])

/-- `rbtree.RangeGetValues`. -/
def rbtree.RangeGetValues [LinearOrder K] (t : rbtree K) (lo hi : K) : List Str :=
  t.root.rangeGetValues lo hi

/-- `rbtree.GetValueSet` = `RangeGetValues(Min(), Max())`; on an empty tree
`Min` dereferences a nil pointer, modelled by `none`. -/
def rbtree.GetValueSet [LinearOrder K] (t : rbtree K) : Option (List Str) :=
  match t.root.minKey, t.root.maxKey with
  | some lo, some hi => some (t.RangeGetValues lo hi)
  | _, _ => none

/-- In-order `(key, entries)` list of a tree (the sequence visited by
`rbtree.InOrderTraversal`). -/
def RBNode.inorder : RBNode K → List (K × List Str)
  | .leaf => []
  | .node l k es r => RBNode.inorder l ++ (k, es) :: RBNode.inorder r

/-! ### `keyspace.go` — sorted-set operations -/

/-- The loop of `PutInSortedSet` over alternating raw score / member
arguments: unparsable scores are skipped, each parsed pair is `Put` and
counted.  `none` models the index-out-of-range panic on an odd-length
argument list.  `ps` abstracts `strconv.ParseFloat` (the `float64` score
domain is abstracted to an arbitrary linearly ordered type). -/
def putPairsLoop [LinearOrder K] (ps : Str → Option K) :
    rbtree K → List Str → Int → Option (rbtree K × Int)
  | t, [], added => some (t, added)
  | _, [_], _ => none
  | t, rawScore :: member :: rest, added =>
    match ps rawScore with
    | none => putPairsLoop ps t rest added
    | some score => putPairsLoop ps (t.Put score member) rest (added + 1)

/-- `keyspace.PutInSortedSet` (`none` models a panic in its loop). -/
def keyspace.PutInSortedSet [LinearOrder K] (ps : Str → Option K) (ks : keyspace K)
    (key : Str) (values : List Str) : Option (Except Str Int × keyspace K) :=
  let ksKe : keyspace K × keyspaceEntry :=
    match lookupS key ks.keys with
    | some ke => (ks, ke)
    | none =>
      let ke : keyspaceEntry := { group := "sorted-set", expires := none }
      ({ ks with
          sortedSetMap := insertS key (NewTree K) ks.sortedSetMap
          keys := insertS key ke ks.keys }, ke)
  let ks0 := ksKe.1
  let ke := ksKe.2
  if ke.group ≠ "sorted-set" then
    some (.error ("key '".data ++ key ++ "' does not support this operation".data), ks0)
  else
    match lookupS key ks0.sortedSetMap with
    | none => some (.error ("key '".data ++ key ++ "' not found".data), ks0)
    | some setVal =>
      match putPairsLoop ps setVal values 0 with
      | none => none
      | some (t2, added) =>
        some (.ok added,
          { ks0 with
            sortedSetMap := insertS key t2 ks0.sortedSetMap
            modifications := ks0.modifications + 1 })

/-- Go slicing `l[a:b]`: defined only for `0 ≤ a ≤ b ≤ len(l)`; `none`
models the slice-bounds-out-of-range panic. -/
def goSliceRange (l : List α) (a b : Int) : Option (List α) :=
  if 0 ≤ a ∧ a ≤ b ∧ b ≤ (l.length : Int) then some ((l.take b.toNat).drop a.toNat)
  else none

/-- Outcome of `GetSortedSetValuesByRange`: a value, a Go error, or a
runtime panic. -/
inductive RangeOut where
  | ok (values : List Str)
  | err (msg : Str)
  | panic
deriving DecidableEq, Repr

/-- `keyspace.GetSortedSetValuesByRange`: only a negative `stop` is
normalised (`stop = size + stop + 1`); the slice `allValues[start:stop]` is
taken unguarded. -/
def keyspace.GetSortedSetValuesByRange [LinearOrder K] (ks : keyspace K) (key : Str)
    (start stop : Int) : RangeOut :=
  match lookupS key ks.keys with
  | none => .err ("key '".data ++ key ++ "' does not support this operation".data)
  | some ke =>
    if ke.group ≠ "sorted-set" then
      .err ("key '".data ++ key ++ "' does not support this operation".data)
    else
      match lookupS key ks.sortedSetMap with
      | none => .err ("key '".data ++ key ++ "' not found".data)
      | some setVal =>
        let stop2 := if stop < 0 then setVal.Size + stop + 1 else stop
        match setVal.GetValueSet with
        | none => .panic
        | some allValues =>
          match goSliceRange allValues start stop2 with
          | none => .panic
          | some values => .ok values

/-- `CheckIsExpired`. -/
def CheckIsExpired (now : GoTime) (ke : keyspaceEntry) : Bool :=
  match ke.expires with
  | none => false
  | some expires => expires < now

/-! ### `protocol.go` — RESP codec -/

/-- Result of a Go call that may return a value, return an error, or panic
at runtime. -/
inductive GoResult (α : Type) where
  | ok (a : α)
  | err (msg : Str)
  | panic
deriving DecidableEq, Repr

/-- Index of the first occurrence of `c`. -/
def findChar (c : Char) : Str → Option Nat
  | [] => none
  | x :: r => if x = c then some 0 else (findChar c r).map (· + 1)

/-- `getFirstCRIndex`: index of the first `\r`, or `0` when there is none. -/
def getFirstCRIndex (raw : Str) : Nat := (findChar '\r' raw).getD 0

/-- `decodeBulkString` (on the bytes after the leading `$`).  The `ok`
payload is `none` for the `$-1` null bulk string, whose branch returns a
nil slice and a nil error. -/
def decodeBulkString (raw : Str) : GoResult (Option (List Str)) :=
  let rawLength := raw.takeWhile (fun c => c ≠ '\r')
  let dataStartIndex : Nat :=
    match findChar '\r' raw with
    | some i => i + 2
    | none => 0
  match rawLength with
  | [] => .panic
  | c0 :: _ =>
    if c0 = '-' ∧ rawLength ≠ "-1".data then .err "invalid null string".data
    else
      match goParseInt rawLength with
      | none => .err "strconv".data
      | some length =>
        if length = -1 then .ok none
        else if length = 0 then .ok (some [[]])
        else if raw.length < 2 then .panic
        else
          let lastByte := raw.getD (raw.length - 2) ' '
          match raw.get? (dataStartIndex + length.toNat) with
          | none => .panic
          | some probe =>
            if lastByte ≠ probe then .err "data does not match length".data
            else if raw.length - 2 < dataStartIndex then .panic
            else .ok (some [(raw.take (raw.length - 2)).drop dataStartIndex])

/-- Index of the leftmost occurrence of the two-byte sequence `a b`
(the search `strings.Index(s, needle)` performs for a needle of length
two). -/
def findPair (a b : Char) : Str → Option Nat
  | c :: d :: r => if c = a ∧ d = b then some 0 else (findPair a b (d :: r)).map (· + 1)
  | _ => none

/-- Index of the first `\r\n`. -/
def findCRLF (s : Str) : Option Nat := findPair '\r' '\n' s

/-- Fuel-driven splitter body (structural so that it reduces inside the
kernel); when the fuel is at least the length of the string it never runs
dry, because each step consumes at least two characters. -/
def splitOnCRLFAux : Nat → Str → List Str
  | 0, s => [s]
  | fuel + 1, s =>
    match findCRLF s with
    | none => [s]
    | some i => s.take i :: splitOnCRLFAux fuel (s.drop (i + 2))

/-- `strings.Split(s, "\r\n")`: leftmost-first, non-overlapping. -/
def splitOnCRLF (s : Str) : List Str := splitOnCRLFAux s.length s

/-- The element loop of `decodeArray` over the `\r\n`-split chunks: a
`$<len>` line followed by a data line, repeated.  `split[i][1:]` on an empty
chunk and `split[i+1]` past the end are Go panics. -/
def pairsLoop : List Str → GoResult (List Str)
  | [] => .ok []
  | [single] =>
    match single with
    | [] => .panic
    | _ :: rawLength =>
      match goParseInt rawLength with
      | none => .err "strconv".data
      | some _ => .panic
  | first :: data :: rest =>
    match first with
    | [] => .panic
    | _ :: rawLength =>
      match goParseInt rawLength with
      | none => .err "strconv".data
      | some length =>
        if (data.length : Int) ≠ length then .err "length and data mismatch".data
        else
          match pairsLoop rest with
          | .ok parsed => .ok (data :: parsed)
          | .err m => .err m
          | .panic => .panic

/-- `decodeArray` (on the bytes after the leading `*`).  The slice
`s[crIndex+2:]` is a Go panic when `crIndex + 2` exceeds the length (e.g.
the input `3\r` after the `*`), modelled by `.panic`. -/
def decodeArray (raw : Str) : GoResult (List Str) :=
  let crIndex := getFirstCRIndex raw
  match goParseUint (raw.take crIndex) with
  | none => .err "failed to parse number of elements to unsigned int".data
  | some numOfElements =>
    if numOfElements = 0 then .ok []
    else if raw.length < crIndex + 2 then .panic
    else
      let split0 := splitOnCRLF (raw.drop (crIndex + 2))
      let split := if split0.getLast? = some [] then split0.dropLast else split0
      pairsLoop split

/-- `DecodeMessage`: dispatch on the first byte.  The `ok` payload is the
`processed` field of the returned `Cmd` (`none` for a null bulk string). -/
def DecodeMessage (rawMessage : Str) : GoResult (Option (List Str)) :=
  match rawMessage with
  | [] => .err "Got an empty message".data
  | first :: remaining =>
    if first = '$' then decodeBulkString remaining
    else if first = '*' then
      match decodeArray remaining with
      | .ok parsed => .ok (some parsed)
      | .err m => .err m
      | .panic => .panic
    else .err "invalid first byte".data

/-- `SerializeBulkString`. -/
def SerializeBulkString (data : Str) : Str :=
  '$' :: natDigits data.length ++ "\r\n".data ++ data ++ "\r\n".data

/-- `SerializeSimpleString`. -/
def SerializeSimpleString (data : Str) : Str := '+' :: data ++ "\r\n".data

/-- `SerializeSimpleError`. -/
def SerializeSimpleError (data : Str) : Str := '-' :: data ++ "\r\n".data

/-- The `NIL_BULK_STRING` constant. -/
def NIL_BULK_STRING : Str := "$-1\r\n".data

/-- Modelled from the spec: `SerializeInteger` is referenced by
`command.go` but defined in a revision of `protocol.go` outside `src/`;
§4.D gives the integer encoding `:<n>\r\n`. -/
def SerializeInteger (n : Int) : Str := ':' :: intDigits n ++ "\r\n".data

/-- Modelled from the spec: `OK_SIMPLE_STRING` is the canonical `+OK\r\n`
reply of §4.D, defined outside `src/`. -/
def OK_SIMPLE_STRING : Str := "+OK\r\n".data

/-! ### `command.go` — command layer -/

/-- The `Command` constants. -/
inductive Command where
  | ping | echo | set | get | config | expire | expireat | exists
  | del | incr | decr | rpush | lpush | subscribe | publish | zadd | zrange
deriving DecidableEq, Repr

/-- `cmdParseTable`. -/
def cmdParseTable (w : String) : Option Command :=
  match w with
  | "ping" => some .ping
  | "echo" => some .echo
  | "set" => some .set
  | "get" => some .get
  | "config" => some .config
  | "expire" => some .expire
  | "expireat" => some .expireat
  | "exists" => some .exists
  | "del" => some .del
  | "incr" => some .incr
  | "decr" => some .decr
  | "rpush" => some .rpush
  | "lpush" => some .lpush
  | "subscribe" => some .subscribe
  | "publish" => some .publish
  | "zadd" => some .zadd
  | "zrange" => some .zrange
  | _ => none

/-- `Cmd.Parse`: lowercases the first processed word and resolves it in the
table; indexing `processed[0]` of an empty slice is a panic. -/
def cmdParse (processed : List Str) : GoResult (Command × List Str) :=
  match processed with
  | [] => .panic
  | w :: args =>
    match cmdParseTable (String.mk (w.map Char.toLower)) with
    | none => .err "invalid command".data
    | some cmd => .ok (cmd, args)

/-- `wrongNumOfArgsErr`. -/
def wrongNumOfArgsErr : Str := "wrong number of arguments.".data

/-- `processSet`. -/
def processSet (now : GoTime) (args : List Str) (ks : keyspace K) :
    GoResult Str × keyspace K :=
  match args with
  | key :: value :: rest =>
    match rest with
    | [] => (.ok OK_SIMPLE_STRING, keyspace.SetKey now ks key (.str value) none)
    | [resolutionRaw, deltaRaw] =>
      let resolutionType := resolutionRaw.map Char.toUpper
      if resolutionType ≠ "EX".data ∧ resolutionType ≠ "PX".data then
        (.err "invalid resolution type".data, ks)
      else
        let resolution := if resolutionType = "EX".data then nsPerSec else nsPerMilli
        match goParseInt deltaRaw with
        | none => (.err "strconv".data, ks)
        | some delta =>
          (.ok OK_SIMPLE_STRING,
            keyspace.SetKey now ks key (.str value)
              (some { magnitude := delta, resolution := resolution }))
    | _ => (.err wrongNumOfArgsErr, ks)
  | _ => (.err wrongNumOfArgsErr, ks)

/-- `processExpire`. -/
def processExpire (now : GoTime) (args : List Str) (ks : keyspace K) :
    GoResult Str × keyspace K :=
  match args with
  | [key, rawDelta] =>
    match goParseInt rawDelta with
    | none =>
      (.ok (SerializeSimpleError ("could not parse '".data ++ rawDelta ++ "' to integer".data)), ks)
    | some delta =>
      let r := keyspace.Expire now ks key delta
      if r.1 then (.ok (SerializeInteger 1), r.2) else (.ok (SerializeInteger 0), r.2)
  | _ => (.err wrongNumOfArgsErr, ks)

/-- `processExpireAt` — the stamp is whole Unix seconds
(`time.Unix(stamp, 0)`). -/
def processExpireAt (args : List Str) (ks : keyspace K) :
    GoResult Str × keyspace K :=
  match args with
  | [key, rawStamp] =>
    match goParseInt rawStamp with
    | none =>
      (.ok (SerializeSimpleError ("could not parse '".data ++ rawStamp ++ "' to integer".data)), ks)
    | some stamp =>
      let r := keyspace.ExpireAt ks key (stamp * nsPerSec)
      if r.1 then (.ok (SerializeInteger 1), r.2) else (.ok (SerializeInteger 0), r.2)
  | _ => (.err wrongNumOfArgsErr, ks)

/-- The summation loop shared by `processExists` and `processDelete`:
adds up the positive per-key counts. -/
def finalCount (keyCount : List (Str × Int)) : Int :=
  keyCount.foldl (fun acc p => if 0 < p.2 then acc + p.2 else acc) 0

/-- `processExists`. -/
def processExists (args : List Str) (ks : keyspace K) : GoResult Str × keyspace K :=
  match args with
  | [] => (.err wrongNumOfArgsErr, ks)
  | _ => (.ok (SerializeInteger (finalCount (keyspace.BulkExists ks args))), ks)

/-- `processDelete`. -/
def processDelete (args : List Str) (ks : keyspace K) : GoResult Str × keyspace K :=
  match args with
  | [] => (.err wrongNumOfArgsErr, ks)
  | _ =>
    let r := keyspace.BulkDelete ks args
    (.ok (SerializeInteger (finalCount r.1)), r.2)

/-- `processIncrement`. -/
def processIncrement (args : List Str) (ks : keyspace K) : GoResult Str × keyspace K :=
  match args with
  | [key] =>
    match keyspace.IncrementBy ks key 1 with
    | (.ok value, ks2) => (.ok (SerializeInteger value), ks2)
    | (.error msg, ks2) => (.ok (SerializeSimpleError msg), ks2)
  | _ => (.err wrongNumOfArgsErr, ks)

/-- `processDecrement`. -/
def processDecrement (args : List Str) (ks : keyspace K) : GoResult Str × keyspace K :=
  match args with
  | [key] =>
    match keyspace.IncrementBy ks key (-1) with
    | (.ok value, ks2) => (.ok (SerializeInteger value), ks2)
    | (.error msg, ks2) => (.ok (SerializeSimpleError msg), ks2)
  | _ => (.err wrongNumOfArgsErr, ks)

/-- `processRPush`. -/
def processRPush (args : List Str) (ks : keyspace K) : GoResult Str × keyspace K :=
  match args with
  | [] => (.err wrongNumOfArgsErr, ks)
  | key :: values =>
    match keyspace.PushToTail ks key values with
    | (.ok length, ks2) => (.ok (SerializeInteger length), ks2)
    | (.error msg, ks2) => (.ok (SerializeSimpleError msg), ks2)

/-- `processLPush`. -/
def processLPush (args : List Str) (ks : keyspace K) : GoResult Str × keyspace K :=
  match args with
  | [] => (.err wrongNumOfArgsErr, ks)
  | key :: values =>
    match keyspace.PushToHead ks key values with
    | (.ok length, ks2) => (.ok (SerializeInteger length), ks2)
    | (.error msg, ks2) => (.ok (SerializeSimpleError msg), ks2)

/-- The command dispatch of `Cmd.Process`, restricted to the keyspace
commands modelled here.  The snapshot loader — the only caller of this
dispatcher in the model — replays a stream written by `Save`, which emits
only `set`, `expireat` and `rpush` frames; the network-facing commands
(`ping`, `echo`, `get`, `config`, `subscribe`, `publish`, `zadd`,
`zrange`) are never produced by `Save` and are routed to an error like the
dispatcher default. -/
def cmdProcess (now : GoTime) (cmd : Command) (args : List Str) (ks : keyspace K) :
    GoResult Str × keyspace K :=
  match cmd with
  | .set => processSet now args ks
  | .expire => processExpire now args ks
  | .expireat => processExpireAt args ks
  | .exists => processExists args ks
  | .del => processDelete args ks
  | .incr => processIncrement args ks
  | .decr => processDecrement args ks
  | .rpush => processRPush args ks
  | .lpush => processLPush args ks
  | _ => (.err "invalid command".data, ks)

/-! ### `app.go` — snapshot writer, stream splitter, loader -/

/-- `time.Time.Unix()`: whole seconds since the epoch (floor division). -/
def unixSec (t : GoTime) : Int := Int.fdiv t nsPerSec

/-- The `SET` frame `Save` writes for a string key. -/
def setFrame (k v : Str) : Str :=
  "*3\r\n$3\r\nset\r\n".data ++ SerializeBulkString k ++ SerializeBulkString v

/-- The `EXPIREAT` frame `Save` writes for a volatile key. -/
def expireatFrame (k : Str) (exp : Int) : Str :=
  "*3\r\n$8\r\nexpireat\r\n".data ++ SerializeBulkString k ++
    '$' :: natDigits (intDigits exp).length ++ "\r\n".data ++ intDigits exp ++ "\r\n".data

/-- The `RPUSH` frame `Save` writes for a non-empty list key. -/
def rpushFrame (k : Str) (l : GoList) : Str :=
  '*' :: natDigits (l.length + 2) ++ "\r\n".data ++ "$5\r\nrpush\r\n".data ++
    SerializeBulkString k ++ (l.map SerializeBulkString).flatten

/-- The frames `Save` emits for one `stringMap` entry (a Go map read of a
missing tag entry yields the zero value, whose `expires` is nil). -/
def stringEntryFrames (ks : keyspace K) (p : Str × Str) : List Str :=
  setFrame p.1 p.2 ::
    (match ((lookupS p.1 ks.keys).getD { group := "", expires := none }).expires with
    | some t => [expireatFrame p.1 (unixSec t)]
    | none => [])

/-- The frames `Save` emits for one `listMap` entry (skipped entirely when
the list is empty). -/
def listEntryFrames (ks : keyspace K) (p : Str × GoList) : List Str :=
  if 0 < p.2.length then
    rpushFrame p.1 p.2 ::
      (match ((lookupS p.1 ks.keys).getD { group := "", expires := none }).expires with
      | some t => [expireatFrame p.1 (unixSec t)]
      | none => [])
  else []

/-- The individual frames of a snapshot, in emission order. -/
def saveFrames (ks : keyspace K) : List Str :=
  ks.stringMap.flatMap (stringEntryFrames ks) ++ ks.listMap.flatMap (listEntryFrames ks)

/-- `ApplicationState.Save`: the emitted byte stream paired with the state
after `ResetCounter`. -/
def Save (ks : keyspace K) : Str × keyspace K :=
  ((saveFrames ks).flatten, { ks with modifications := 0 })

/-- Index of the first `"\n*"` (the boundary `splitByBulkArray` scans
for). -/
def findNlStar (s : Str) : Option Nat := findPair '\n' '*' s

/-- `bufio.MaxScanTokenSize`: the scanner's maximum token size (64 KiB). -/
def maxScanTokenSize : Nat := 65536

/-- Fuel-driven scanner body (structural so that it reduces inside the
kernel); fuel at least the length of the stream never runs dry because
each emitted token consumes at least one character.  A token longer than
`maxScanTokenSize` is never produced: the scanner's buffer fills and
`Scan` returns false with `ErrTooLong` (which `Load` never inspects), so
the rest of the stream is dropped. -/
def scanFramesAux : Nat → Str → List Str
  | 0, _ => []
  | fuel + 1, s =>
    if s = [] then []
    else
      match findNlStar s with
      | some i =>
        if i + 1 ≤ maxScanTokenSize then
          s.take (i + 1) :: scanFramesAux fuel (s.drop (i + 1))
        else []
      | none => if s.length ≤ maxScanTokenSize then [s] else []

/-- The token sequence that `bufio.Scanner` produces under
`splitByBulkArray`: each token ends at the byte before the next
`"\n*"` boundary; the remainder (if any) is the final token. -/
def scanFrames (s : Str) : List Str := scanFramesAux s.length s

/-- Processing of one scanned token by `ApplicationState.Load`: decode and
parse errors skip the token, process errors keep the (already mutated)
state; a panic aborts (`none`). -/
def loadToken (now : GoTime) (ks : keyspace K) (line : Str) : Option (keyspace K) :=
  match DecodeMessage line with
  | .panic => none
  | .err _ => some ks
  | .ok none => none
  | .ok (some processed) =>
    match cmdParse processed with
    | .panic => none
    | .err _ => some ks
    | .ok (cmd, args) =>
      match cmdProcess now cmd args ks with
      | (.panic, _) => none
      | (_, ks2) => some ks2

/-- `ApplicationState.Load`: split the stream, replay each token, then
reset the modification counter. -/
def Load (now : GoTime) (ks : keyspace K) (stream : Str) : Option (keyspace K) :=
  ((scanFrames stream).foldl (fun acc line => acc.bind (fun s => loadToken now s line))
      (some ks)).map
    (fun s => { s with modifications := 0 })

/-! ### Derived definitions used in specification statements -/

/-- Whether a Go call returned a value (as opposed to an error or panic). -/
def GoResult.isOk : GoResult α → Bool
  | .ok _ => true
  | _ => false

/-- A Go map model with pairwise-distinct keys. -/
def NodupKeys (m : List (Str × α)) : Prop := (m.map Prod.fst).Nodup

/-- The number of distinct keys among `args` that are present in the tag
map `keysMap` (what DEL removes and reports). -/
def distinctExisting (keysMap : List (Str × keyspaceEntry)) (args : List Str) : Int :=
  ((args.toFinset.filter (fun k => (lookupS k keysMap).isSome)).card : Int)

/-- The sum of the positive entries of a count map (the mathematical value
`finalCount` computes). -/
def sumPos (m : List (Str × Int)) : Int :=
  (m.map (fun p => if 0 < p.2 then p.2 else 0)).sum

/-- The number of keys the `BulkDelete` loop removes, following its
left-to-right sweep: an occurrence of a present key deletes it (so a later
duplicate no longer finds it). -/
def delCount (keysMap : List (Str × keyspaceEntry)) : List Str → Int
  | [] => 0
  | k :: rest =>
    match lookupS k keysMap with
    | some _ => 1 + delCount (eraseS k keysMap) rest
    | none => delCount keysMap rest

/-- The deadline a snapshot round trip reproduces: quantized to whole
seconds (`EXPIREAT` stores integer Unix seconds). -/
def quantizeTime (t : GoTime) : GoTime := unixSec t * nsPerSec

/-- Key/value byte sequences that the snapshot format transports intact:
free of `\r` and `\n`, not beginning with `*`, and short enough for their
length to survive `strconv.ParseInt`. -/
def SnapContent (s : Str) : Prop :=
  '\r' ∉ s ∧ '\n' ∉ s ∧ s.head? ≠ some '*' ∧ (s.length : Int) < 2 ^ 63

/-- Well-formed string/list-only keyspace states (the states quantified by
the snapshot round-trip property): distinct keys per map, no sorted sets,
and tag/value maps that agree. -/
def SnapshotWF (ks : keyspace K) : Prop :=
  NodupKeys ks.keys ∧ NodupKeys ks.stringMap ∧ NodupKeys ks.listMap ∧
  ks.sortedSetMap = [] ∧
  (∀ k v, lookupS k ks.stringMap = some v →
    ∃ e, lookupS k ks.keys = some e ∧ e.group = "string") ∧
  (∀ k l, lookupS k ks.listMap = some l →
    ∃ e, lookupS k ks.keys = some e ∧ e.group = "list") ∧
  (∀ k e, lookupS k ks.keys = some e →
    (e.group = "string" ∧ (lookupS k ks.stringMap).isSome ∧ lookupS k ks.listMap = none) ∨
    (e.group = "list" ∧ (lookupS k ks.listMap).isSome ∧ lookupS k ks.stringMap = none))

/-- Content restrictions under which the snapshot stream is parsed back
losslessly: transportable keys and values, non-empty lists (`Save` skips
empty ones), deadlines whose Unix-second stamp fits `int64`, and frames
that fit the scanner's 64 KiB token buffer (`bufio.MaxScanTokenSize`) — a
longer frame makes `Scan` stop with `ErrTooLong` and drops the rest of the
stream. -/
def SnapContentOK (ks : keyspace K) : Prop :=
  (∀ p ∈ ks.stringMap, SnapContent p.1 ∧ SnapContent p.2) ∧
  (∀ p ∈ ks.listMap, SnapContent p.1 ∧ p.2 ≠ [] ∧ (∀ v ∈ p.2, SnapContent v) ∧
    ((p.2.length : Int) + 2 < 2 ^ 64)) ∧
  (∀ p ∈ ks.keys, ∀ t, p.2.expires = some t →
    -(2 ^ 63) ≤ unixSec t ∧ unixSec t < 2 ^ 63) ∧
  (∀ p ∈ ks.stringMap, ∀ f ∈ stringEntryFrames ks p, f.length ≤ maxScanTokenSize) ∧
  (∀ p ∈ ks.listMap, ∀ f ∈ listEntryFrames ks p, f.length ≤ maxScanTokenSize)

/-- No occurrence of the adjacent pair `a b` (e.g. no `"\n*"` inside one
snapshot frame). -/
def pairFree (a b : Char) (s : Str) : Prop := findPair a b s = none

/-- The in-order `(score, bucket)` association list a put sequence builds:
fresh scores are inserted in score order, an existing score has the new
member appended to its bucket, which is then re-sorted. -/
def assocPut [LinearOrder K] (k : K) (v : Str) :
    List (K × List Str) → List (K × List Str)
  | [] => [(k, [v])]
  | (k2, es) :: rest =>
    if k < k2 then (k, [v]) :: (k2, es) :: rest
    else if k = k2 then (k2, sortStr (es ++ [v])) :: rest
    else (k2, es) :: assocPut k v rest

/-- The tree built by a sequence of `Put` calls (one ZADD score/member
pair each) starting from `NewTree`. -/
def buildTree [LinearOrder K] (ops : List (K × Str)) : rbtree K :=
  ops.foldl (fun t p => t.Put p.1 p.2) (NewTree K)

/-- What `ZRANGE k 0 -1` actually returns for the multiset inserted by
`ops`: members grouped by ascending score, the members of each score
listed in ascending (byte-wise lexicographic) order. -/
def zrangeSpec [LinearOrder K] (ops : List (K × Str)) : List Str :=
  (List.insertionSort (· ≤ ·) (ops.map Prod.fst).dedup).flatMap
    (fun s => sortStr ((ops.filter (fun p => p.1 = s)).map Prod.snd))

/-- The per-node bound predicate of a binary search tree. -/
def RBNode.Forall (p : K → Prop) : RBNode K → Prop
  | .leaf => True
  | .node l k _ r => p k ∧ RBNode.Forall p l ∧ RBNode.Forall p r

/-- The binary-search-tree invariant `Put` maintains. -/
def RBNode.Ordered [LinearOrder K] : RBNode K → Prop
  | .leaf => True
  | .node l k _ r =>
    RBNode.Ordered l ∧ RBNode.Ordered r ∧
      RBNode.Forall (· < k) l ∧ RBNode.Forall (k < ·) r

/-! ### Claim C1 -/

/-- A keyspace holding one sorted-set key whose deadline (5 ns) has passed
by `now = 10`; used to exhibit the sorted-set gaps of `Get`/`BulkDelete`. -/
def ksSortedExpired : keyspace Int :=
  { keys := [("s".data, { group := "sorted-set", expires := some 5 })]
    stringMap := []
    listMap := []
    sortedSetMap := [("s".data, (NewTree Int).Put 1 "a".data)]
    modifications := 0 }

/-! ### Claim C6 -/

/-- A keyspace holding one sorted-set key with a single member. -/
def ksOneSorted : keyspace Int :=
  { keys := [("s".data, { group := "sorted-set", expires := none })]
    stringMap := []
    listMap := []
    sortedSetMap := [("s".data, (NewTree Int).Put 1 "a".data)]
    modifications := 0 }

/-- Association-list lookup keyed by score (used only to state properties
of the in-order list). -/
def lookupA [DecidableEq K] (k : K) : List (K × List Str) → Option (List Str)
  | [] => none
  | (k2, es) :: rest => if k2 = k then some es else lookupA k rest

/-- A keyspace holding a single sorted-set key (the state `ZADD` builds on a
fresh key before `ZRANGE` reads it back). -/
def sortedSetKeyspace (key : Str) (t : rbtree K) : keyspace K :=
  { keys := [(key, { group := "sorted-set", expires := none })]
    stringMap := []
    listMap := []
    sortedSetMap := [(key, t)]
    modifications := 0 }

instance (m : List (Str × α)) : Decidable (NodupKeys m) :=
  inferInstanceAs (Decidable ((m.map Prod.fst).Nodup))

instance (s : Str) : Decidable (SnapContent s) :=
  inferInstanceAs (Decidable
    ('\r' ∉ s ∧ '\n' ∉ s ∧ s.head? ≠ some '*' ∧ (s.length : Int) < 2 ^ 63))

/-- A state whose string value contains the byte pair `"\n*"` — the
delimiter `splitByBulkArray` scans for. -/
def badSnapshotState : keyspace Int :=
  { keys := [("k".data, ⟨"string", none⟩)]
    stringMap := [("k".data, "a\n*b".data)]
    listMap := []
    sortedSetMap := []
    modifications := 0 }

/-- A well-formed two-key state (a volatile string key and a list key) used
to witness the snapshot round trip. -/
def goodSnapshotState : keyspace Int :=
  { keys := [("s".data, ⟨"string", some 2500000000⟩), ("l".data, ⟨"list", none⟩)]
    stringMap := [("s".data, "v".data)]
    listMap := [("l".data, ["a".data, "b".data])]
    sortedSetMap := []
    modifications := 7 }

/-! ## Theorems -/

@[simp] theorem lookupS_nil (k : Str) : lookupS k ([] : List (Str × α)) = none := rfl

@[simp] theorem lookupS_cons (k k2 : Str) (v : α) (m : List (Str × α)) :
    lookupS k ((k2, v) :: m) = if k2 = k then some v else lookupS k m := rfl

@[simp] theorem lookupS_eraseS_self (k : Str) (m : List (Str × α)) :
    lookupS k (eraseS k m) = none := by
  induction m with
  | nil => rfl
  | cons p rest ih =>
    obtain ⟨a, v⟩ := p
    by_cases h : a = k
    · simpa [eraseS, List.filter_cons, h] using ih
    · simpa [eraseS, List.filter_cons, h] using ih

theorem lookupS_eraseS_ne (k k2 : Str) (h : k2 ≠ k) (m : List (Str × α)) :
    lookupS k2 (eraseS k m) = lookupS k2 m := by
  induction m with
  | nil => rfl
  | cons p rest ih =>
    obtain ⟨a, v⟩ := p
    have hk2 : ¬(k = k2) := fun e => h e.symm
    by_cases ha : a = k
    · simpa [eraseS, List.filter_cons, ha, hk2] using ih
    · by_cases hb : a = k2
      · simp [eraseS, List.filter_cons, ha, hb, h]
      · simpa [eraseS, List.filter_cons, ha, hb] using ih

@[simp] theorem lookupS_insertS_self (k : Str) (v : α) (m : List (Str × α)) :
    lookupS k (insertS k v m) = some v := by
  simp [insertS]

theorem lookupS_insertS_ne (k k2 : Str) (v : α) (h : k2 ≠ k) (m : List (Str × α)) :
    lookupS k2 (insertS k v m) = lookupS k2 m := by
  have : k ≠ k2 := fun hk => h hk.symm
  simp [insertS, this, lookupS_eraseS_ne k k2 h m]

theorem natDigitsAux_fuel :
    ∀ (f1 f2 n : Nat), n < f1 → n < f2 → natDigitsAux f1 n = natDigitsAux f2 n := by
  intro f1
  induction f1 with
  | zero => intro f2 n h1; omega
  | succ f ih =>
    intro f2 n h1 h2
    cases f2 with
    | zero => omega
    | succ g =>
      by_cases h10 : n < 10
      · simp [natDigitsAux, h10]
      · have hx : n / 10 < n := Nat.div_lt_self (by omega) (by omega)
        have hd : n / 10 < f := by omega
        have hd2 : n / 10 < g := by omega
        simp [natDigitsAux, h10]
        exact ih g (n / 10) hd hd2

theorem natDigits_eq (n : Nat) :
    natDigits n = if n < 10 then [digitChar n]
      else natDigits (n / 10) ++ [digitChar (n % 10)] := by
  by_cases h10 : n < 10
  · simp [natDigits, natDigitsAux, h10]
  · have hd : n / 10 < n := Nat.div_lt_self (by omega) (by omega)
    simp [natDigits, natDigitsAux, h10]
    exact natDigitsAux_fuel n (n / 10 + 1) (n / 10) (by omega) (by omega)

theorem findPair_le (a b : Char) :
    ∀ (s : Str) (i : Nat), findPair a b s = some i → i + 2 ≤ s.length := by
  intro s
  induction s with
  | nil => intro i h; simp [findPair] at h
  | cons c r ih =>
    intro i h
    cases r with
    | nil => simp [findPair] at h
    | cons d r2 =>
      by_cases hab : c = a ∧ d = b
      · simp [findPair, hab] at h
        simp [← h]
      · simp [findPair, hab] at h
        obtain ⟨j, hj, hji⟩ := h
        have := ih j hj
        simp at this ⊢
        omega

theorem splitOnCRLFAux_fuel :
    ∀ (f1 f2 : Nat) (s : Str), s.length ≤ f1 → s.length ≤ f2 →
      splitOnCRLFAux f1 s = splitOnCRLFAux f2 s := by
  intro f1
  induction f1 with
  | zero =>
    intro f2 s h1 h2
    have hs : s = [] := List.length_eq_zero.mp (by omega)
    subst hs
    cases f2 with
    | zero => rfl
    | succ g => simp [splitOnCRLFAux, findCRLF, findPair]
  | succ f ih =>
    intro f2 s h1 h2
    cases f2 with
    | zero =>
      have hs : s = [] := List.length_eq_zero.mp (by omega)
      subst hs
      simp [splitOnCRLFAux, findCRLF, findPair]
    | succ g =>
      match hi : findCRLF s with
      | none => simp [splitOnCRLFAux, hi]
      | some i =>
        have hlen := findPair_le '\r' '\n' s i hi
        have hdrop : (s.drop (i + 2)).length ≤ f := by
          simp [List.length_drop]; omega
        have hdrop2 : (s.drop (i + 2)).length ≤ g := by
          simp [List.length_drop]; omega
        simp [splitOnCRLFAux, hi]
        exact ih g (s.drop (i + 2)) hdrop hdrop2

theorem splitOnCRLF_eq (s : Str) :
    splitOnCRLF s = match findCRLF s with
      | none => [s]
      | some i => s.take i :: splitOnCRLF (s.drop (i + 2)) := by
  match hi : findCRLF s with
  | none =>
    cases s with
    | nil => simp [splitOnCRLF, splitOnCRLFAux, findCRLF, findPair]
    | cons c r => simp only [splitOnCRLF, List.length_cons, splitOnCRLFAux, hi]
  | some i =>
    have hlen := findPair_le '\r' '\n' s i hi
    cases s with
    | nil => simp at hlen
    | cons c r =>
      simp only [splitOnCRLF, List.length_cons, splitOnCRLFAux, hi]
      have hle : ((c :: r).drop (i + 2)).length ≤ r.length := by
        simp [List.length_drop]
      rw [splitOnCRLFAux_fuel r.length ((c :: r).drop (i + 2)).length _ hle (le_refl _)]

theorem scanFramesAux_fuel :
    ∀ (f1 f2 : Nat) (s : Str), s.length ≤ f1 → s.length ≤ f2 →
      scanFramesAux f1 s = scanFramesAux f2 s := by
  intro f1
  induction f1 with
  | zero =>
    intro f2 s h1 h2
    have hs : s = [] := List.length_eq_zero.mp (by omega)
    subst hs
    cases f2 with
    | zero => rfl
    | succ g => simp [scanFramesAux]
  | succ f ih =>
    intro f2 s h1 h2
    cases f2 with
    | zero =>
      have hs : s = [] := List.length_eq_zero.mp (by omega)
      subst hs
      simp [scanFramesAux]
    | succ g =>
      by_cases hs : s = []
      · simp [scanFramesAux, hs]
      · match hi : findNlStar s with
        | none => simp [scanFramesAux, hs, hi]
        | some i =>
          by_cases hcap : i + 1 ≤ maxScanTokenSize
          · have hlen := findPair_le '\n' '*' s i hi
            have hdrop : (s.drop (i + 1)).length ≤ f := by
              simp [List.length_drop]; omega
            have hdrop2 : (s.drop (i + 1)).length ≤ g := by
              simp [List.length_drop]; omega
            simp [scanFramesAux, hs, hi, hcap]
            exact ih g (s.drop (i + 1)) hdrop hdrop2
          · simp [scanFramesAux, hs, hi, hcap]

theorem scanFrames_eq (s : Str) :
    scanFrames s = if s = [] then []
      else match findNlStar s with
        | some i =>
          if i + 1 ≤ maxScanTokenSize then s.take (i + 1) :: scanFrames (s.drop (i + 1))
          else []
        | none => if s.length ≤ maxScanTokenSize then [s] else [] := by
  by_cases hs : s = []
  · subst hs; simp [scanFrames, scanFramesAux]
  · cases s with
    | nil => exact absurd rfl hs
    | cons c r =>
      simp only [scanFrames, List.length_cons, scanFramesAux, hs, if_neg hs]
      match hi : findNlStar (c :: r) with
      | none => simp
      | some i =>
        by_cases hcap : i + 1 ≤ maxScanTokenSize
        · have hle : ((c :: r).drop (i + 1)).length ≤ r.length := by
            simp [List.length_drop]
          simp only [if_pos hcap]
          rw [scanFramesAux_fuel r.length ((c :: r).drop (i + 1)).length _ hle (le_refl _)]
        · simp only [if_neg hcap]

/-! ### Decimal digit lemmas -/

theorem isDigit_digitChar (d : Nat) (h : d < 10) : isDigit (digitChar d) = true := by
  interval_cases d <;> decide

theorem digitVal_digitChar (d : Nat) (h : d < 10) : digitVal (digitChar d) = d := by
  interval_cases d <;> decide

theorem natDigits_all (n : Nat) : (natDigits n).all isDigit = true := by
  induction n using Nat.strong_induction_on with
  | _ n ih =>
    rw [natDigits_eq]
    by_cases h : n < 10
    · simp [h, isDigit_digitChar n h]
    · have hd : n / 10 < n := Nat.div_lt_self (by omega) (by omega)
      have hmod : n % 10 < 10 := Nat.mod_lt _ (by omega)
      simp [h, List.all_append, ih _ hd, isDigit_digitChar _ hmod]

theorem digitsVal_append (a : List Char) (c : Char) :
    digitsVal (a ++ [c]) = digitsVal a * 10 + digitVal c := by
  simp [digitsVal, List.foldl_append]

theorem digitsVal_natDigits (n : Nat) : digitsVal (natDigits n) = n := by
  induction n using Nat.strong_induction_on with
  | _ n ih =>
    rw [natDigits_eq]
    by_cases h : n < 10
    · simp [h, digitsVal, digitVal_digitChar n h]
    · have hd : n / 10 < n := Nat.div_lt_self (by omega) (by omega)
      have hmod : n % 10 < 10 := Nat.mod_lt _ (by omega)
      simp [h, digitsVal_append, ih _ hd, digitVal_digitChar _ hmod]
      omega

theorem natDigits_ne_nil (n : Nat) : natDigits n ≠ [] := by
  rw [natDigits_eq]
  by_cases h : n < 10 <;> simp [h]

theorem mem_natDigits_isDigit {c : Char} {n : Nat} (h : c ∈ natDigits n) :
    isDigit c = true := by
  have := natDigits_all n
  rw [List.all_eq_true] at this
  exact this c h

theorem ne_of_isDigit {c d : Char} (hc : isDigit c = true) (hd : isDigit d = false) :
    c ≠ d := by
  intro e
  subst e
  rw [hc] at hd
  cases hd

theorem goParseUint_natDigits (n : Nat) (h : n < 2 ^ 64) :
    goParseUint (natDigits n) = some n := by
  have hcond : natDigits n ≠ [] ∧ (natDigits n).all isDigit = true ∧
      digitsVal (natDigits n) < 2 ^ 64 := by
    refine ⟨natDigits_ne_nil n, natDigits_all n, ?_⟩
    rw [digitsVal_natDigits]
    exact h
  rw [goParseUint, if_pos hcond, digitsVal_natDigits]

theorem goParseInt_head_digit {c : Char} {rest : List Char} (hc : isDigit c = true) :
    goParseInt (c :: rest) =
      if (c :: rest).all isDigit ∧ digitsVal (c :: rest) < 2 ^ 63 then
        some (digitsVal (c :: rest) : Int)
      else none := by
  have h1 : c ≠ '-' := ne_of_isDigit hc (by decide)
  have h2 : c ≠ '+' := ne_of_isDigit hc (by decide)
  simp [goParseInt, h1, h2]

theorem goParseInt_natDigits (n : Nat) (h : n < 2 ^ 63) :
    goParseInt (natDigits n) = some (n : Int) := by
  match hnd : natDigits n with
  | [] => exact absurd hnd (natDigits_ne_nil n)
  | c :: rest =>
    have hc : isDigit c = true := mem_natDigits_isDigit (by rw [hnd]; exact List.mem_cons_self _ _)
    rw [goParseInt_head_digit hc, ← hnd]
    have hcond : (natDigits n).all isDigit = true ∧ digitsVal (natDigits n) < 2 ^ 63 := by
      refine ⟨natDigits_all n, ?_⟩
      rw [digitsVal_natDigits]
      exact h
    rw [if_pos hcond, digitsVal_natDigits]

theorem goParseInt_natDigits_cases (n : Nat) :
    goParseInt (natDigits n) = none ∨ goParseInt (natDigits n) = some (n : Int) := by
  match hnd : natDigits n with
  | [] => exact absurd hnd (natDigits_ne_nil n)
  | c :: rest =>
    have hc : isDigit c = true := mem_natDigits_isDigit (by rw [hnd]; exact List.mem_cons_self _ _)
    rw [goParseInt_head_digit hc, ← hnd]
    by_cases hb : digitsVal (natDigits n) < 2 ^ 63
    · right
      rw [if_pos ⟨natDigits_all n, hb⟩, digitsVal_natDigits]
    · left
      rw [if_neg]
      intro hcontra
      exact hb hcontra.2

theorem goParseInt_neg_eq (rest : List Char) :
    goParseInt ('-' :: rest) =
      if rest ≠ [] ∧ rest.all isDigit ∧ digitsVal rest ≤ 2 ^ 63 then
        some (-(digitsVal rest : Int))
      else none := by
  simp [goParseInt]

theorem goParseInt_intDigits (i : Int) (h1 : -(2 ^ 63) ≤ i) (h2 : i < 2 ^ 63) :
    goParseInt (intDigits i) = some i := by
  by_cases hneg : i < 0
  · have hb : digitsVal (natDigits (-i).toNat) ≤ 2 ^ 63 := by
      rw [digitsVal_natDigits]
      omega
    have hcond : natDigits (-i).toNat ≠ [] ∧ (natDigits (-i).toNat).all isDigit = true ∧
        digitsVal (natDigits (-i).toNat) ≤ 2 ^ 63 :=
      ⟨natDigits_ne_nil _, natDigits_all _, hb⟩
    rw [intDigits, if_pos hneg, goParseInt_neg_eq, if_pos hcond, digitsVal_natDigits]
    congr 1
    omega
  · have hb : i.toNat < 2 ^ 63 := by omega
    rw [intDigits, if_neg hneg, goParseInt_natDigits _ hb]
    have hcast : ((i.toNat : Int)) = i := by omega
    rw [hcast]

/-- C1: the claim states that after every keyspace operation each key's tag
names the group map that holds its value.  `SetListKey` violates this: on a
fresh key it stores the value in `listMap` but writes the tag
`group = "string"`, so the tag points at `stringMap`, which does not
contain the key. -/
theorem C1_setListKey_breaks_tag_invariant :
    lookupS "k".data
        (keyspace.SetListKey (K := Int) 0 (newKeyspace Int) "k".data ["v".data] none).keys =
      some { group := "string", expires := none } ∧
    lookupS "k".data
        (keyspace.SetListKey (K := Int) 0 (newKeyspace Int) "k".data ["v".data] none).stringMap =
      none ∧
    lookupS "k".data
        (keyspace.SetListKey (K := Int) 0 (newKeyspace Int) "k".data ["v".data] none).listMap =
      some ["v".data] := by
  decide

/-! ### Claim C2 -/

/-- C2 counterexample: lazy expiry of a sorted-set key removes the tag
entry and counts a modification, but the claim also demands deletion from
the key's group map — the `sortedSetMap` entry survives, because the expiry
`switch` in `Get` has no `sorted-set` case. -/
theorem C2_sorted_set_entry_survives_lazy_expiry :
    (keyspace.Get 10 ksSortedExpired "s".data).1.IsValid = false ∧
    lookupS "s".data (keyspace.Get 10 ksSortedExpired "s".data).2.keys = none ∧
    (lookupS "s".data (keyspace.Get 10 ksSortedExpired "s".data).2.sortedSetMap).isSome = true := by
  decide

/-- C2 (amended): for any key whose stored deadline lies strictly before
`now`, the first `Get` returns an invalid result, removes the tag entry,
removes the group entry when the group is `string` or `list` (but not
`sorted-set`), increments the modification counter, and a subsequent
`Exists` reports false. -/
theorem C2_lazy_expiry {K : Type} (now : GoTime) (ks : keyspace K) (key : Str)
    (ke : keyspaceEntry) (e : GoTime) (hlook : lookupS key ks.keys = some ke)
    (hexp : ke.expires = some e) (hlt : e < now) :
    (keyspace.Get now ks key).1.IsValid = false ∧
    lookupS key (keyspace.Get now ks key).2.keys = none ∧
    (keyspace.Get now ks key).2.modifications = ks.modifications + 1 ∧
    (ke.group = "string" → lookupS key (keyspace.Get now ks key).2.stringMap = none) ∧
    (ke.group = "list" → lookupS key (keyspace.Get now ks key).2.listMap = none) ∧
    (keyspace.Exists now (keyspace.Get now ks key).2 key).1 = false := by
  have hred : keyspace.Get now ks key =
      ({}, { ks with
        stringMap := if ke.group = "string" then eraseS key ks.stringMap else ks.stringMap
        listMap := if ke.group = "list" then eraseS key ks.listMap else ks.listMap
        keys := eraseS key ks.keys
        modifications := ks.modifications + 1 }) := by
    simp only [keyspace.Get, hlook, hexp]
    rw [if_pos hlt]
  rw [hred]
  refine ⟨rfl, by simp, rfl, ?_, ?_, ?_⟩
  · intro hg
    simp [hg]
  · intro hg
    simp [hg]
  · rw [keyspace.Exists, keyspace.Get]
    simp [KeyResult.IsValid]

/-- C2 witness: the amended lazy-expiry theorem applied to a concrete
volatile string key read after its deadline. -/
theorem C2_lazy_expiry_witness :
    (keyspace.Get 10
        ({ keys := [("k".data, { group := "string", expires := some 5 })]
           stringMap := [("k".data, "v".data)]
           listMap := []
           sortedSetMap := []
           modifications := 3 } : keyspace Int) "k".data).1.IsValid = false ∧
    lookupS "k".data (keyspace.Get 10
        ({ keys := [("k".data, { group := "string", expires := some 5 })]
           stringMap := [("k".data, "v".data)]
           listMap := []
           sortedSetMap := []
           modifications := 3 } : keyspace Int) "k".data).2.keys = none ∧
    (keyspace.Get 10
        ({ keys := [("k".data, { group := "string", expires := some 5 })]
           stringMap := [("k".data, "v".data)]
           listMap := []
           sortedSetMap := []
           modifications := 3 } : keyspace Int) "k".data).2.modifications = 3 + 1 ∧
    lookupS "k".data (keyspace.Get 10
        ({ keys := [("k".data, { group := "string", expires := some 5 })]
           stringMap := [("k".data, "v".data)]
           listMap := []
           sortedSetMap := []
           modifications := 3 } : keyspace Int) "k".data).2.stringMap = none := by
  have h := C2_lazy_expiry (K := Int) 10
    ({ keys := [("k".data, { group := "string", expires := some 5 })]
       stringMap := [("k".data, "v".data)]
       listMap := []
       sortedSetMap := []
       modifications := 3 } : keyspace Int) "k".data
    { group := "string", expires := some 5 } 5 (by decide) rfl (by decide)
  exact ⟨h.1, h.2.1, h.2.2.1, h.2.2.2.1 rfl⟩

/-! ### Claim C8 -/

theorem wrap64_eq_self {n : Int} (h1 : -(2 ^ 63) ≤ n) (h2 : n < 2 ^ 63) : wrap64 n = n := by
  rw [wrap64]
  omega

/-- C8 (amended): `Expire` gives a persistent key the deadline `now` plus
the int64-wrapped duration `d * 10^9` ns — which equals `d` seconds exactly
when that product fits `int64` — and accumulates the same wrapped duration
onto the stored deadline of a volatile key; `ExpireAt` replaces the
deadline with the given instant; both report true exactly on existing
keys. -/
theorem C8_expire_accumulates_expireat_replaces {K : Type} (now t : GoTime) (d : Int)
    (ks : keyspace K) (key : Str) (ke : keyspaceEntry)
    (h : lookupS key ks.keys = some ke) :
    (ke.expires = none →
      (keyspace.Expire now ks key d).1 = true ∧
      lookupS key (keyspace.Expire now ks key d).2.keys =
        some { group := ke.group, expires := some (now + wrap64 (d * nsPerSec)) }) ∧
    (∀ old, ke.expires = some old →
      (keyspace.Expire now ks key d).1 = true ∧
      lookupS key (keyspace.Expire now ks key d).2.keys =
        some { group := ke.group, expires := some (old + wrap64 (d * nsPerSec)) }) ∧
    (-(2 ^ 63) ≤ d * nsPerSec → d * nsPerSec < 2 ^ 63 →
      wrap64 (d * nsPerSec) = d * nsPerSec) ∧
    ((keyspace.ExpireAt ks key t).1 = true ∧
      lookupS key (keyspace.ExpireAt ks key t).2.keys =
        some { group := ke.group, expires := some t }) ∧
    (∀ key2, lookupS key2 ks.keys = none →
      (keyspace.Expire now ks key2 d).1 = false ∧ (keyspace.ExpireAt ks key2 t).1 = false) := by
  refine ⟨?_, ?_, wrap64_eq_self, ?_, ?_⟩
  · intro hnone
    simp only [keyspace.Expire, h, hnone]
    simp
  · intro old hold
    simp only [keyspace.Expire, h, hold]
    simp
  · simp only [keyspace.ExpireAt, h]
    simp
  · intro key2 h2
    constructor
    · simp only [keyspace.Expire, h2]
    · simp only [keyspace.ExpireAt, h2]

/-- C8, counterexample: `EXPIRE k 10000000000` on a persistent key at
`now = 0`.  The claim predicts deadline `now + 10^10` seconds, but the Go
`int64` multiplication `time.Duration(10^10) * time.Second` wraps to a
negative duration, so the stored deadline lands about 267 years in the
past instead. -/
theorem C8_huge_duration_wraps_deadline_into_past :
    lookupS "k".data (keyspace.Expire 0
        ({ keys := [("k".data, { group := "string", expires := none })]
           stringMap := [("k".data, "v".data)]
           listMap := []
           sortedSetMap := []
           modifications := 0 } : keyspace Int) "k".data 10000000000).2.keys =
      some { group := "string", expires := some (wrap64 (10000000000 * nsPerSec)) } ∧
    wrap64 (10000000000 * nsPerSec) = -8446744073709551616 ∧
    wrap64 (10000000000 * nsPerSec) ≠ 10000000000 * nsPerSec ∧
    wrap64 (10000000000 * nsPerSec) < 0 := by
  exact ⟨by decide, by decide, by decide, by decide⟩

/-- C8 witness: the expire/expireat semantics applied to a concrete
keyspace holding one persistent key (`d = 3` is far inside the int64
range, so the wrapped duration is exactly 3 seconds). -/
theorem C8_witness :
    (keyspace.Expire 5
        ({ keys := [("k".data, { group := "string", expires := none })]
           stringMap := [("k".data, "v".data)]
           listMap := []
           sortedSetMap := []
           modifications := 0 } : keyspace Int) "k".data 3).1 = true ∧
    lookupS "k".data (keyspace.Expire 5
        ({ keys := [("k".data, { group := "string", expires := none })]
           stringMap := [("k".data, "v".data)]
           listMap := []
           sortedSetMap := []
           modifications := 0 } : keyspace Int) "k".data 3).2.keys =
      some { group := "string", expires := some (5 + wrap64 (3 * nsPerSec)) } ∧
    wrap64 (3 * nsPerSec) = 3 * nsPerSec ∧
    (keyspace.Expire 5
        ({ keys := [("k".data, { group := "string", expires := none })]
           stringMap := [("k".data, "v".data)]
           listMap := []
           sortedSetMap := []
           modifications := 0 } : keyspace Int) "none".data 3).1 = false := by
  have h := C8_expire_accumulates_expireat_replaces (K := Int) 5 99 3
    ({ keys := [("k".data, { group := "string", expires := none })]
       stringMap := [("k".data, "v".data)]
       listMap := []
       sortedSetMap := []
       modifications := 0 } : keyspace Int) "k".data
    { group := "string", expires := none } (by decide)
  exact ⟨(h.1 rfl).1, (h.1 rfl).2, h.2.2.1 (by decide) (by decide),
    (h.2.2.2.2 "none".data (by decide)).1⟩

/-! ### Claim C10 -/

/-- C10 (amended): on a key whose deadline is already in the past but which
has not been collected, `Expire` still finds the key, replies `:1`, and
accumulates the int64-wrapped duration onto the stale deadline (rather
than starting from `now`); the wrapped duration equals `d` seconds exactly
when `d * 10^9` ns fits `int64`; `ExpireAt` likewise still reports
true. -/
theorem C10_expire_on_stale_key {K : Type} (now : GoTime) (ks : keyspace K) (key : Str)
    (ke : keyspaceEntry) (t : GoTime) (d : Int)
    (h : lookupS key ks.keys = some ke) (hexp : ke.expires = some t) (hpast : t < now)
    (hd1 : -(2 ^ 63) ≤ d) (hd2 : d < 2 ^ 63) :
    (keyspace.Expire now ks key d).1 = true ∧
    lookupS key (keyspace.Expire now ks key d).2.keys =
      some { group := ke.group, expires := some (t + wrap64 (d * nsPerSec)) } ∧
    (-(2 ^ 63) ≤ d * nsPerSec → d * nsPerSec < 2 ^ 63 →
      wrap64 (d * nsPerSec) = d * nsPerSec) ∧
    (processExpire now [key, intDigits d] ks).1 = .ok (SerializeInteger 1) ∧
    (keyspace.ExpireAt ks key now).1 = true := by
  have hexpire : keyspace.Expire now ks key d =
      (true, { ks with
        keys := insertS key { ke with expires := some (t + wrap64 (d * nsPerSec)) } ks.keys
        modifications := ks.modifications + 1 }) := by
    simp only [keyspace.Expire, h, hexp]
  refine ⟨by rw [hexpire], ?_, wrap64_eq_self, ?_, ?_⟩
  · rw [hexpire]
    simp
  · simp only [processExpire, goParseInt_intDigits d hd1 hd2, hexpire, if_pos]
  · simp only [keyspace.ExpireAt, h]

/-- C10, counterexample: even on a stale key the accumulated duration is
the int64-wrapped one, so `EXPIRE k 10000000000` at `now = 10` on a key
expired at instant `5` stacks a wrapped (negative) duration onto the stale
deadline — not `10^10` seconds as the unqualified claim reads. -/
theorem C10_stale_key_huge_duration_wraps :
    (keyspace.Expire 10
        ({ keys := [("k".data, { group := "string", expires := some 5 })]
           stringMap := [("k".data, "v".data)]
           listMap := []
           sortedSetMap := []
           modifications := 0 } : keyspace Int) "k".data 10000000000).1 = true ∧
    lookupS "k".data (keyspace.Expire 10
        ({ keys := [("k".data, { group := "string", expires := some 5 })]
           stringMap := [("k".data, "v".data)]
           listMap := []
           sortedSetMap := []
           modifications := 0 } : keyspace Int) "k".data 10000000000).2.keys =
      some { group := "string", expires := some (5 + wrap64 (10000000000 * nsPerSec)) } ∧
    5 + wrap64 (10000000000 * nsPerSec) ≠ 5 + 10000000000 * nsPerSec := by
  exact ⟨by decide, by decide, by decide⟩

/-- C10 witness: a key that expired at instant 5, touched by `EXPIRE` at
`now = 10` with `d = 3` (inside the int64 range): the reply is `:1` and
the new deadline stacks exactly 3 seconds onto the stale one. -/
theorem C10_witness :
    (keyspace.Expire 10
        ({ keys := [("k".data, { group := "string", expires := some 5 })]
           stringMap := [("k".data, "v".data)]
           listMap := []
           sortedSetMap := []
           modifications := 0 } : keyspace Int) "k".data 3).1 = true ∧
    lookupS "k".data (keyspace.Expire 10
        ({ keys := [("k".data, { group := "string", expires := some 5 })]
           stringMap := [("k".data, "v".data)]
           listMap := []
           sortedSetMap := []
           modifications := 0 } : keyspace Int) "k".data 3).2.keys =
      some { group := "string", expires := some (5 + wrap64 (3 * nsPerSec)) } ∧
    wrap64 (3 * nsPerSec) = 3 * nsPerSec ∧
    (processExpire 10 ["k".data, intDigits 3]
        ({ keys := [("k".data, { group := "string", expires := some 5 })]
           stringMap := [("k".data, "v".data)]
           listMap := []
           sortedSetMap := []
           modifications := 0 } : keyspace Int)).1 = .ok (SerializeInteger 1) := by
  have h := C10_expire_on_stale_key (K := Int) 10
    ({ keys := [("k".data, { group := "string", expires := some 5 })]
       stringMap := [("k".data, "v".data)]
       listMap := []
       sortedSetMap := []
       modifications := 0 } : keyspace Int) "k".data
    { group := "string", expires := some 5 } 5 3 (by decide) rfl (by decide)
    (by decide) (by decide)
  exact ⟨h.1, h.2.1, h.2.2.1 (by decide) (by decide), h.2.2.2.1⟩

/-! ### Count-map lemmas (EXISTS / DEL) -/

theorem lookupS_eq_none_of_not_mem {m : List (Str × α)} {k : Str}
    (h : k ∉ m.map Prod.fst) : lookupS k m = none := by
  induction m with
  | nil => rfl
  | cons p rest ih =>
    obtain ⟨a, v⟩ := p
    simp only [List.map_cons, List.mem_cons] at h
    push_neg at h
    rw [lookupS_cons, if_neg (fun e => h.1 e.symm)]
    exact ih h.2

theorem eraseS_eq_of_lookup_none {m : List (Str × α)} {k : Str}
    (h : lookupS k m = none) : eraseS k m = m := by
  induction m with
  | nil => rfl
  | cons p rest ih =>
    obtain ⟨a, v⟩ := p
    rw [lookupS_cons] at h
    by_cases ha : a = k
    · rw [if_pos ha] at h; cases h
    · rw [if_neg ha] at h
      have h2 := ih h
      rw [eraseS] at h2 ⊢
      rw [List.filter_cons]
      simp only [ne_eq, ha, not_false_eq_true, decide_True]
      simp only [ne_eq] at h2
      rw [h2]
      simp

theorem map_fst_eraseS (k : Str) (m : List (Str × α)) :
    (eraseS k m).map Prod.fst = (m.map Prod.fst).filter (fun x => decide (x ≠ k)) := by
  induction m with
  | nil => rfl
  | cons p rest ih =>
    obtain ⟨a, v⟩ := p
    by_cases ha : a = k
    · simp [eraseS, List.filter_cons, ha] at ih ⊢; exact ih
    · simp [eraseS, List.filter_cons, ha] at ih ⊢; exact ih

theorem NodupKeys_eraseS {m : List (Str × α)} (k : Str) (h : NodupKeys m) :
    NodupKeys (eraseS k m) := by
  rw [NodupKeys, map_fst_eraseS]
  exact h.filter _

theorem not_mem_map_fst_eraseS (k : Str) (m : List (Str × α)) :
    k ∉ (eraseS k m).map Prod.fst := by
  rw [map_fst_eraseS]
  intro h
  have := List.of_mem_filter h
  simp at this

theorem NodupKeys_insertS {m : List (Str × α)} (k : Str) (v : α) (h : NodupKeys m) :
    NodupKeys (insertS k v m) := by
  rw [NodupKeys, insertS, List.map_cons, List.nodup_cons]
  exact ⟨not_mem_map_fst_eraseS k m, NodupKeys_eraseS k h⟩

theorem finalCount_eq_sumPos (m : List (Str × Int)) : finalCount m = sumPos m := by
  suffices h : ∀ init : Int,
      m.foldl (fun acc p => if 0 < p.2 then acc + p.2 else acc) init = init + sumPos m by
    simpa [finalCount] using h 0
  induction m with
  | nil => intro init; simp [sumPos]
  | cons p rest ih =>
    intro init
    by_cases hp : 0 < p.2
    · simp only [List.foldl_cons, if_pos hp, ih, sumPos, List.map_cons, List.sum_cons]
      ring
    · simp only [List.foldl_cons, if_neg hp, ih, sumPos, List.map_cons, List.sum_cons]
      ring

theorem sumPos_insertS (k : Str) (v : Int) (m : List (Str × Int)) :
    sumPos (insertS k v m) = (if 0 < v then v else 0) + sumPos (eraseS k m) := by
  simp [insertS, sumPos]

theorem sumPos_eraseS_some {m : List (Str × Int)} {k : Str} {c : Int}
    (hn : NodupKeys m) (h : lookupS k m = some c) :
    sumPos m = (if 0 < c then c else 0) + sumPos (eraseS k m) := by
  induction m with
  | nil => cases h
  | cons p rest ih =>
    obtain ⟨a, v⟩ := p
    have hn2 : NodupKeys rest := by
      rw [NodupKeys, List.map_cons, List.nodup_cons] at hn
      exact hn.2
    have hamem : a ∉ rest.map Prod.fst := by
      rw [NodupKeys, List.map_cons, List.nodup_cons] at hn
      exact hn.1
    rw [lookupS_cons] at h
    by_cases ha : a = k
    · rw [if_pos ha] at h
      have hvc : v = c := by injection h
      have hrest : lookupS k rest = none := by
        refine lookupS_eq_none_of_not_mem ?_
        rw [← ha]
        exact hamem
      rw [show eraseS k ((a, v) :: rest) = eraseS k rest by simp [eraseS, List.filter_cons, ha]]
      rw [eraseS_eq_of_lookup_none hrest]
      rw [← hvc]
      simp [sumPos]
    · rw [if_neg ha] at h
      have := ih hn2 h
      rw [show eraseS k ((a, v) :: rest) = (a, v) :: eraseS k rest by
        simp [eraseS, List.filter_cons, ha]]
      simp only [sumPos, List.map_cons, List.sum_cons] at this ⊢
      omega

theorem bulkExists_fold {K : Type} (ks : keyspace K) :
    ∀ (args : List Str) (kc : List (Str × Int)),
      NodupKeys kc →
      (∀ k c, lookupS k kc = some c →
        ((lookupS k ks.keys).isSome = true → 1 ≤ c) ∧
          ((lookupS k ks.keys).isSome = false → c = 0)) →
      sumPos (args.foldl (fun keyCount key =>
          bulkExistsStep (lookupS key ks.keys).isSome keyCount key) kc) =
        sumPos kc + (args.countP (fun j => (lookupS j ks.keys).isSome) : Int) := by
  intro args
  induction args with
  | nil =>
    intro kc h1 h2
    simp
  | cons key rest ih =>
    intro kc h1 h2
    rw [List.foldl_cons, List.countP_cons]
    by_cases hp : (lookupS key ks.keys).isSome = true
    · cases hkc : lookupS key kc with
      | some c =>
        have hc1 : 1 ≤ c := (h2 key c hkc).1 hp
        have hstep : bulkExistsStep (lookupS key ks.keys).isSome kc key =
            insertS key (c + 1) kc := by
          simp [bulkExistsStep, hp, hkc]
        have hsum : sumPos (insertS key (c + 1) kc) = sumPos kc + 1 := by
          rw [sumPos_insertS]
          have hview := sumPos_eraseS_some h1 hkc
          rw [if_pos (show (0 : Int) < c by omega)] at hview
          rw [if_pos (show (0 : Int) < c + 1 by omega)]
          omega
        rw [hstep]
        rw [ih (insertS key (c + 1) kc) (NodupKeys_insertS _ _ h1) ?_]
        · rw [hsum, hp]
          simp only [if_true]
          push_cast
          ring
        · intro k c2 hlk
          by_cases hkk : k = key
          · subst hkk
            rw [lookupS_insertS_self] at hlk
            injection hlk with hlk
            subst hlk
            constructor
            · intro; omega
            · intro hfalse; rw [hp] at hfalse; cases hfalse
          · rw [lookupS_insertS_ne _ _ _ hkk] at hlk
            exact h2 k c2 hlk
      | none =>
        have hstep : bulkExistsStep (lookupS key ks.keys).isSome kc key =
            insertS key 1 kc := by
          simp [bulkExistsStep, hp, hkc]
        have hsum : sumPos (insertS key 1 kc) = sumPos kc + 1 := by
          rw [sumPos_insertS, eraseS_eq_of_lookup_none hkc]
          norm_num
          ring
        rw [hstep]
        rw [ih (insertS key 1 kc) (NodupKeys_insertS _ _ h1) ?_]
        · rw [hsum, hp]
          simp only [if_true]
          push_cast
          ring
        · intro k c2 hlk
          by_cases hkk : k = key
          · subst hkk
            rw [lookupS_insertS_self] at hlk
            injection hlk with hlk
            subst hlk
            constructor
            · intro; omega
            · intro hfalse; rw [hp] at hfalse; cases hfalse
          · rw [lookupS_insertS_ne _ _ _ hkk] at hlk
            exact h2 k c2 hlk
    · have hpf : (lookupS key ks.keys).isSome = false := by
        cases hv : (lookupS key ks.keys).isSome
        · rfl
        · exact absurd hv hp
      have hstep : bulkExistsStep (lookupS key ks.keys).isSome kc key =
          insertS key 0 kc := by
        simp [bulkExistsStep, hpf]
      have hsum : sumPos (insertS key 0 kc) = sumPos kc := by
        rw [sumPos_insertS]
        cases hkc : lookupS key kc with
        | some c =>
          have hc0 : c = 0 := (h2 key c hkc).2 hpf
          subst hc0
          have hview := sumPos_eraseS_some h1 hkc
          rw [if_neg (show ¬((0 : Int) < 0) by omega)] at hview
          norm_num
          omega
        | none =>
          rw [eraseS_eq_of_lookup_none hkc]
          norm_num
      rw [hstep]
      rw [ih (insertS key 0 kc) (NodupKeys_insertS _ _ h1) ?_]
      · rw [hsum, hpf]
        simp only [Bool.false_eq_true, if_false]
        push_cast
        ring
      · intro k c2 hlk
        by_cases hkk : k = key
        · subst hkk
          rw [lookupS_insertS_self] at hlk
          injection hlk with hlk
          subst hlk
          constructor
          · intro htrue; rw [hpf] at htrue; cases htrue
          · intro; rfl
        · rw [lookupS_insertS_ne _ _ _ hkk] at hlk
          exact h2 k c2 hlk

theorem bulkDelete_fold {K : Type} :
    ∀ (args : List Str) (kc : List (Str × Int)) (s : keyspace K),
      NodupKeys kc →
      (∀ k c, lookupS k kc = some c → c = 0 ∨ c = 1) →
      (∀ k c, lookupS k kc = some c → 1 ≤ c → lookupS k s.keys = none) →
      sumPos (args.foldl bulkDeleteStep (kc, s)).1 = sumPos kc + delCount s.keys args ∧
      (args.foldl bulkDeleteStep (kc, s)).2.modifications =
        s.modifications + delCount s.keys args ∧
      (∀ k, lookupS k s.keys = none →
        lookupS k (args.foldl bulkDeleteStep (kc, s)).2.keys = none) ∧
      (∀ k, k ∈ args → lookupS k (args.foldl bulkDeleteStep (kc, s)).2.keys = none) := by
  intro args
  induction args with
  | nil =>
    intro kc s h1 h2 h3
    refine ⟨by simp [delCount], by simp [delCount], fun k h => h, fun k h => absurd h ?_⟩
    simp
  | cons key rest ih =>
    intro kc s h1 h2 h3
    rw [List.foldl_cons]
    cases hks : lookupS key s.keys with
    | some ke =>
      have hdc : delCount s.keys (key :: rest) = 1 + delCount (eraseS key s.keys) rest := by
        rw [delCount, hks]
      have hkc0 : lookupS key kc = none ∨ lookupS key kc = some 0 := by
        cases hkc : lookupS key kc with
        | none => exact Or.inl rfl
        | some c =>
          right
          rcases h2 key c hkc with h | h
          · rw [h]
          · exfalso
            have := h3 key c hkc (by omega)
            rw [hks] at this
            cases this
      have hmain : ∀ kcNew,
          kcNew = insertS key 1 kc →
          NodupKeys kcNew →
          (∀ k c, lookupS k kcNew = some c → c = 0 ∨ c = 1) →
          sumPos kcNew = sumPos kc + 1 →
          bulkDeleteStep (kc, s) key = (kcNew,
            { s with
              stringMap := if ke.group = "string" then eraseS key s.stringMap else s.stringMap
              listMap := if ke.group = "list" then eraseS key s.listMap else s.listMap
              keys := eraseS key s.keys
              modifications := s.modifications + 1 }) →
          sumPos ((key :: rest).foldl bulkDeleteStep (kc, s)).1 =
              sumPos kc + delCount s.keys (key :: rest) ∧
            ((key :: rest).foldl bulkDeleteStep (kc, s)).2.modifications =
              s.modifications + delCount s.keys (key :: rest) ∧
            (∀ k, lookupS k s.keys = none →
              lookupS k ((key :: rest).foldl bulkDeleteStep (kc, s)).2.keys = none) ∧
            (∀ k, k ∈ key :: rest →
              lookupS k ((key :: rest).foldl bulkDeleteStep (kc, s)).2.keys = none) := by
        intro kcNew hkcNew hnodup hvals hsum hstep
        have hinv3 : ∀ k c, lookupS k kcNew = some c → 1 ≤ c →
            lookupS k (eraseS key s.keys) = none := by
          intro k c hlk hge
          by_cases hkk : k = key
          · subst hkk
            rw [lookupS_eraseS_self]
          · rw [hkcNew, lookupS_insertS_ne _ _ _ hkk] at hlk
            rw [lookupS_eraseS_ne _ _ hkk]
            exact h3 k c hlk hge
        have hrec := ih kcNew
          { s with
            stringMap := if ke.group = "string" then eraseS key s.stringMap else s.stringMap
            listMap := if ke.group = "list" then eraseS key s.listMap else s.listMap
            keys := eraseS key s.keys
            modifications := s.modifications + 1 } hnodup hvals hinv3
        rw [List.foldl_cons, hstep]
        refine ⟨?_, ?_, ?_, ?_⟩
        · rw [hrec.1, hsum, hdc]
          ring
        · rw [hrec.2.1]
          rw [hdc]
          simp
          ring
        · intro k hk
          refine hrec.2.2.1 k ?_
          by_cases hkk : k = key
          · subst hkk; rw [lookupS_eraseS_self]
          · rw [lookupS_eraseS_ne _ _ hkk]; exact hk
        · intro k hk
          rcases List.mem_cons.mp hk with hkk | hkk
          · subst hkk
            exact hrec.2.2.1 k (by rw [lookupS_eraseS_self])
          · exact hrec.2.2.2 k hkk
      rcases hkc0 with hkc | hkc
      · refine hmain (insertS key 1 kc) rfl (NodupKeys_insertS _ _ h1) ?_ ?_ ?_
        · intro k c hlk
          by_cases hkk : k = key
          · subst hkk
            rw [lookupS_insertS_self] at hlk
            injection hlk with hlk
            omega
          · rw [lookupS_insertS_ne _ _ _ hkk] at hlk
            exact h2 k c hlk
        · rw [sumPos_insertS, eraseS_eq_of_lookup_none hkc]
          norm_num
          ring
        · simp [bulkDeleteStep, hks, hkc]
      · refine hmain (insertS key (0 + 1) kc) (by norm_num) (NodupKeys_insertS _ _ h1) ?_ ?_ ?_
        · intro k c hlk
          by_cases hkk : k = key
          · subst hkk
            rw [lookupS_insertS_self] at hlk
            injection hlk with hlk
            omega
          · rw [lookupS_insertS_ne _ _ _ hkk] at hlk
            exact h2 k c hlk
        · rw [sumPos_insertS]
          have hview := sumPos_eraseS_some h1 hkc
          rw [if_neg (show ¬((0 : Int) < 0) by omega)] at hview
          rw [if_pos (show (0 : Int) < 0 + 1 by omega)]
          omega
        · simp [bulkDeleteStep, hks, hkc]
    | none =>
      have hdc : delCount s.keys (key :: rest) = delCount s.keys rest := by
        rw [delCount, hks]
      cases hkc : lookupS key kc with
      | some c =>
        have hstep : bulkDeleteStep (kc, s) key = (kc, s) := by
          simp [bulkDeleteStep, hks, hkc]
        rw [hstep]
        have hrec := ih kc s h1 h2 h3
        refine ⟨?_, ?_, hrec.2.2.1, ?_⟩
        · rw [hrec.1, hdc]
        · rw [hrec.2.1, hdc]
        · intro k hk
          rcases List.mem_cons.mp hk with hkk | hkk
          · subst hkk
            exact hrec.2.2.1 k hks
          · exact hrec.2.2.2 k hkk
      | none =>
        have hstep : bulkDeleteStep (kc, s) key = (insertS key 0 kc, s) := by
          simp [bulkDeleteStep, hks, hkc]
        rw [hstep]
        have hsum : sumPos (insertS key 0 kc) = sumPos kc := by
          rw [sumPos_insertS, eraseS_eq_of_lookup_none hkc]
          norm_num
        have hinv2 : ∀ k c, lookupS k (insertS key 0 kc) = some c → c = 0 ∨ c = 1 := by
          intro k c hlk
          by_cases hkk : k = key
          · subst hkk
            rw [lookupS_insertS_self] at hlk
            injection hlk with hlk
            omega
          · rw [lookupS_insertS_ne _ _ _ hkk] at hlk
            exact h2 k c hlk
        have hinv3 : ∀ k c, lookupS k (insertS key 0 kc) = some c → 1 ≤ c →
            lookupS k s.keys = none := by
          intro k c hlk hge
          by_cases hkk : k = key
          · subst hkk
            exact hks
          · rw [lookupS_insertS_ne _ _ _ hkk] at hlk
            exact h3 k c hlk hge
        have hrec := ih (insertS key 0 kc) s (NodupKeys_insertS _ _ h1) hinv2 hinv3
        refine ⟨?_, ?_, hrec.2.2.1, ?_⟩
        · rw [hrec.1, hdc, hsum]
        · rw [hrec.2.1, hdc]
        · intro k hk
          rcases List.mem_cons.mp hk with hkk | hkk
          · subst hkk
            exact hrec.2.2.1 k hks
          · exact hrec.2.2.2 k hkk

theorem delCount_eq_distinctExisting :
    ∀ (args : List Str) (keysMap : List (Str × keyspaceEntry)),
      delCount keysMap args = distinctExisting keysMap args := by
  intro args
  induction args with
  | nil =>
    intro keysMap
    simp [delCount, distinctExisting]
  | cons k rest ih =>
    intro keysMap
    cases hk : lookupS k keysMap with
    | some e =>
      have hPk : (lookupS k keysMap).isSome = true := by rw [hk]; rfl
      have hfilter : rest.toFinset.filter (fun j => (lookupS j (eraseS k keysMap)).isSome) =
          (rest.toFinset.filter (fun j => (lookupS j keysMap).isSome)).erase k := by
        ext j
        simp only [Finset.mem_filter, Finset.mem_erase]
        constructor
        · rintro ⟨hj, hp⟩
          by_cases hjk : j = k
          · subst hjk
            rw [lookupS_eraseS_self] at hp
            cases hp
          · rw [lookupS_eraseS_ne _ _ hjk] at hp
            exact ⟨hjk, hj, hp⟩
        · rintro ⟨hjk, hj, hp⟩
          rw [lookupS_eraseS_ne _ _ hjk]
          exact ⟨hj, hp⟩
      have hcard :
          ((insert k rest.toFinset).filter (fun j => (lookupS j keysMap).isSome)).card =
            ((rest.toFinset.filter (fun j => (lookupS j keysMap).isSome)).erase k).card + 1 := by
        rw [Finset.filter_insert, if_pos hPk]
        by_cases hmem : k ∈ rest.toFinset.filter (fun j => (lookupS j keysMap).isSome)
        · rw [Finset.insert_eq_self.mpr hmem]
          exact (Finset.card_erase_add_one hmem).symm
        · rw [Finset.card_insert_of_not_mem hmem, Finset.erase_eq_of_not_mem hmem]
      have hred : delCount keysMap (k :: rest) = 1 + delCount (eraseS k keysMap) rest := by
        rw [delCount, hk]
      rw [hred, ih (eraseS k keysMap)]
      rw [distinctExisting, distinctExisting, hfilter]
      rw [List.toFinset_cons, hcard]
      push_cast
      ring
    | none =>
      have hPk : (lookupS k keysMap).isSome = false := by rw [hk]; rfl
      have hred : delCount keysMap (k :: rest) = delCount keysMap rest := by
        rw [delCount, hk]
      rw [hred, ih keysMap]
      rw [distinctExisting, distinctExisting, List.toFinset_cons, Finset.filter_insert]
      rw [if_neg (by rw [hPk]; exact fun h => Bool.noConfusion h)]

/-! ### Claim C9 -/

/-- C9: EXISTS counts every occurrence of an existing key (a duplicate of
an existing key counts twice), DEL counts each distinct removed key once,
and a second `DEL k` right after a first one reports `0`. -/
theorem C9_exists_counts_occurrences_del_counts_distinct {K : Type}
    (ks : keyspace K) (args : List Str) (k : Str) :
    finalCount (keyspace.BulkExists ks args) =
      (args.countP (fun j => (lookupS j ks.keys).isSome) : Int) ∧
    finalCount (keyspace.BulkDelete ks args).1 = distinctExisting ks.keys args ∧
    finalCount (keyspace.BulkDelete (keyspace.BulkDelete ks [k]).2 [k]).1 = 0 := by
  refine ⟨?_, ?_, ?_⟩
  · rw [finalCount_eq_sumPos, keyspace.BulkExists]
    have h := bulkExists_fold ks args [] (by simp [NodupKeys])
      (by intro j c hj; cases hj)
    rw [h]
    simp [sumPos]
  · rw [finalCount_eq_sumPos, keyspace.BulkDelete]
    have h := bulkDelete_fold args [] ks (by simp [NodupKeys])
      (by intro j c hj; cases hj) (by intro j c hj; cases hj)
    rw [h.1]
    rw [delCount_eq_distinctExisting]
    simp [sumPos]
  · have h1 := bulkDelete_fold [k] [] ks (by simp [NodupKeys])
      (by intro j c hj; cases hj) (by intro j c hj; cases hj)
    have hnone : lookupS k (keyspace.BulkDelete ks [k]).2.keys = none := by
      rw [keyspace.BulkDelete]
      exact h1.2.2.2 k (by simp)
    conv_lhs => rw [keyspace.BulkDelete]
    rw [List.foldl_cons, List.foldl_nil]
    rw [show bulkDeleteStep (([] : List (Str × Int)), (keyspace.BulkDelete ks [k]).2) k =
        (insertS k 0 [], (keyspace.BulkDelete ks [k]).2) by simp [bulkDeleteStep, hnone]]
    simp [finalCount, insertS, eraseS]

/-! ### Claim C3 -/

/-- C3 counterexample: `INCR` on an absent key succeeds (creating the key
with value `"0"` and replying `0`) yet leaves the modification counter
unchanged — the claim requires every successful write, including this
creation path, to count exactly once. -/
theorem C3_incr_creation_path_does_not_count :
    (keyspace.IncrementBy (K := Int) (newKeyspace Int) "k".data 1).1 = .ok 0 ∧
    (keyspace.IncrementBy (K := Int) (newKeyspace Int) "k".data 1).2.modifications = 0 ∧
    lookupS "k".data
        (keyspace.IncrementBy (K := Int) (newKeyspace Int) "k".data 1).2.stringMap =
      some "0".data ∧
    (keyspace.PushToTail (K := Int) (newKeyspace Int) "k".data ["v".data]).1 = .ok 1 ∧
    (keyspace.PushToTail (K := Int) (newKeyspace Int) "k".data ["v".data]).2.modifications
      = 0 := by
  exact ⟨rfl, rfl, rfl, rfl, rfl⟩

/-- C3 (amended): SET (both groups), EXPIRE, EXPIREAT, INCR/DECR on an
existing integer string key, RPUSH/LPUSH on an existing list key and every
successful ZADD — both the path that creates the sorted set and a ZADD on
an existing sorted-set key — count exactly one modification, and DEL counts
once per distinct key actually removed; however the key-creating success
paths of INCR/DECR and RPUSH/LPUSH return success without counting. -/
theorem C3_modification_counting {K : Type} :
    (∀ (now : GoTime) (ks : keyspace K) key v exp,
      (keyspace.SetStringKey now ks key v exp).modifications = ks.modifications + 1) ∧
    (∀ (now : GoTime) (ks : keyspace K) key vs exp,
      (keyspace.SetListKey now ks key vs exp).modifications = ks.modifications + 1) ∧
    (∀ (now : GoTime) (ks : keyspace K) key d ke, lookupS key ks.keys = some ke →
      (keyspace.Expire now ks key d).2.modifications = ks.modifications + 1) ∧
    (∀ (ks : keyspace K) key t ke, lookupS key ks.keys = some ke →
      (keyspace.ExpireAt ks key t).2.modifications = ks.modifications + 1) ∧
    (∀ (ks : keyspace K) args,
      (keyspace.BulkDelete ks args).2.modifications =
        ks.modifications + distinctExisting ks.keys args) ∧
    (∀ (ks : keyspace K) key d ke s n, lookupS key ks.keys = some ke →
      ke.group = "string" → lookupS key ks.stringMap = some s → goParseInt s = some n →
      (keyspace.IncrementBy ks key d).2.modifications = ks.modifications + 1) ∧
    (∀ (ks : keyspace K) key d, lookupS key ks.keys = none →
      (keyspace.IncrementBy ks key d).2.modifications = ks.modifications ∧
      (keyspace.IncrementBy ks key d).1 = .ok 0) ∧
    (∀ (ks : keyspace K) key vs ke l, lookupS key ks.keys = some ke →
      ke.group = "list" → lookupS key ks.listMap = some l →
      (keyspace.PushToTail ks key vs).2.modifications = ks.modifications + 1 ∧
      (keyspace.PushToHead ks key vs).2.modifications = ks.modifications + 1) ∧
    (∀ (ks : keyspace K) key vs, lookupS key ks.keys = none →
      (keyspace.PushToTail ks key vs).2.modifications = ks.modifications ∧
      (keyspace.PushToTail ks key vs).1 = .ok (vs.length : Int) ∧
      (keyspace.PushToHead ks key vs).2.modifications = ks.modifications) ∧
    (∀ [LinearOrder K] (ps : Str → Option K) (ks : keyspace K) key values t2 added,
      lookupS key ks.keys = none →
      putPairsLoop ps (NewTree K) values 0 = some (t2, added) →
      (keyspace.PutInSortedSet ps ks key values).map (fun r => r.2.modifications) =
        some (ks.modifications + 1)) ∧
    (∀ [LinearOrder K] (ps : Str → Option K) (ks : keyspace K) key values ke tv t2 added,
      lookupS key ks.keys = some ke → ke.group = "sorted-set" →
      lookupS key ks.sortedSetMap = some tv →
      putPairsLoop ps tv values 0 = some (t2, added) →
      (keyspace.PutInSortedSet ps ks key values).map (fun r => r.2.modifications) =
        some (ks.modifications + 1)) := by
  refine ⟨?_, ?_, ?_, ?_, ?_, ?_, ?_, ?_, ?_, ?_, ?_⟩
  · intro now ks key v exp
    rw [keyspace.SetStringKey]
    cases hke : lookupS key ks.keys with
    | none => rfl
    | some ke =>
      by_cases hg : ke.group = "list" <;> simp [hg]
  · intro now ks key vs exp
    rw [keyspace.SetListKey]
    cases hke : lookupS key ks.keys with
    | none => rfl
    | some ke =>
      by_cases hg : ke.group = "string" <;> simp [hg]
  · intro now ks key d ke h
    simp [keyspace.Expire, h]
  · intro ks key t ke h
    simp [keyspace.ExpireAt, h]
  · intro ks args
    rw [keyspace.BulkDelete]
    have h := bulkDelete_fold args [] ks (by simp [NodupKeys])
      (by intro j c hj; cases hj) (by intro j c hj; cases hj)
    rw [h.2.1, delCount_eq_distinctExisting]
  · intro ks key d ke s n h hg hs hn
    simp [keyspace.IncrementBy, h, hg, hs, hn]
  · intro ks key d h
    simp [keyspace.IncrementBy, h]
  · intro ks key vs ke l h hg hl
    constructor
    · simp [keyspace.PushToTail, h, hg, hl]
    · simp [keyspace.PushToHead, h, hg, hl]
  · intro ks key vs h
    refine ⟨?_, ?_, ?_⟩
    · simp [keyspace.PushToTail, h]
    · simp [keyspace.PushToTail, h]
    · simp [keyspace.PushToHead, h]
  · intro _ ps ks key values t2 added h hloop
    simp [keyspace.PutInSortedSet, h, hloop]
  · intro _ ps ks key values ke tv t2 added h hg htv hloop
    simp [keyspace.PutInSortedSet, h, hg, htv, hloop]

/-- C3 witness: the amended counting facts applied to concrete keyspaces:
SET counts, INCR on an existing integer key counts, INCR on an absent key
does not, and ZADD on an existing sorted-set key counts. -/
theorem C3_modification_counting_witness :
    (keyspace.SetStringKey 0
        ({ keys := [("n".data, { group := "string", expires := none })]
           stringMap := [("n".data, "7".data)]
           listMap := []
           sortedSetMap := []
           modifications := 5 } : keyspace Int) "k".data "v".data none).modifications
      = 5 + 1 ∧
    (keyspace.IncrementBy
        ({ keys := [("n".data, { group := "string", expires := none })]
           stringMap := [("n".data, "7".data)]
           listMap := []
           sortedSetMap := []
           modifications := 5 } : keyspace Int) "n".data 1).2.modifications = 5 + 1 ∧
    (keyspace.IncrementBy
        ({ keys := [("n".data, { group := "string", expires := none })]
           stringMap := [("n".data, "7".data)]
           listMap := []
           sortedSetMap := []
           modifications := 5 } : keyspace Int) "x".data 1).2.modifications = 5 ∧
    (keyspace.PutInSortedSet (fun s => goParseInt s)
        ({ keys := [("z".data, { group := "sorted-set", expires := none })]
           stringMap := []
           listMap := []
           sortedSetMap := [("z".data, NewTree Int)]
           modifications := 5 } : keyspace Int) "z".data ["1".data, "m".data]).map
      (fun r => r.2.modifications) = some (5 + 1) := by
  refine ⟨C3_modification_counting.1 0 _ "k".data "v".data none, ?_, ?_, ?_⟩
  · exact (C3_modification_counting (K := Int)).2.2.2.2.2.1 _ "n".data 1
      { group := "string", expires := none } "7".data 7 (by decide) rfl (by decide) (by decide)
  · exact ((C3_modification_counting (K := Int)).2.2.2.2.2.2.1 _ "x".data 1 (by decide)).1
  · exact (C3_modification_counting (K := Int)).2.2.2.2.2.2.2.2.2.2 (fun s => goParseInt s)
      _ "z".data ["1".data, "m".data] { group := "sorted-set", expires := none }
      (NewTree Int) ((NewTree Int).Put 1 "m".data) 1 (by decide) rfl (by decide) (by decide)

/-- C6: the claim says the range read is total, normalising negative
indices and returning empty when `start > stop`.  In the code only a
negative `stop` is normalised and the slice is taken unguarded, so
`ZRANGE s -1 -1` (ask for the last element) and `ZRANGE s 1 0`
(`start > stop`) both panic with a slice-bounds violation instead of
returning a value; `ZRANGE s 0 -1` still works. -/
theorem C6_zrange_panics_on_negative_start :
    keyspace.GetSortedSetValuesByRange ksOneSorted "s".data (-1) (-1) = .panic ∧
    keyspace.GetSortedSetValuesByRange ksOneSorted "s".data 1 0 = .panic ∧
    keyspace.GetSortedSetValuesByRange ksOneSorted "s".data 0 (-1) = .ok ["a".data] := by
  decide

/-! ### Claim C7 -/

theorem findChar_append_of_not_mem (c : Char) (a b : Str) (h : c ∉ a) :
    findChar c (a ++ c :: b) = some a.length := by
  induction a with
  | nil => simp [findChar]
  | cons x r ih =>
    have hx : x ≠ c := fun e => h (by rw [e]; exact List.mem_cons_self _ _)
    have hr : c ∉ r := fun e => h (List.mem_cons_of_mem _ e)
    rw [List.cons_append, findChar, if_neg hx, ih hr]
    rfl

theorem cr_not_mem_natDigits (n : Nat) : '\r' ∉ natDigits n := by
  intro h
  have := mem_natDigits_isDigit h
  simp [isDigit] at this

/-- C7 counterexample: the decoder special-cases a declared length of `0`
and returns one empty string without ever comparing against the payload, so
the frame `$0\r\nx\r\n` (declared length 0, payload length 1) decodes
successfully instead of failing. -/
theorem C7_zero_length_accepts_any_payload :
    DecodeMessage "$0\r\nx\r\n".data = .ok (some [[]]) ∧
    (DecodeMessage "$0\r\nx\r\n".data).isOk = true := by
  decide

/-- C7 (amended): for a bulk-string frame with a positive declared length
that differs from the payload length, and a payload free of `\r`, the
decoder never returns a successfully decoded string: it returns an error
when the declared length is at most the payload length plus one, and panics
with an index out of range when it is larger; the `0` declared-length
special case is excluded. -/
theorem C7_length_mismatch_never_ok (len : Nat) (data : Str) (hlen : 0 < len)
    (hne : len ≠ data.length) (hcr : '\r' ∉ data) :
    (DecodeMessage ('$' :: (natDigits len ++ '\r' :: '\n' :: (data ++ ['\r', '\n'])))).isOk
      = false := by
  set raw : Str := natDigits len ++ '\r' :: '\n' :: (data ++ ['\r', '\n']) with hraw
  have hmsg : DecodeMessage ('$' :: raw) = decodeBulkString raw := by
    rw [DecodeMessage]
    simp
  rw [hmsg]
  have htake : raw.takeWhile (fun c => c ≠ '\r') = natDigits len := by
    rw [hraw]
    rw [List.takeWhile_append_of_pos (by
      intro a ha
      simp only [ne_eq, decide_eq_true_eq]
      intro e
      subst e
      exact cr_not_mem_natDigits len ha)]
    simp
  have hfind : findChar '\r' raw = some (natDigits len).length :=
    findChar_append_of_not_mem _ _ _ (cr_not_mem_natDigits len)
  have hlenraw : raw.length = (natDigits len).length + 2 + (data.length + 2) := by
    rw [hraw]
    simp
    omega
  rw [decodeBulkString]
  simp only [htake, hfind]
  match hnd : natDigits len, natDigits_ne_nil len with
  | c0 :: cr, _ =>
    have hc0 : isDigit c0 = true := mem_natDigits_isDigit (by rw [hnd]; exact List.mem_cons_self _ _)
    have hdash : ¬(c0 = '-' ∧ c0 :: cr ≠ "-1".data) := by
      intro hcontra
      exact ne_of_isDigit hc0 (by decide) hcontra.1
    simp only [if_neg hdash]
    rcases goParseInt_natDigits_cases len with hp | hp
    · rw [hnd] at hp
      simp only [hp]
      rfl
    · rw [hnd] at hp
      simp only [hp]
      rw [if_neg (by omega : ¬((len : Int) = -1))]
      rw [if_neg (by omega : ¬((len : Int) = 0))]
      rw [if_neg (by omega : ¬(raw.length < 2))]
      have htoNat : ((len : Int)).toNat = len := Int.toNat_natCast len
      have hlast : raw.getD (raw.length - 2) ' ' = '\r' := by
        rw [List.getD_eq_get?, hraw]
        have hidx : (raw.length - 2) = (natDigits len).length + (data.length + 2) := by
          omega
        rw [hraw] at hidx
        rw [hidx]
        rw [List.get?_append_right (by omega)]
        have : (natDigits len).length + (data.length + 2) - (natDigits len).length =
            data.length + 2 := by omega
        rw [this]
        show (('\r' :: '\n' :: (data ++ ['\r', '\n'])).get? (data.length + 2)).getD ' ' = '\r'
        rw [show data.length + 2 = (data.length + 1) + 1 by omega]
        rw [List.get?_cons_succ]
        rw [show data.length + 1 = data.length + 1 by rfl]
        rw [List.get?_cons_succ]
        rw [List.get?_append_right (le_refl _)]
        simp
      rw [hlast, htoNat]
      -- the probed byte at index |digits| + 2 + len
      have hsplit : raw.get? ((natDigits len).length + 2 + len) =
          (data ++ ['\r', '\n']).get? len := by
        rw [hraw]
        rw [List.get?_append_right (by omega)]
        have : (natDigits len).length + 2 + len - (natDigits len).length = len + 2 := by
          omega
        rw [this]
        rw [show len + 2 = (len + 1) + 1 by omega, List.get?_cons_succ,
          List.get?_cons_succ]
      rw [hnd] at hsplit
      rcases Nat.lt_or_ge len data.length with hlt | hge
      · -- probe hits a data byte, which is not CR: mismatch error
        have hdata : ∃ x, (data ++ ['\r', '\n']).get? len = some x ∧ x ≠ '\r' := by
          rw [List.get?_append hlt]
          cases hx : data.get? len with
          | none =>
            rw [List.get?_eq_none] at hx
            omega
          | some x =>
            exact ⟨x, rfl, fun e => hcr (by rw [← e]; exact List.get?_mem hx)⟩
        obtain ⟨x, hx, hxcr⟩ := hdata
        simp only [hsplit, hx]
        rw [if_pos (fun e => hxcr e.symm)]
        rfl
      · rcases Nat.lt_or_ge len (data.length + 2) with hlt2 | hge2
        · -- len = data.length + 1: probe hits the LF of the trailing CRLF
          have hlen1 : len = data.length + 1 := by omega
          have hx : (data ++ ['\r', '\n']).get? len = some '\n' := by
            rw [List.get?_append_right (by omega)]
            rw [hlen1]
            have : data.length + 1 - data.length = 1 := by omega
            rw [this]
            rfl
          simp only [hsplit, hx]
          rw [if_pos (by decide : ('\r' : Char) ≠ '\n')]
          rfl
        · -- len ≥ data.length + 2: the probe index is out of range: panic
          have hx : (data ++ ['\r', '\n']).get? len = none := by
            rw [List.get?_eq_none]
            simp
            omega
          simp only [hsplit, hx]
          rfl

/-- C7 witness: the amended mismatch theorem applied to the frame
`$2\r\nabc\r\n` (declared length 2, payload length 3). -/
theorem C7_length_mismatch_witness :
    0 < 2 ∧ (2 : Nat) ≠ ("abc".data : Str).length ∧ '\r' ∉ ("abc".data : Str) ∧
    (DecodeMessage ('$' :: (natDigits 2 ++ '\r' :: '\n' :: ("abc".data ++ ['\r', '\n'])))).isOk
      = false :=
  ⟨by decide, by decide, by decide,
    C7_length_mismatch_never_ok 2 "abc".data (by decide) (by decide) (by decide)⟩

/-! ### Claim C5 — ordered-tree lemmas -/

theorem RBNode.Forall_imp {p q : K → Prop} (h : ∀ j, p j → q j) :
    ∀ {t : RBNode K}, RBNode.Forall p t → RBNode.Forall q t := by
  intro t
  induction t with
  | leaf => intro; trivial
  | node l k es r ihl ihr =>
    rintro ⟨hk, hl, hr⟩
    exact ⟨h k hk, ihl hl, ihr hr⟩

theorem RBNode.Forall_put [LinearOrder K] {p : K → Prop} {t : RBNode K} {k : K} {v : Str}
    (ht : RBNode.Forall p t) (hk : p k) : RBNode.Forall p (t.put k v) := by
  induction t with
  | leaf => exact ⟨hk, trivial, trivial⟩
  | node l key es r ihl ihr =>
    obtain ⟨hkey, hl, hr⟩ := ht
    rw [RBNode.put]
    by_cases h1 : k > key
    · rw [if_pos h1]
      exact ⟨hkey, hl, ihr hr⟩
    · rw [if_neg h1]
      by_cases h2 : k < key
      · rw [if_pos h2]
        exact ⟨hkey, ihl hl, hr⟩
      · rw [if_neg h2]
        exact ⟨hkey, hl, hr⟩

theorem RBNode.Ordered_put [LinearOrder K] {t : RBNode K} {k : K} {v : Str}
    (ht : RBNode.Ordered t) : RBNode.Ordered (t.put k v) := by
  induction t with
  | leaf => exact ⟨trivial, trivial, trivial, trivial⟩
  | node l key es r ihl ihr =>
    obtain ⟨hl, hr, hbl, hbr⟩ := ht
    rw [RBNode.put]
    by_cases h1 : k > key
    · rw [if_pos h1]
      exact ⟨hl, ihr hr, hbl, RBNode.Forall_put hbr h1⟩
    · rw [if_neg h1]
      by_cases h2 : k < key
      · rw [if_pos h2]
        exact ⟨ihl hl, hr, RBNode.Forall_put hbl h2, hbr⟩
      · rw [if_neg h2]
        exact ⟨hl, hr, hbl, hbr⟩

theorem inorder_forall {p : K → Prop} :
    ∀ {t : RBNode K}, RBNode.Forall p t → ∀ q ∈ RBNode.inorder t, p q.1 := by
  intro t
  induction t with
  | leaf => intro _ q hq; cases hq
  | node l k es r ihl ihr =>
    rintro ⟨hk, hl, hr⟩ q hq
    rw [RBNode.inorder] at hq
    rcases List.mem_append.mp hq with h | h
    · exact ihl hl q h
    · rcases List.mem_cons.mp h with h | h
      · rw [h]; exact hk
      · exact ihr hr q h

theorem assocPut_append_of_forall_lt [LinearOrder K] {k : K} {v : Str}
    {A B : List (K × List Str)} (h : ∀ p ∈ A, p.1 < k) :
    assocPut k v (A ++ B) = A ++ assocPut k v B := by
  induction A with
  | nil => rfl
  | cons p rest ih =>
    obtain ⟨k2, es⟩ := p
    have hk2 : k2 < k := h (k2, es) (List.mem_cons_self _ _)
    rw [List.cons_append, assocPut]
    rw [if_neg (lt_asymm hk2), if_neg (ne_of_gt hk2)]
    rw [ih (fun p hp => h p (List.mem_cons_of_mem _ hp))]
    rfl

theorem assocPut_append_cons_lt [LinearOrder K] {k key : K} {v : Str} {es : List Str}
    {A B : List (K × List Str)} (hk : k < key) :
    assocPut k v (A ++ (key, es) :: B) = assocPut k v A ++ (key, es) :: B := by
  induction A with
  | nil =>
    rw [List.nil_append]
    simp [assocPut, hk]
  | cons p rest ih =>
    obtain ⟨k2, es2⟩ := p
    by_cases h1 : k < k2
    · simp [assocPut, h1]
    · by_cases h2 : k = k2
      · simp [assocPut, h1, h2]
      · simp [assocPut, h1, h2, ih]

theorem inorder_put [LinearOrder K] {t : RBNode K} (ht : RBNode.Ordered t) (k : K) (v : Str) :
    RBNode.inorder (t.put k v) = assocPut k v (RBNode.inorder t) := by
  induction t with
  | leaf => rfl
  | node l key es r ihl ihr =>
    obtain ⟨hl, hr, hbl, hbr⟩ := ht
    rw [RBNode.put]
    by_cases h1 : k > key
    · rw [if_pos h1]
      rw [RBNode.inorder, RBNode.inorder, ihr hr]
      rw [show RBNode.inorder l ++ (key, es) :: RBNode.inorder r =
        (RBNode.inorder l ++ [(key, es)]) ++ RBNode.inorder r by simp]
      rw [assocPut_append_of_forall_lt ?_]
      · simp
      · intro p hp
        rcases List.mem_append.mp hp with h | h
        · exact lt_trans (inorder_forall hbl p h) h1
        · rcases List.mem_singleton.mp h with rfl
          exact h1
    · rw [if_neg h1]
      by_cases h2 : k < key
      · rw [if_pos h2, RBNode.inorder, RBNode.inorder, ihl hl]
        rw [assocPut_append_cons_lt h2]
      · rw [if_neg h2]
        have hkk : k = key := le_antisymm (not_lt.mp h1) (not_lt.mp h2)
        subst hkk
        rw [RBNode.inorder, RBNode.inorder]
        rw [assocPut_append_of_forall_lt (fun p hp => inorder_forall hbl p hp)]
        rw [assocPut, if_neg (lt_irrefl k), if_pos rfl]

theorem forall_minKey {p : K → Prop} :
    ∀ {t : RBNode K} {lo : K}, RBNode.Forall p t → RBNode.minKey t = some lo → p lo := by
  intro t
  induction t with
  | leaf => intro lo _ h; cases h
  | node l k es r ihl ihr =>
    rintro lo ⟨hk, hl, hr⟩ hm
    rw [RBNode.minKey] at hm
    injection hm with hm
    cases hml : RBNode.minKey l with
    | none =>
      rw [hml] at hm
      simp at hm
      rw [← hm]
      exact hk
    | some lo2 =>
      rw [hml] at hm
      simp at hm
      rw [← hm]
      exact ihl hl hml

theorem forall_maxKey {p : K → Prop} :
    ∀ {t : RBNode K} {hi : K}, RBNode.Forall p t → RBNode.maxKey t = some hi → p hi := by
  intro t
  induction t with
  | leaf => intro hi _ h; cases h
  | node l k es r ihl ihr =>
    rintro hi ⟨hk, hl, hr⟩ hm
    rw [RBNode.maxKey] at hm
    injection hm with hm
    cases hmr : RBNode.maxKey r with
    | none =>
      rw [hmr] at hm
      simp at hm
      rw [← hm]
      exact hk
    | some hi2 =>
      rw [hmr] at hm
      simp at hm
      rw [← hm]
      exact ihr hr hmr

theorem minKey_le [LinearOrder K] :
    ∀ {t : RBNode K} {lo : K}, RBNode.Ordered t → RBNode.minKey t = some lo →
      RBNode.Forall (fun j => lo ≤ j) t := by
  intro t
  induction t with
  | leaf => intro lo _ h; cases h
  | node l k es r ihl ihr =>
    rintro lo ⟨hl, hr, hbl, hbr⟩ hm
    rw [RBNode.minKey] at hm
    injection hm with hm
    cases hml : RBNode.minKey l with
    | none =>
      rw [hml] at hm
      simp at hm
      subst hm
      have hlleaf : l = RBNode.leaf := by
        cases l with
        | leaf => rfl
        | node l2 k2 es2 r2 => rw [RBNode.minKey] at hml; cases hml
      subst hlleaf
      exact ⟨le_refl _, trivial, RBNode.Forall_imp (fun j hj => le_of_lt hj) hbr⟩
    | some lo2 =>
      rw [hml] at hm
      simp at hm
      rw [hm] at hml
      have hlok : lo ≤ k := le_of_lt (forall_minKey (p := fun j => j < k) hbl hml)
      refine ⟨hlok, ihl hl hml, ?_⟩
      exact RBNode.Forall_imp (fun j hj => le_trans hlok (le_of_lt hj)) hbr

theorem maxKey_ge [LinearOrder K] :
    ∀ {t : RBNode K} {hi : K}, RBNode.Ordered t → RBNode.maxKey t = some hi →
      RBNode.Forall (fun j => j ≤ hi) t := by
  intro t
  induction t with
  | leaf => intro hi _ h; cases h
  | node l k es r ihl ihr =>
    rintro hi ⟨hl, hr, hbl, hbr⟩ hm
    rw [RBNode.maxKey] at hm
    injection hm with hm
    cases hmr : RBNode.maxKey r with
    | none =>
      rw [hmr] at hm
      simp at hm
      subst hm
      have hrleaf : r = RBNode.leaf := by
        cases r with
        | leaf => rfl
        | node l2 k2 es2 r2 => rw [RBNode.maxKey] at hmr; cases hmr
      subst hrleaf
      exact ⟨le_refl _, RBNode.Forall_imp (fun j hj => le_of_lt hj) hbl, trivial⟩
    | some hi2 =>
      rw [hmr] at hm
      simp at hm
      rw [hm] at hmr
      have hkhi : k ≤ hi := le_of_lt (forall_maxKey (p := fun j => k < j) hbr hmr)
      refine ⟨hkhi, ?_, ihr hr hmr⟩
      exact RBNode.Forall_imp (fun j hj => le_trans (le_of_lt hj) hkhi) hbl

theorem Forall_leaf_of_bounds [LinearOrder K] {t : RBNode K} {b : K}
    (h1 : RBNode.Forall (fun j => j < b) t) (h2 : RBNode.Forall (fun j => b ≤ j) t) :
    t = RBNode.leaf := by
  cases t with
  | leaf => rfl
  | node l k es r =>
    exact absurd h2.1 (not_le.mpr h1.1)

theorem rangeGetValues_all [LinearOrder K] :
    ∀ {t : RBNode K} {lo hi : K}, RBNode.Ordered t →
      RBNode.Forall (fun j => lo ≤ j ∧ j ≤ hi) t →
      RBNode.rangeGetValues t lo hi = (RBNode.inorder t).flatMap Prod.snd := by
  intro t
  induction t with
  | leaf => intro lo hi _ _; rfl
  | node l k es r ihl ihr =>
    rintro lo hi ⟨hl, hr, hbl, hbr⟩ ⟨⟨hlo, hhi⟩, hbndl, hbndr⟩
    rw [RBNode.rangeGetValues, RBNode.inorder]
    have hmid : (if lo ≤ k ∧ k ≤ hi then es else []) = es := if_pos ⟨hlo, hhi⟩
    have hleft : (if k > lo then RBNode.rangeGetValues l lo hi else []) =
        (RBNode.inorder l).flatMap Prod.snd := by
      by_cases hklo : k > lo
      · rw [if_pos hklo]
        exact ihl hl hbndl
      · rw [if_neg hklo]
        have hkeq : k = lo := le_antisymm (not_lt.mp hklo) hlo
        have hleaf : l = RBNode.leaf := by
          refine Forall_leaf_of_bounds (b := k) hbl ?_
          refine RBNode.Forall_imp (fun j hj => ?_) hbndl
          rw [hkeq]
          exact hj.1
        rw [hleaf]
        rfl
    have hright : (if k < hi then RBNode.rangeGetValues r lo hi else []) =
        (RBNode.inorder r).flatMap Prod.snd := by
      by_cases hkhi : k < hi
      · rw [if_pos hkhi]
        exact ihr hr hbndr
      · rw [if_neg hkhi]
        have hkeq : k = hi := le_antisymm hhi (not_lt.mp hkhi)
        have hleaf : r = RBNode.leaf := by
          cases r with
          | leaf => rfl
          | node l2 k2 es2 r2 =>
            exact absurd hbr.1 (not_lt.mpr (by rw [hkeq]; exact hbndr.1.2))
        rw [hleaf]
        rfl
    rw [hleft, hmid, hright]
    simp

theorem RBNode.Forall_and {p q : K → Prop} :
    ∀ {t : RBNode K}, RBNode.Forall p t → RBNode.Forall q t →
      RBNode.Forall (fun j => p j ∧ q j) t := by
  intro t
  induction t with
  | leaf => intro _ _; trivial
  | node l k es r ihl ihr =>
    rintro ⟨hk, hl, hr⟩ ⟨hk2, hl2, hr2⟩
    exact ⟨⟨hk, hk2⟩, ihl hl hl2, ihr hr hr2⟩

theorem GetValueSet_inorder [LinearOrder K] {t : rbtree K} (ho : RBNode.Ordered t.root)
    (hne : t.root ≠ RBNode.leaf) :
    t.GetValueSet = some ((RBNode.inorder t.root).flatMap Prod.snd) := by
  have hmin : ∃ lo, RBNode.minKey t.root = some lo := by
    cases h : t.root with
    | leaf => exact absurd h hne
    | node l k es r => exact ⟨((RBNode.minKey l).getD k), by rw [RBNode.minKey]⟩
  have hmax : ∃ hi, RBNode.maxKey t.root = some hi := by
    cases h : t.root with
    | leaf => exact absurd h hne
    | node l k es r => exact ⟨((RBNode.maxKey r).getD k), by rw [RBNode.maxKey]⟩
  obtain ⟨lo, hlo⟩ := hmin
  obtain ⟨hi, hhi⟩ := hmax
  simp only [rbtree.GetValueSet, hlo, hhi, rbtree.RangeGetValues]
  rw [rangeGetValues_all ho (RBNode.Forall_and (minKey_le ho hlo) (maxKey_ge ho hhi))]

theorem buildTree_fold [LinearOrder K] :
    ∀ (ops : List (K × Str)) (t : rbtree K), RBNode.Ordered t.root →
      RBNode.Ordered ((ops.foldl (fun t p => t.Put p.1 p.2) t).root) ∧
      RBNode.inorder ((ops.foldl (fun t p => t.Put p.1 p.2) t).root) =
        ops.foldl (fun al p => assocPut p.1 p.2 al) (RBNode.inorder t.root) := by
  intro ops
  induction ops with
  | nil => intro t ht; exact ⟨ht, rfl⟩
  | cons p rest ih =>
    intro t ht
    rw [List.foldl_cons, List.foldl_cons]
    have hstep : RBNode.Ordered (t.Put p.1 p.2).root := RBNode.Ordered_put ht
    obtain ⟨h1, h2⟩ := ih (t.Put p.1 p.2) hstep
    refine ⟨h1, ?_⟩
    rw [h2]
    rw [show RBNode.inorder (t.Put p.1 p.2).root = assocPut p.1 p.2 (RBNode.inorder t.root)
      from inorder_put ht p.1 p.2]

theorem buildTree_size [LinearOrder K] :
    ∀ (ops : List (K × Str)) (t : rbtree K),
      (ops.foldl (fun t p => t.Put p.1 p.2) t).size = t.size + ops.length := by
  intro ops
  induction ops with
  | nil => intro t; simp
  | cons p rest ih =>
    intro t
    rw [List.foldl_cons, ih]
    rw [rbtree.Put]
    simp
    omega

theorem sortStr_perm (l : List Str) : List.Perm (sortStr l) l := List.perm_insertionSort _ _

theorem sortStr_sorted (l : List Str) : List.Sorted (· ≤ ·) (sortStr l) :=
  List.sorted_insertionSort _ _

theorem sortStr_congr {A B : List Str} (h : List.Perm A B) : sortStr A = sortStr B := by
  refine List.eq_of_perm_of_sorted ?_ (sortStr_sorted A) (sortStr_sorted B)
  exact ((sortStr_perm A).trans h).trans (sortStr_perm B).symm

theorem mem_keys_assocPut [LinearOrder K] {k : K} {v : Str} :
    ∀ {al : List (K × List Str)} {j : K},
      j ∈ (assocPut k v al).map Prod.fst → j = k ∨ j ∈ al.map Prod.fst := by
  intro al
  induction al with
  | nil =>
    intro j hj
    simp [assocPut] at hj
    exact Or.inl hj
  | cons p rest ih =>
    obtain ⟨k2, es⟩ := p
    intro j hj
    by_cases h1 : k < k2
    · simp [assocPut, h1] at hj
      rcases hj with h | h | h
      · exact Or.inl h
      · exact Or.inr (by simp [h])
      · exact Or.inr (by simp [h])
    · by_cases h2 : k = k2
      · simp [assocPut, h1, h2] at hj
        rcases hj with h | h
        · exact Or.inr (by simp [h])
        · exact Or.inr (by simp [h])
      · simp [assocPut, h1, h2] at hj
        rcases hj with h | h
        · exact Or.inr (by simp [h])
        · rcases ih (by simpa using h) with h3 | h3
          · exact Or.inl h3
          · exact Or.inr (by simp [h3])

theorem pairwise_assocPut [LinearOrder K] {k : K} {v : Str} :
    ∀ {al : List (K × List Str)},
      (al.map Prod.fst).Pairwise (· < ·) →
      ((assocPut k v al).map Prod.fst).Pairwise (· < ·) := by
  intro al
  induction al with
  | nil => intro _; simp [assocPut]
  | cons p rest ih =>
    obtain ⟨k2, es⟩ := p
    intro hp
    rw [List.map_cons, List.pairwise_cons] at hp
    obtain ⟨hhead, hrest⟩ := hp
    by_cases h1 : k < k2
    · rw [show assocPut k v ((k2, es) :: rest) = (k, [v]) :: (k2, es) :: rest by
        simp [assocPut, h1]]
      rw [List.map_cons, List.map_cons, List.pairwise_cons]
      constructor
      · intro j hj
        rcases List.mem_cons.mp hj with h | h
        · rw [h]; exact h1
        · exact lt_trans h1 (hhead j h)
      · rw [List.pairwise_cons]
        exact ⟨hhead, hrest⟩
    · by_cases h2 : k = k2
      · rw [show assocPut k v ((k2, es) :: rest) =
            (k2, sortStr (es ++ [v])) :: rest by simp [assocPut, h1, h2]]
        rw [List.map_cons, List.pairwise_cons]
        exact ⟨hhead, hrest⟩
      · rw [show assocPut k v ((k2, es) :: rest) = (k2, es) :: assocPut k v rest by
          simp [assocPut, h1, h2]]
        rw [List.map_cons, List.pairwise_cons]
        constructor
        · intro j hj
          rcases mem_keys_assocPut hj with h | h
          · rw [h]
            rcases lt_trichotomy k2 k with hlt | heq | hgt
            · exact hlt
            · exact absurd heq.symm h2
            · exact absurd hgt (by simpa using h1)
          · exact hhead j h
        · exact ih hrest

theorem lookupA_eq_none_of_not_mem [DecidableEq K] {al : List (K × List Str)} {k : K}
    (h : k ∉ al.map Prod.fst) : lookupA k al = none := by
  induction al with
  | nil => rfl
  | cons p rest ih =>
    obtain ⟨k2, es⟩ := p
    simp only [List.map_cons, List.mem_cons] at h
    push_neg at h
    rw [lookupA, if_neg (fun e => h.1 e.symm)]
    exact ih h.2

theorem lookupA_nil [DecidableEq K] (s : K) : lookupA s ([] : List (K × List Str)) = none := rfl

theorem lookupA_cons [DecidableEq K] (s a : K) (es : List Str) (rest : List (K × List Str)) :
    lookupA s ((a, es) :: rest) = if a = s then some es else lookupA s rest := rfl

theorem lookupA_assocPut [LinearOrder K] {al : List (K × List Str)}
    (hp : (al.map Prod.fst).Pairwise (· < ·)) (k : K) (v : Str) (s : K) :
    lookupA s (assocPut k v al) =
      if s = k then some (sortStr ((lookupA k al).getD [] ++ [v])) else lookupA s al := by
  induction al with
  | nil =>
    rw [show assocPut k v ([] : List (K × List Str)) = [(k, [v])] from rfl]
    rw [lookupA_cons, lookupA_nil, lookupA_nil]
    by_cases hs : s = k
    · rw [if_pos hs, if_pos hs.symm]
      rfl
    · rw [if_neg hs, if_neg (fun e => hs e.symm)]
  | cons p rest ih =>
    obtain ⟨k2, es⟩ := p
    rw [List.map_cons, List.pairwise_cons] at hp
    obtain ⟨hhead, hrest⟩ := hp
    by_cases h1 : k < k2
    · rw [show assocPut k v ((k2, es) :: rest) = (k, [v]) :: (k2, es) :: rest by
        simp [assocPut, h1]]
      have hlk : lookupA k ((k2, es) :: rest) = none := by
        refine lookupA_eq_none_of_not_mem ?_
        intro hmem
        rcases List.mem_cons.mp hmem with h | h
        · exact absurd h.symm (ne_of_gt h1)
        · exact absurd (hhead k h) (lt_asymm h1)
      rw [lookupA_cons, hlk]
      by_cases hs : s = k
      · rw [if_pos hs, if_pos hs.symm]
        rfl
      · rw [if_neg hs, if_neg (fun e => hs e.symm)]
    · by_cases h2 : k = k2
      · rw [show assocPut k v ((k2, es) :: rest) = (k2, sortStr (es ++ [v])) :: rest by
          simp [assocPut, h1, h2]]
        rw [lookupA_cons, lookupA_cons, if_pos h2.symm]
        by_cases hs : s = k
        · have hk2s : k2 = s := by rw [hs, h2]
          rw [if_pos hk2s, if_pos hs]
          rfl
        · have hk2s : ¬(k2 = s) := fun e => hs (by rw [← e, ← h2])
          rw [if_neg hk2s, if_neg hs, lookupA_cons, if_neg hk2s]
      · rw [show assocPut k v ((k2, es) :: rest) = (k2, es) :: assocPut k v rest by
          simp [assocPut, h1, h2]]
        have hk2k : ¬(k2 = k) := fun e => h2 e.symm
        rw [lookupA_cons]
        by_cases hs2 : k2 = s
        · have hs : ¬(s = k) := fun e => hk2k (hs2.trans e)
          rw [if_pos hs2, if_neg hs, lookupA_cons, if_pos hs2]
        · rw [if_neg hs2, ih hrest,
            show lookupA k ((k2, es) :: rest) = lookupA k rest by
              rw [lookupA_cons, if_neg hk2k]]
          by_cases hs : s = k
          · rw [if_pos hs, if_pos hs]
          · rw [if_neg hs, if_neg hs, lookupA_cons, if_neg hs2]

theorem assocPut_ne_nil [LinearOrder K] (k : K) (v : Str) (al : List (K × List Str)) :
    assocPut k v al ≠ [] := by
  cases al with
  | nil => simp [assocPut]
  | cons p rest =>
    obtain ⟨k2, es⟩ := p
    by_cases h1 : k < k2
    · simp [assocPut, h1]
    · by_cases h2 : k = k2
      · simp [assocPut, h1, h2]
      · simp [assocPut, h1, h2]

theorem foldl_assocPut_ne_nil [LinearOrder K] :
    ∀ (ops : List (K × Str)) (al : List (K × List Str)), al ≠ [] →
      ops.foldl (fun al p => assocPut p.1 p.2 al) al ≠ [] := by
  intro ops
  induction ops with
  | nil => intro al h; exact h
  | cons p rest ih =>
    intro al _
    rw [List.foldl_cons]
    exact ih _ (assocPut_ne_nil p.1 p.2 al)

theorem pairwise_foldl_assocPut [LinearOrder K] :
    ∀ (ops : List (K × Str)) (al : List (K × List Str)),
      (al.map Prod.fst).Pairwise (· < ·) →
      (((ops.foldl (fun al p => assocPut p.1 p.2 al) al).map Prod.fst)).Pairwise (· < ·) := by
  intro ops
  induction ops with
  | nil => intro al h; exact h
  | cons p rest ih =>
    intro al h
    rw [List.foldl_cons]
    exact ih _ (pairwise_assocPut h)

theorem lookupA_isSome_iff [DecidableEq K] {s : K} :
    ∀ {al : List (K × List Str)}, (lookupA s al).isSome ↔ s ∈ al.map Prod.fst := by
  intro al
  induction al with
  | nil => simp [lookupA]
  | cons p rest ih =>
    obtain ⟨k2, es⟩ := p
    rw [lookupA_cons]
    by_cases h : k2 = s
    · simp [h]
    · rw [if_neg h]
      simp only [List.map_cons, List.mem_cons]
      rw [ih]
      constructor
      · exact Or.inr
      · rintro (e | hm)
        · exact absurd e.symm h
        · exact hm

theorem lookupA_foldl_assocPut [LinearOrder K] (ops : List (K × Str)) :
    ∀ s : K,
      lookupA s (ops.foldl (fun al p => assocPut p.1 p.2 al) []) =
        if ops.filter (fun p => p.1 = s) = [] then none
        else some (sortStr ((ops.filter (fun p => p.1 = s)).map Prod.snd)) := by
  induction ops using List.reverseRecOn with
  | nil => intro s; simp [lookupA]
  | append_singleton init p ih =>
    intro s
    rw [List.foldl_append, List.foldl_cons, List.foldl_nil]
    have hpw : (((init.foldl (fun al p => assocPut p.1 p.2 al) []).map Prod.fst)).Pairwise
        (fun a b => a < b) := pairwise_foldl_assocPut init [] (by simp)
    rw [lookupA_assocPut hpw p.1 p.2 s]
    rw [List.filter_append]
    by_cases hs : s = p.1
    · rw [if_pos hs]
      have hfp : [p].filter (fun q => q.1 = s) = [p] := by
        simp [List.filter, hs]
      rw [hfp]
      by_cases hfil : init.filter (fun q => q.1 = p.1) = []
      · rw [ih p.1, if_pos hfil]
        have hfil2 : init.filter (fun q => q.1 = s) = [] := by rw [hs]; exact hfil
        rw [hfil2]
        rw [if_neg (by simp)]
        rfl
      · rw [ih p.1, if_neg hfil]
        have hfil2 : init.filter (fun q => q.1 = s) = init.filter (fun q => q.1 = p.1) := by
          rw [hs]
        rw [hfil2]
        rw [if_neg (by simp)]
        rw [Option.getD_some]
        refine congrArg some ?_
        have hperm : List.Perm
            (sortStr ((init.filter (fun q => q.1 = p.1)).map Prod.snd) ++ [p.2])
            (((init.filter (fun q => q.1 = p.1)) ++ [p]).map Prod.snd) := by
          rw [List.map_append]
          exact List.Perm.append_right _ (sortStr_perm _)
        exact sortStr_congr hperm
    · rw [if_neg hs]
      have hne : ¬(p.1 = s) := fun e => hs e.symm
      have hfp : [p].filter (fun q => q.1 = s) = [] := by
        simp [List.filter, hne]
      rw [hfp, List.append_nil]
      exact ih s

theorem assoc_reconstruct [DecidableEq K] :
    ∀ {al : List (K × List Str)}, (al.map Prod.fst).Nodup →
      al = (al.map Prod.fst).map (fun s => (s, (lookupA s al).getD [])) := by
  intro al
  induction al with
  | nil => intro _; rfl
  | cons p rest ih =>
    obtain ⟨k2, es⟩ := p
    intro h
    rw [List.map_cons, List.nodup_cons] at h
    obtain ⟨hk2, hrest⟩ := h
    rw [List.map_cons, List.map_cons]
    refine congrArg₂ List.cons ?_ ?_
    · rw [lookupA_cons, if_pos rfl, Option.getD_some]
    · have hmc : (rest.map Prod.fst).map (fun s => (s, (lookupA s rest).getD [])) =
          (rest.map Prod.fst).map
            (fun s => (s, (lookupA s ((k2, es) :: rest)).getD [])) := by
        refine List.map_congr_left ?_
        intro s hs
        have hne : ¬(k2 = s) := fun e => hk2 (e ▸ hs)
        rw [lookupA_cons, if_neg hne]
      rw [← hmc]
      exact ih hrest

theorem flatLen_assocPut [LinearOrder K] (k : K) (v : Str) :
    ∀ (al : List (K × List Str)),
      ((assocPut k v al).flatMap Prod.snd).length = (al.flatMap Prod.snd).length + 1 := by
  intro al
  induction al with
  | nil => simp [assocPut]
  | cons p rest ih =>
    obtain ⟨k2, es⟩ := p
    by_cases h1 : k < k2
    · rw [show assocPut k v ((k2, es) :: rest) = (k, [v]) :: (k2, es) :: rest by
        simp [assocPut, h1]]
      rw [List.flatMap_cons, List.flatMap_cons]
      simp only [List.length_append]
      simp
      omega
    · by_cases h2 : k = k2
      · rw [show assocPut k v ((k2, es) :: rest) = (k2, sortStr (es ++ [v])) :: rest by
          simp [assocPut, h1, h2]]
        rw [List.flatMap_cons, List.flatMap_cons]
        simp only [List.length_append]
        rw [(sortStr_perm (es ++ [v])).length_eq, List.length_append]
        simp only [List.length_cons, List.length_nil]
        omega
      · rw [show assocPut k v ((k2, es) :: rest) = (k2, es) :: assocPut k v rest by
          simp [assocPut, h1, h2]]
        rw [List.flatMap_cons, List.flatMap_cons]
        simp only [List.length_append]
        omega

theorem flatLen_foldl_assocPut [LinearOrder K] :
    ∀ (ops : List (K × Str)) (al : List (K × List Str)),
      (((ops.foldl (fun al p => assocPut p.1 p.2 al) al)).flatMap Prod.snd).length =
        (al.flatMap Prod.snd).length + ops.length := by
  intro ops
  induction ops with
  | nil => intro al; simp
  | cons p rest ih =>
    intro al
    rw [List.foldl_cons, ih, flatLen_assocPut, List.length_cons]
    omega

theorem keys_foldl_assocPut [LinearOrder K] (ops : List (K × Str)) :
    (ops.foldl (fun al p => assocPut p.1 p.2 al) []).map Prod.fst =
      List.insertionSort (· ≤ ·) (ops.map Prod.fst).dedup := by
  have hpw := pairwise_foldl_assocPut ops [] (by simp)
  have hs1 : ((ops.foldl (fun al p => assocPut p.1 p.2 al) []).map Prod.fst).Sorted (· ≤ ·) :=
    hpw.imp le_of_lt
  have hs2 : (List.insertionSort (· ≤ ·) (ops.map Prod.fst).dedup).Sorted (· ≤ ·) :=
    List.sorted_insertionSort _ _
  refine List.eq_of_perm_of_sorted ?_ hs1 hs2
  refine (List.perm_ext_iff_of_nodup (hpw.imp ne_of_lt) ?_).mpr ?_
  · exact (List.perm_insertionSort _ _).nodup_iff.mpr (List.nodup_dedup _)
  · intro a
    rw [(List.perm_insertionSort _ _).mem_iff, List.mem_dedup]
    rw [← lookupA_isSome_iff, lookupA_foldl_assocPut ops a]
    by_cases hfil : ops.filter (fun p => p.1 = a) = []
    · rw [if_pos hfil]
      simp only [Option.isSome_none, Bool.false_eq_true, false_iff]
      intro hmem
      obtain ⟨p, hp, hpa⟩ := List.mem_map.mp hmem
      have := List.filter_eq_nil_iff.mp hfil p hp
      simp at this
      exact this hpa
    · rw [if_neg hfil]
      simp only [Option.isSome_some, true_iff]
      obtain ⟨p, hp⟩ := List.exists_mem_of_ne_nil _ hfil
      refine List.mem_map.mpr ⟨p, List.mem_of_mem_filter hp, ?_⟩
      have := List.of_mem_filter hp
      simpa using this

theorem flatMap_foldl_assocPut [LinearOrder K] (ops : List (K × Str)) :
    (ops.foldl (fun al p => assocPut p.1 p.2 al) []).flatMap Prod.snd = zrangeSpec ops := by
  have hpw := pairwise_foldl_assocPut ops [] (by simp)
  have hnd : ((ops.foldl (fun al p => assocPut p.1 p.2 al) []).map Prod.fst).Nodup :=
    hpw.imp ne_of_lt
  conv_lhs => rw [assoc_reconstruct hnd]
  rw [List.flatMap_map]
  rw [keys_foldl_assocPut ops]
  rw [zrangeSpec]
  rw [List.flatMap, List.flatMap]
  refine congrArg List.flatten ?_
  refine List.map_congr_left ?_
  intro s hs
  rw [(List.perm_insertionSort _ _).mem_iff, List.mem_dedup] at hs
  obtain ⟨p, hp, hpa⟩ := List.mem_map.mp hs
  have hfil : ops.filter (fun q => q.1 = s) ≠ [] := by
    intro hnil
    have := List.filter_eq_nil_iff.mp hnil p hp
    simp at this
    exact this hpa
  show ((lookupA s (ops.foldl (fun al p => assocPut p.1 p.2 al) [])).getD []) =
    sortStr ((ops.filter (fun q => q.1 = s)).map Prod.snd)
  rw [lookupA_foldl_assocPut ops s, if_neg hfil, Option.getD_some]

theorem buildTree_GetValueSet [LinearOrder K] (ops : List (K × Str)) (h : ops ≠ []) :
    (buildTree ops).GetValueSet = some (zrangeSpec ops) := by
  obtain ⟨ho, hinord⟩ := buildTree_fold ops (NewTree K) trivial
  have hbt : buildTree ops = ops.foldl (fun t q => t.Put q.1 q.2) (NewTree K) := rfl
  have hAL : ops.foldl (fun al q => assocPut q.1 q.2 al) [] ≠ [] := by
    cases ops with
    | nil => exact absurd rfl h
    | cons p rest =>
      rw [List.foldl_cons]
      exact foldl_assocPut_ne_nil rest _ (assocPut_ne_nil p.1 p.2 [])
  have hinord2 : RBNode.inorder (buildTree ops).root =
      ops.foldl (fun al q => assocPut q.1 q.2 al) [] := by
    rw [hbt, hinord]
    rfl
  have hne : (buildTree ops).root ≠ RBNode.leaf := by
    intro hleaf
    rw [hleaf] at hinord2
    exact hAL hinord2.symm
  have ho2 : RBNode.Ordered (buildTree ops).root := by rw [hbt]; exact ho
  rw [GetValueSet_inorder ho2 hne, hinord2, flatMap_foldl_assocPut]

theorem zrangeSpec_length [LinearOrder K] (ops : List (K × Str)) :
    (zrangeSpec ops).length = ops.length := by
  rw [← flatMap_foldl_assocPut]
  have := flatLen_foldl_assocPut ops []
  simpa using this

theorem zrange_full_ok [LinearOrder K] (ops : List (K × Str)) (key : Str) (h : ops ≠ []) :
    keyspace.GetSortedSetValuesByRange (sortedSetKeyspace key (buildTree ops)) key 0 (-1) =
      .ok (zrangeSpec ops) := by
  have hsize : (buildTree ops).size = (ops.length : Int) := by
    have hb := buildTree_size ops (NewTree K)
    rw [show buildTree ops = ops.foldl (fun t q => t.Put q.1 q.2) (NewTree K) from rfl, hb]
    simp [NewTree]
  have hk : lookupS key [(key, ({ group := "sorted-set", expires := none } : keyspaceEntry))] =
      some { group := "sorted-set", expires := none } := by simp
  have hm : lookupS key [(key, buildTree ops)] = some (buildTree ops) := by simp
  simp only [keyspace.GetSortedSetValuesByRange, sortedSetKeyspace, hk, hm,
    buildTree_GetValueSet ops h]
  have hstop : (if (-1 : Int) < 0 then (buildTree ops).Size + (-1) + 1 else (-1 : Int)) =
      (ops.length : Int) := by
    rw [if_pos (by omega), rbtree.Size, hsize]
    omega
  rw [hstop]
  have hslice : goSliceRange (zrangeSpec ops) 0 (ops.length : Int) = some (zrangeSpec ops) := by
    rw [goSliceRange, if_pos]
    · have h1 : ((ops.length : Int)).toNat = ops.length := by omega
      have h0 : ((0 : Int)).toNat = 0 := rfl
      rw [h1, h0, List.drop_zero, ← zrangeSpec_length ops, List.take_length]
    · refine ⟨le_refl 0, by omega, le_of_eq ?_⟩
      rw [zrangeSpec_length]
  rw [hslice, if_neg (not_not_intro rfl)]

theorem pairFree_nil {a b : Char} : pairFree a b [] := rfl

theorem pairFree_of_not_mem {a b : Char} :
    ∀ {s : Str}, a ∉ s → pairFree a b s := by
  intro s
  induction s with
  | nil => intro _; rfl
  | cons c rest ih =>
    intro h
    have hca : c ≠ a := fun e => h (by rw [e]; exact List.mem_cons_self _ _)
    have hra : a ∉ rest := fun e => h (List.mem_cons_of_mem _ e)
    cases rest with
    | nil => rfl
    | cons d r =>
      rw [pairFree, findPair, if_neg (fun hc => hca hc.1)]
      rw [pairFree] at ih
      rw [ih hra]
      rfl

theorem pairFree_cons_cons {a b c d : Char} {r : Str} (h : pairFree a b (c :: d :: r)) :
    ¬(c = a ∧ d = b) ∧ pairFree a b (d :: r) := by
  rw [pairFree, findPair] at h
  by_cases hcd : c = a ∧ d = b
  · rw [if_pos hcd] at h
    cases h
  · rw [if_neg hcd] at h
    exact ⟨hcd, Option.map_eq_none.mp h⟩

theorem pairFree_append {a b : Char} :
    ∀ {f : Str} {g : Str}, pairFree a b f → pairFree a b g →
      (f.getLast? = some a → g.head? ≠ some b) → pairFree a b (f ++ g) := by
  intro f
  induction f with
  | nil => intro g _ hg _; exact hg
  | cons c rest ih =>
    intro g hf hg hside
    cases rest with
    | nil =>
      cases g with
      | nil => rfl
      | cons d r =>
        rw [List.singleton_append, pairFree, findPair]
        rw [if_neg ?hcd]
        case hcd =>
          rintro ⟨hca, hdb⟩
          exact hside (by simp [hca]) (by simp [hdb])
        rw [pairFree] at hg
        rw [hg]
        rfl
    | cons d r =>
      obtain ⟨hcd, hrest⟩ := pairFree_cons_cons hf
      have hlast : (c :: d :: r).getLast? = (d :: r).getLast? := List.getLast?_cons_cons
      rw [List.cons_append, pairFree, List.cons_append, findPair, if_neg hcd]
      have := ih hrest hg (fun hl => hside (by rw [hlast]; exact hl))
      rw [pairFree] at this
      rw [← List.cons_append, this]
      rfl

theorem findPair_boundary {a b : Char} :
    ∀ {f : Str} {g : Str}, pairFree a b f → f.getLast? = some a → g.head? = some b →
      findPair a b (f ++ g) = some (f.length - 1) := by
  intro f
  induction f with
  | nil => intro g _ hl _; cases hl
  | cons c rest ih =>
    intro g hf hl hh
    cases rest with
    | nil =>
      rw [List.getLast?_singleton] at hl
      injection hl with hca
      cases g with
      | nil => cases hh
      | cons d r =>
        rw [List.head?_cons] at hh
        injection hh with hdb
        rw [List.singleton_append, findPair, if_pos ⟨hca, hdb⟩]
        rfl
    | cons d r =>
      obtain ⟨hcd, hrest⟩ := pairFree_cons_cons hf
      rw [List.getLast?_cons_cons] at hl
      rw [List.cons_append, List.cons_append, findPair, if_neg hcd, ← List.cons_append,
        ih hrest hl hh]
      simp only [Option.map_some, List.length_cons]
      rfl

theorem scanFrames_flatten :
    ∀ (frames : List Str),
      (∀ f ∈ frames, f ≠ [] ∧ pairFree '\n' '*' f ∧ f.getLast? = some '\n' ∧
        f.head? = some '*' ∧ f.length ≤ maxScanTokenSize) →
      scanFrames frames.flatten = frames := by
  intro frames
  induction frames with
  | nil => intro _; rfl
  | cons f rest ih =>
    intro h
    obtain ⟨hne, hpf, hlast, hhead, hflen⟩ := h f (List.mem_cons_self _ _)
    have hrest : ∀ g ∈ rest, g ≠ [] ∧ pairFree '\n' '*' g ∧ g.getLast? = some '\n' ∧
        g.head? = some '*' ∧ g.length ≤ maxScanTokenSize :=
      fun g hg => h g (List.mem_cons_of_mem _ hg)
    rw [List.flatten_cons]
    cases rest with
    | nil =>
      rw [List.flatten_nil, List.append_nil, scanFrames_eq, if_neg hne]
      rw [show findNlStar f = none from hpf]
      simp only [if_pos hflen]
    | cons g rest2 =>
      obtain ⟨hgne, _, _, hghead, _⟩ := hrest g (List.mem_cons_self _ _)
      have hflathead : ((g :: rest2).flatten).head? = some '*' := by
        rw [List.flatten_cons]
        cases g with
        | nil => exact absurd rfl hgne
        | cons x t =>
          rw [List.head?_cons] at hghead
          rw [List.cons_append, List.head?_cons, hghead]
      have hfind : findNlStar (f ++ (g :: rest2).flatten) = some (f.length - 1) :=
        findPair_boundary hpf hlast hflathead
      have hfl : f.length - 1 + 1 = f.length := by
        cases f with
        | nil => exact absurd rfl hne
        | cons x t => simp
      rw [scanFrames_eq, if_neg (by simp [hne]), hfind]
      simp only []
      rw [hfl, if_pos hflen, List.take_left, List.drop_left]
      rw [ih hrest]

theorem nl_not_mem_natDigits (n : Nat) : '\n' ∉ natDigits n := by
  intro h
  have := mem_natDigits_isDigit h
  simp [isDigit] at this

theorem star_ne_head_natDigits (n : Nat) : (natDigits n).head? ≠ some '*' := by
  intro h
  cases hd : natDigits n with
  | nil => rw [hd] at h; cases h
  | cons c r =>
    rw [hd, List.head?_cons] at h
    injection h with hc
    have : isDigit c = true := mem_natDigits_isDigit (by rw [hd]; exact List.mem_cons_self _ _)
    rw [hc] at this
    simp [isDigit] at this

theorem pairFree_singleton {a b c : Char} : pairFree a b [c] := rfl

theorem SerializeBulkString_shape (x : Str) :
    SerializeBulkString x =
      ('$' :: natDigits x.length ++ ['\r'] ++ ['\n']) ++ (x ++ ['\r'] ++ ['\n']) := by
  simp [SerializeBulkString]

theorem SerializeBulkString_head (x : Str) :
    (SerializeBulkString x).head? = some '$' := rfl

theorem SerializeBulkString_ne_nil (x : Str) : SerializeBulkString x ≠ [] := by
  simp [SerializeBulkString]

theorem SerializeBulkString_getLast (x : Str) :
    (SerializeBulkString x).getLast? = some '\n' := by
  rw [SerializeBulkString_shape]
  rw [List.getLast?_append_of_ne_nil _ (by simp)]
  rw [List.getLast?_append_of_ne_nil _ (by simp)]
  rfl

theorem pairFree_serializeBulkString {x : Str} (hnl : '\n' ∉ x)
    (hstar : x.head? ≠ some '*') : pairFree '\n' '*' (SerializeBulkString x) := by
  rw [SerializeBulkString_shape]
  have pf1 : pairFree '\n' '*' ('$' :: natDigits x.length ++ ['\r']) := by
    refine pairFree_of_not_mem ?_
    intro h
    rcases List.mem_cons.mp h with h | h
    · cases h
    · rcases List.mem_append.mp h with h | h
      · exact nl_not_mem_natDigits _ h
      · simp at h
  have pfA : pairFree '\n' '*' ('$' :: natDigits x.length ++ ['\r'] ++ ['\n']) :=
    pairFree_append pf1 pairFree_singleton (fun _ h => by cases h)
  have pfx : pairFree '\n' '*' x := pairFree_of_not_mem hnl
  have pfx2 : pairFree '\n' '*' (x ++ ['\r']) :=
    pairFree_append pfx pairFree_singleton (fun _ h => by cases h)
  have pfB : pairFree '\n' '*' (x ++ ['\r'] ++ ['\n']) :=
    pairFree_append pfx2 pairFree_singleton (fun _ h => by cases h)
  refine pairFree_append pfA pfB (fun _ => ?_)
  cases x with
  | nil => intro h; cases h
  | cons c t =>
    rw [List.cons_append, List.cons_append, List.head?_cons]
    intro h
    exact hstar (by rw [List.head?_cons]; exact h)

theorem head?_append_left {l : List Char} (m : List Char) (h : l ≠ []) :
    (l ++ m).head? = l.head? := by
  cases l with
  | nil => exact absurd rfl h
  | cons a t => rfl

theorem nl_not_mem_intDigits (i : Int) : '\n' ∉ intDigits i := by
  rw [intDigits]
  by_cases h : i < 0
  · rw [if_pos h]
    intro hm
    rcases List.mem_cons.mp hm with h2 | h2
    · cases h2
    · exact nl_not_mem_natDigits _ h2
  · rw [if_neg h]
    exact nl_not_mem_natDigits _

theorem star_ne_head_intDigits (i : Int) : (intDigits i).head? ≠ some '*' := by
  rw [intDigits]
  by_cases h : i < 0
  · rw [if_pos h]
    intro hm
    cases hm
  · rw [if_neg h]
    exact star_ne_head_natDigits _

theorem setFrame_assoc (k v : Str) :
    setFrame k v =
      "*3\r\n$3\r\nset\r\n".data ++ (SerializeBulkString k ++ SerializeBulkString v) := by
  simp [setFrame]

theorem setFrame_shape {k v : Str} (hk1 : '\n' ∉ k) (hk2 : k.head? ≠ some '*')
    (hv1 : '\n' ∉ v) (hv2 : v.head? ≠ some '*') :
    setFrame k v ≠ [] ∧ pairFree '\n' '*' (setFrame k v) ∧
      (setFrame k v).getLast? = some '\n' ∧ (setFrame k v).head? = some '*' := by
  refine ⟨by rw [setFrame_assoc]; simp, ?_, ?_, by rw [setFrame_assoc]; rfl⟩
  · rw [setFrame_assoc]
    have pfL : pairFree '\n' '*' ("*3\r\n$3\r\nset\r\n".data) :=
      (by decide : findPair '\n' '*' ("*3\r\n$3\r\nset\r\n".data) = none)
    have pfk := pairFree_serializeBulkString hk1 hk2
    have pfv := pairFree_serializeBulkString hv1 hv2
    have pfkv : pairFree '\n' '*' (SerializeBulkString k ++ SerializeBulkString v) := by
      refine pairFree_append pfk pfv (fun _ => ?_)
      rw [SerializeBulkString_head]
      intro h
      cases h
    refine pairFree_append pfL pfkv (fun _ => ?_)
    rw [head?_append_left _ (SerializeBulkString_ne_nil k), SerializeBulkString_head]
    intro h
    cases h
  · rw [setFrame_assoc]
    rw [List.getLast?_append_of_ne_nil _ (by simp [SerializeBulkString_ne_nil])]
    rw [List.getLast?_append_of_ne_nil _ (SerializeBulkString_ne_nil v)]
    exact SerializeBulkString_getLast v

theorem expireatFrame_assoc (k : Str) (exp : Int) :
    expireatFrame k exp =
      "*3\r\n$8\r\nexpireat\r\n".data ++
        (SerializeBulkString k ++ SerializeBulkString (intDigits exp)) := by
  simp [expireatFrame, SerializeBulkString]

theorem expireatFrame_shape {k : Str} (exp : Int) (hk1 : '\n' ∉ k)
    (hk2 : k.head? ≠ some '*') :
    expireatFrame k exp ≠ [] ∧ pairFree '\n' '*' (expireatFrame k exp) ∧
      (expireatFrame k exp).getLast? = some '\n' ∧ (expireatFrame k exp).head? = some '*' := by
  refine ⟨by rw [expireatFrame_assoc]; simp, ?_, ?_, by rw [expireatFrame_assoc]; rfl⟩
  · rw [expireatFrame_assoc]
    have pfL : pairFree '\n' '*' ("*3\r\n$8\r\nexpireat\r\n".data) :=
      (by decide : findPair '\n' '*' ("*3\r\n$8\r\nexpireat\r\n".data) = none)
    have pfk := pairFree_serializeBulkString hk1 hk2
    have pfe := pairFree_serializeBulkString (nl_not_mem_intDigits exp)
      (star_ne_head_intDigits exp)
    have pfke : pairFree '\n' '*'
        (SerializeBulkString k ++ SerializeBulkString (intDigits exp)) := by
      refine pairFree_append pfk pfe (fun _ => ?_)
      rw [SerializeBulkString_head]
      intro h
      cases h
    refine pairFree_append pfL pfke (fun _ => ?_)
    rw [head?_append_left _ (SerializeBulkString_ne_nil k), SerializeBulkString_head]
    intro h
    cases h
  · rw [expireatFrame_assoc]
    rw [List.getLast?_append_of_ne_nil _ (by simp [SerializeBulkString_ne_nil])]
    rw [List.getLast?_append_of_ne_nil _ (SerializeBulkString_ne_nil (intDigits exp))]
    exact SerializeBulkString_getLast (intDigits exp)

theorem flatten_SB_head (l : List Str) :
    ((l.map SerializeBulkString).flatten).head? ≠ some '*' := by
  cases l with
  | nil => intro h; cases h
  | cons v rest =>
    rw [List.map_cons, List.flatten_cons,
      head?_append_left _ (SerializeBulkString_ne_nil v), SerializeBulkString_head]
    intro h
    cases h

theorem flatten_SB_ne_nil {l : List Str} (h : l ≠ []) :
    (l.map SerializeBulkString).flatten ≠ [] := by
  cases l with
  | nil => exact absurd rfl h
  | cons v rest =>
    rw [List.map_cons, List.flatten_cons]
    intro hc
    exact SerializeBulkString_ne_nil v (List.append_eq_nil.mp hc).1

theorem pairFree_flatten_SB :
    ∀ {l : List Str}, (∀ v ∈ l, '\n' ∉ v ∧ v.head? ≠ some '*') →
      pairFree '\n' '*' ((l.map SerializeBulkString).flatten) := by
  intro l
  induction l with
  | nil => intro _; rfl
  | cons v rest ih =>
    intro h
    obtain ⟨hv1, hv2⟩ := h v (List.mem_cons_self _ _)
    rw [List.map_cons, List.flatten_cons]
    refine pairFree_append (pairFree_serializeBulkString hv1 hv2)
      (ih (fun w hw => h w (List.mem_cons_of_mem _ hw))) (fun _ => flatten_SB_head rest)

theorem getLast_flatten_SB :
    ∀ {l : List Str}, l ≠ [] →
      ((l.map SerializeBulkString).flatten).getLast? = some '\n' := by
  intro l
  induction l with
  | nil => intro h; exact absurd rfl h
  | cons v rest ih =>
    intro _
    rw [List.map_cons, List.flatten_cons]
    cases rest with
    | nil =>
      rw [List.map_nil, List.flatten_nil, List.append_nil]
      exact SerializeBulkString_getLast v
    | cons w rest2 =>
      rw [List.getLast?_append_of_ne_nil _ (flatten_SB_ne_nil (by simp))]
      exact ih (by simp)

theorem rpushFrame_assoc (k : Str) (l : GoList) :
    rpushFrame k l =
      ('*' :: natDigits (l.length + 2) ++ ['\r'] ++ ['\n']) ++
        ("$5\r\nrpush\r\n".data ++
          (SerializeBulkString k ++ (l.map SerializeBulkString).flatten)) := by
  simp [rpushFrame]

theorem rpushFrame_shape {k : Str} {l : GoList} (hk1 : '\n' ∉ k)
    (hk2 : k.head? ≠ some '*') (hl : ∀ v ∈ l, '\n' ∉ v ∧ v.head? ≠ some '*')
    (hlne : l ≠ []) :
    rpushFrame k l ≠ [] ∧ pairFree '\n' '*' (rpushFrame k l) ∧
      (rpushFrame k l).getLast? = some '\n' ∧ (rpushFrame k l).head? = some '*' := by
  refine ⟨by rw [rpushFrame_assoc]; simp, ?_, ?_, by rw [rpushFrame_assoc]; rfl⟩
  · rw [rpushFrame_assoc]
    have pf1 : pairFree '\n' '*' ('*' :: natDigits (l.length + 2) ++ ['\r']) := by
      refine pairFree_of_not_mem ?_
      intro h
      rcases List.mem_cons.mp h with h | h
      · cases h
      · rcases List.mem_append.mp h with h | h
        · exact nl_not_mem_natDigits _ h
        · simp at h
    have pfA : pairFree '\n' '*' ('*' :: natDigits (l.length + 2) ++ ['\r'] ++ ['\n']) :=
      pairFree_append pf1 pairFree_singleton (fun _ h => by cases h)
    have pfL2 : pairFree '\n' '*' ("$5\r\nrpush\r\n".data) :=
      (by decide : findPair '\n' '*' ("$5\r\nrpush\r\n".data) = none)
    have pfk := pairFree_serializeBulkString hk1 hk2
    have pfF := pairFree_flatten_SB hl
    have pfkF : pairFree '\n' '*'
        (SerializeBulkString k ++ (l.map SerializeBulkString).flatten) :=
      pairFree_append pfk pfF (fun _ => flatten_SB_head l)
    have pfL2kF : pairFree '\n' '*'
        ("$5\r\nrpush\r\n".data ++
          (SerializeBulkString k ++ (l.map SerializeBulkString).flatten)) := by
      refine pairFree_append pfL2 pfkF (fun _ => ?_)
      rw [head?_append_left _ (SerializeBulkString_ne_nil k), SerializeBulkString_head]
      intro h
      cases h
    refine pairFree_append pfA pfL2kF (fun _ => ?_)
    intro h
    cases h
  · rw [rpushFrame_assoc]
    rw [List.getLast?_append_of_ne_nil _ (by simp)]
    rw [List.getLast?_append_of_ne_nil _ (by
      intro hc
      exact SerializeBulkString_ne_nil k (List.append_eq_nil.mp hc).1)]
    rw [List.getLast?_append_of_ne_nil _ (flatten_SB_ne_nil hlne)]
    exact getLast_flatten_SB hlne

theorem findPair_first {a b : Char} :
    ∀ {c : Str} (rest : Str), a ∉ c → findPair a b (c ++ a :: b :: rest) = some c.length := by
  intro c
  induction c with
  | nil =>
    intro rest _
    rw [List.nil_append, findPair, if_pos ⟨rfl, rfl⟩]
    rfl
  | cons x c2 ih =>
    intro rest h
    have hxa : x ≠ a := fun e => h (by rw [e]; exact List.mem_cons_self _ _)
    have hc2 : a ∉ c2 := fun e => h (List.mem_cons_of_mem _ e)
    rw [List.cons_append]
    cases hcd : c2 ++ a :: b :: rest with
    | nil => simp at hcd
    | cons d r =>
      rw [findPair, if_neg (fun hp => hxa hp.1), ← hcd, ih rest hc2]
      simp

theorem splitCRLF_chunks :
    ∀ (chunks : List Str), (∀ c ∈ chunks, '\r' ∉ c) →
      splitOnCRLF ((chunks.map (fun c => c ++ "\r\n".data)).flatten) = chunks ++ [[]] := by
  intro chunks
  induction chunks with
  | nil => intro _; rfl
  | cons c rest ih =>
    intro h
    obtain hc := h c (List.mem_cons_self _ _)
    rw [List.map_cons, List.flatten_cons]
    have hshape : (c ++ "\r\n".data) ++ ((rest.map (fun c => c ++ "\r\n".data)).flatten) =
        c ++ '\r' :: '\n' :: ((rest.map (fun c => c ++ "\r\n".data)).flatten) := by
      simp
    rw [hshape, splitOnCRLF_eq]
    have hfind : findCRLF (c ++ '\r' :: '\n' ::
        ((rest.map (fun c => c ++ "\r\n".data)).flatten)) = some c.length :=
      findPair_first _ hc
    simp only [hfind]
    rw [List.take_left]
    have hdrop : (c ++ '\r' :: '\n' ::
        ((rest.map (fun c => c ++ "\r\n".data)).flatten)).drop (c.length + 2) =
        (rest.map (fun c => c ++ "\r\n".data)).flatten := by
      rw [show c ++ '\r' :: '\n' :: ((rest.map (fun c => c ++ "\r\n".data)).flatten) =
          (c ++ ['\r', '\n']) ++ ((rest.map (fun c => c ++ "\r\n".data)).flatten) by simp]
      rw [show c.length + 2 = (c ++ ['\r', '\n']).length by simp]
      exact List.drop_left _ _
    rw [hdrop, ih (fun w hw => h w (List.mem_cons_of_mem _ hw))]
    rfl

theorem pairsLoop_items :
    ∀ (ds : List Str), (∀ d ∈ ds, (d.length : Int) < 2 ^ 63) →
      pairsLoop (ds.flatMap (fun d => ['$' :: natDigits d.length, d])) = .ok ds := by
  intro ds
  induction ds with
  | nil => intro _; rfl
  | cons d rest ih =>
    intro h
    obtain hd := h d (List.mem_cons_self _ _)
    rw [List.flatMap_cons, List.cons_append, List.cons_append, List.nil_append]
    rw [pairsLoop]
    have hparse : goParseInt (natDigits d.length) = some ((d.length : Nat) : Int) :=
      goParseInt_natDigits d.length (by exact_mod_cast hd)
    simp only [hparse]
    rw [if_neg (by simp)]
    simp only [ih (fun w hw => h w (List.mem_cons_of_mem _ hw))]

theorem natDigits_length_le :
    ∀ (k n : Nat), n < 10 ^ (k + 1) → (natDigits n).length ≤ k + 1 := by
  intro k
  induction k with
  | zero =>
    intro n hn
    rw [natDigits_eq, if_pos (by omega)]
    rfl
  | succ k2 ih =>
    intro n hn
    by_cases h10 : n < 10
    · rw [natDigits_eq, if_pos h10]
      simp
    · rw [natDigits_eq, if_neg h10, List.length_append]
      have hdiv : n / 10 < 10 ^ (k2 + 1) := by
        have hpow : 10 ^ (k2 + 1 + 1) = 10 ^ (k2 + 1) * 10 := by ring
        rw [hpow] at hn
        exact Nat.div_lt_of_lt_mul (by omega)
      have := ih (n / 10) hdiv
      simp
      omega

theorem intDigits_length_lt (i : Int) (h1 : -(2 ^ 63) ≤ i) (h2 : i < 2 ^ 63) :
    ((intDigits i).length : Int) < 2 ^ 63 := by
  have hbound : ∀ m : Nat, m ≤ 2 ^ 63 → (natDigits m).length ≤ 19 := by
    intro m hm
    refine natDigits_length_le 18 m ?_
    have : (2 : Nat) ^ 63 < 10 ^ 19 := by norm_num
    omega
  rw [intDigits]
  by_cases hneg : i < 0
  · rw [if_pos hneg, List.length_cons]
    have := hbound (-i).toNat (by omega)
    omega
  · rw [if_neg hneg]
    have := hbound i.toNat (by omega)
    omega

theorem flatten_SB_as_chunks :
    ∀ (ds : List Str),
      (ds.map SerializeBulkString).flatten =
        ((ds.flatMap (fun d => ['$' :: natDigits d.length, d])).map
          (fun c => c ++ "\r\n".data)).flatten := by
  intro ds
  induction ds with
  | nil => rfl
  | cons d rest ih =>
    rw [List.map_cons, List.flatten_cons, List.flatMap_cons]
    rw [List.cons_append, List.cons_append, List.nil_append, List.map_cons, List.map_cons,
      List.flatten_cons, List.flatten_cons, ih]
    rw [SerializeBulkString_shape]
    simp

theorem decodeArray_frames (n : Nat) (hn : n ≠ 0) (h64 : n < 2 ^ 64) (ds : List Str)
    (hds : ∀ d ∈ ds, '\r' ∉ d ∧ (d.length : Int) < 2 ^ 63) :
    decodeArray (natDigits n ++ '\r' :: '\n' :: (ds.map SerializeBulkString).flatten) =
      .ok ds := by
  have hfc : findChar '\r'
      (natDigits n ++ '\r' :: '\n' :: (ds.map SerializeBulkString).flatten) =
      some (natDigits n).length :=
    findChar_append_of_not_mem _ _ _ (cr_not_mem_natDigits n)
  have hcr : getFirstCRIndex
      (natDigits n ++ '\r' :: '\n' :: (ds.map SerializeBulkString).flatten) =
      (natDigits n).length := by
    rw [getFirstCRIndex, hfc]
    rfl
  have htake : (natDigits n ++ '\r' :: '\n' ::
      (ds.map SerializeBulkString).flatten).take (natDigits n).length = natDigits n :=
    List.take_left _ _
  have hparse : goParseUint (natDigits n) = some n := goParseUint_natDigits n h64
  have hdrop : (natDigits n ++ '\r' :: '\n' ::
      (ds.map SerializeBulkString).flatten).drop ((natDigits n).length + 2) =
      (ds.map SerializeBulkString).flatten := by
    rw [show natDigits n ++ '\r' :: '\n' :: (ds.map SerializeBulkString).flatten =
        (natDigits n ++ ['\r', '\n']) ++ (ds.map SerializeBulkString).flatten by simp]
    rw [show (natDigits n).length + 2 = (natDigits n ++ ['\r', '\n']).length by simp]
    exact List.drop_left _ _
  have hchunks : ∀ c ∈ ds.flatMap (fun d => ['$' :: natDigits d.length, d]), '\r' ∉ c := by
    intro c hcm
    rw [List.mem_flatMap] at hcm
    obtain ⟨d, hdm, hcm⟩ := hcm
    rcases List.mem_cons.mp hcm with h | h
    · subst h
      intro hmem
      rcases List.mem_cons.mp hmem with h | h
      · cases h
      · exact cr_not_mem_natDigits _ h
    · rcases List.mem_cons.mp h with h | h
      · rw [h]
        exact (hds d hdm).1
      · cases h
  have hsplit : splitOnCRLF ((ds.map SerializeBulkString).flatten) =
      ds.flatMap (fun d => ['$' :: natDigits d.length, d]) ++ [[]] := by
    rw [flatten_SB_as_chunks]
    exact splitCRLF_chunks _ hchunks
  have hlast : (ds.flatMap (fun d => ['$' :: natDigits d.length, d]) ++ [[]]).getLast? =
      some [] := by
    rw [List.getLast?_append_of_ne_nil _ (by simp)]
    rfl
  simp only [decodeArray, hcr, htake, hparse]
  rw [if_neg hn]
  rw [if_neg (by
    simp only [List.length_append, List.length_cons]
    omega)]
  simp only [hdrop, hsplit]
  rw [if_pos hlast, List.dropLast_concat]
  exact pairsLoop_items ds (fun d hd => (hds d hd).2)

theorem cr_not_mem_intDigits (i : Int) : '\r' ∉ intDigits i := by
  rw [intDigits]
  by_cases h : i < 0
  · rw [if_pos h]
    intro hm
    rcases List.mem_cons.mp hm with h2 | h2
    · cases h2
    · exact cr_not_mem_natDigits _ h2
  · rw [if_neg h]
    exact cr_not_mem_natDigits _

theorem setFrame_body (k v : Str) :
    setFrame k v = '*' :: (natDigits 3 ++ '\r' :: '\n' ::
      ((["set".data, k, v].map SerializeBulkString).flatten)) := by
  simp [setFrame, SerializeBulkString, show natDigits 3 = ['3'] from rfl]

theorem expireatFrame_body (k : Str) (e : Int) :
    expireatFrame k e = '*' :: (natDigits 3 ++ '\r' :: '\n' ::
      ((["expireat".data, k, intDigits e].map SerializeBulkString).flatten)) := by
  simp [expireatFrame, SerializeBulkString, show natDigits 3 = ['3'] from rfl,
    show natDigits 8 = ['8'] from rfl]

theorem rpushFrame_body (k : Str) (l : GoList) :
    rpushFrame k l = '*' :: (natDigits (l.length + 2) ++ '\r' :: '\n' ::
      ((("rpush".data :: k :: l).map SerializeBulkString).flatten)) := by
  simp [rpushFrame, SerializeBulkString, show natDigits 5 = ['5'] from rfl]

theorem decodeMessage_setFrame {k v : Str} (hk : SnapContent k) (hv : SnapContent v) :
    DecodeMessage (setFrame k v) = .ok (some ["set".data, k, v]) := by
  rw [setFrame_body, DecodeMessage]
  rw [if_neg (by decide), if_pos rfl]
  have harr : decodeArray (natDigits 3 ++ '\r' :: '\n' ::
      ((["set".data, k, v].map SerializeBulkString).flatten)) = .ok ["set".data, k, v] := by
    refine decodeArray_frames 3 (by decide) (by norm_num) _ ?_
    intro d hd
    rcases List.mem_cons.mp hd with h | h
    · rw [h]
      exact ⟨by decide, by norm_num⟩
    rcases List.mem_cons.mp h with h | h
    · rw [h]
      exact ⟨hk.1, hk.2.2.2⟩
    rcases List.mem_cons.mp h with h | h
    · rw [h]
      exact ⟨hv.1, hv.2.2.2⟩
    · cases h
  simp only [harr]

theorem decodeMessage_expireatFrame {k : Str} (e : Int) (hk : SnapContent k)
    (h1 : -(2 ^ 63) ≤ e) (h2 : e < 2 ^ 63) :
    DecodeMessage (expireatFrame k e) = .ok (some ["expireat".data, k, intDigits e]) := by
  rw [expireatFrame_body, DecodeMessage]
  rw [if_neg (by decide), if_pos rfl]
  have harr : decodeArray (natDigits 3 ++ '\r' :: '\n' ::
      ((["expireat".data, k, intDigits e].map SerializeBulkString).flatten)) =
      .ok ["expireat".data, k, intDigits e] := by
    refine decodeArray_frames 3 (by decide) (by norm_num) _ ?_
    intro d hd
    rcases List.mem_cons.mp hd with h | h
    · rw [h]
      exact ⟨by decide, by norm_num⟩
    rcases List.mem_cons.mp h with h | h
    · rw [h]
      exact ⟨hk.1, hk.2.2.2⟩
    rcases List.mem_cons.mp h with h | h
    · rw [h]
      exact ⟨cr_not_mem_intDigits e, intDigits_length_lt e h1 h2⟩
    · cases h
  simp only [harr]

theorem decodeMessage_rpushFrame {k : Str} {l : GoList} (hk : SnapContent k)
    (hl : ∀ v ∈ l, SnapContent v) (hlen : (l.length : Int) + 2 < 2 ^ 64) :
    DecodeMessage (rpushFrame k l) = .ok (some ("rpush".data :: k :: l)) := by
  rw [rpushFrame_body, DecodeMessage]
  rw [if_neg (by decide), if_pos rfl]
  have harr : decodeArray (natDigits (l.length + 2) ++ '\r' :: '\n' ::
      ((("rpush".data :: k :: l).map SerializeBulkString).flatten)) =
      .ok ("rpush".data :: k :: l) := by
    refine decodeArray_frames (l.length + 2) (by omega) (by
      have : ((l.length : Int)) + 2 < (2 : Int) ^ 64 := hlen
      have h2 : (l.length + 2 : Nat) < 2 ^ 64 := by exact_mod_cast this
      exact h2) _ ?_
    intro d hd
    rcases List.mem_cons.mp hd with h | h
    · rw [h]
      exact ⟨by decide, by norm_num⟩
    rcases List.mem_cons.mp h with h | h
    · rw [h]
      exact ⟨hk.1, hk.2.2.2⟩
    · exact ⟨(hl d h).1, (hl d h).2.2.2⟩
  simp only [harr]

theorem cmdParse_set (k v : Str) :
    cmdParse [['s', 'e', 't'], k, v] = .ok (.set, [k, v]) := by
  rw [cmdParse]
  rw [show cmdParseTable (String.mk (['s', 'e', 't'].map Char.toLower)) = some .set from rfl]

theorem cmdParse_expireat (k e : Str) :
    cmdParse [['e', 'x', 'p', 'i', 'r', 'e', 'a', 't'], k, e] = .ok (.expireat, [k, e]) := by
  rw [cmdParse]
  rw [show cmdParseTable
    (String.mk (['e', 'x', 'p', 'i', 'r', 'e', 'a', 't'].map Char.toLower)) = some .expireat
    from rfl]

theorem cmdParse_rpush (k : Str) (l : List Str) :
    cmdParse (['r', 'p', 'u', 's', 'h'] :: k :: l) = .ok (.rpush, k :: l) := by
  rw [cmdParse]
  rw [show cmdParseTable (String.mk (['r', 'p', 'u', 's', 'h'].map Char.toLower)) =
    some .rpush from rfl]

theorem loadToken_setFrame (now : GoTime) (ks : keyspace K) {k v : Str}
    (hk : SnapContent k) (hv : SnapContent v) :
    loadToken now ks (setFrame k v) = some (keyspace.SetStringKey now ks k v none) := by
  rw [loadToken]
  simp only [decodeMessage_setFrame hk hv, cmdParse_set]
  simp only [cmdProcess, processSet, keyspace.SetKey]

theorem loadToken_expireatFrame (now : GoTime) (ks : keyspace K) {k : Str} (e : Int)
    (hk : SnapContent k) (h1 : -(2 ^ 63) ≤ e) (h2 : e < 2 ^ 63) :
    loadToken now ks (expireatFrame k e) =
      some ((keyspace.ExpireAt ks k (e * nsPerSec)).2) := by
  rw [loadToken]
  simp only [decodeMessage_expireatFrame e hk h1 h2, cmdParse_expireat]
  simp only [cmdProcess, processExpireAt, goParseInt_intDigits e h1 h2]
  by_cases hb : (keyspace.ExpireAt ks k (e * nsPerSec)).1 = true
  · rw [if_pos hb]
  · rw [if_neg hb]

theorem loadToken_rpushFrame (now : GoTime) (ks : keyspace K) {k : Str} {l : GoList}
    (hk : SnapContent k) (hl : ∀ v ∈ l, SnapContent v)
    (hlen : (l.length : Int) + 2 < 2 ^ 64) :
    loadToken now ks (rpushFrame k l) = some ((keyspace.PushToTail ks k l).2) := by
  rw [loadToken]
  simp only [decodeMessage_rpushFrame hk hl hlen, cmdParse_rpush]
  simp only [cmdProcess, processRPush]
  match hpt : keyspace.PushToTail ks k l with
  | (.ok len, ks2) => simp only [hpt]
  | (.error msg, ks2) => simp only [hpt]

theorem lookupS_isSome_iff {q : Str} :
    ∀ {m : List (Str × α)}, (lookupS q m).isSome ↔ q ∈ m.map Prod.fst := by
  intro m
  induction m with
  | nil => simp
  | cons p rest ih =>
    obtain ⟨a, v⟩ := p
    rw [lookupS_cons]
    by_cases h : a = q
    · rw [if_pos h]
      simp only [Option.isSome_some, List.map_cons, List.mem_cons]
      constructor
      · intro _
        exact Or.inl h.symm
      · intro _
        trivial
    · rw [if_neg h]
      simp only [List.map_cons, List.mem_cons]
      rw [ih]
      constructor
      · exact Or.inr
      · rintro (e | hm)
        · exact absurd e.symm h
        · exact hm

theorem lookupS_mem {q : Str} {v : α} :
    ∀ {m : List (Str × α)}, lookupS q m = some v → (q, v) ∈ m := by
  intro m
  induction m with
  | nil => intro h; cases h
  | cons p rest ih =>
    obtain ⟨a, w⟩ := p
    intro h
    rw [lookupS_cons] at h
    by_cases ha : a = q
    · rw [if_pos ha] at h
      injection h with hv
      rw [← ha, ← hv]
      exact List.mem_cons_self _ _
    · rw [if_neg ha] at h
      exact List.mem_cons_of_mem _ (ih h)

theorem setStringKey_fresh (now : GoTime) (ks0 : keyspace K) (k v : Str)
    (hfree : lookupS k ks0.keys = none) :
    keyspace.SetStringKey now ks0 k v none =
      { ks0 with
        stringMap := insertS k v ks0.stringMap
        keys := insertS k { group := "string", expires := none } ks0.keys
        modifications := ks0.modifications + 1 } := by
  simp [keyspace.SetStringKey, hfree]

theorem stringEntry_fold (now : GoTime) (ks ks0 : keyspace K) (p : Str × Str)
    (hk : SnapContent p.1) (hv : SnapContent p.2)
    (hstamp : ∀ t,
      ((lookupS p.1 ks.keys).getD { group := "", expires := none }).expires = some t →
      -(2 ^ 63) ≤ unixSec t ∧ unixSec t < 2 ^ 63)
    (hfree : lookupS p.1 ks0.keys = none) :
    ∃ s1, (stringEntryFrames ks p).foldl
        (fun acc line => acc.bind (fun s => loadToken now s line)) (some ks0) = some s1 ∧
      lookupS p.1 s1.keys = some ⟨"string",
        (((lookupS p.1 ks.keys).getD
          ({ group := "", expires := none })).expires).map quantizeTime⟩ ∧
      lookupS p.1 s1.stringMap = some p.2 ∧
      lookupS p.1 s1.listMap = lookupS p.1 ks0.listMap ∧
      (∀ q, q ≠ p.1 → lookupS q s1.keys = lookupS q ks0.keys ∧
        lookupS q s1.stringMap = lookupS q ks0.stringMap ∧
        lookupS q s1.listMap = lookupS q ks0.listMap) := by
  have hset := setStringKey_fresh now ks0 p.1 p.2 hfree
  rw [stringEntryFrames]
  cases he : ((lookupS p.1 ks.keys).getD { group := "", expires := none }).expires with
  | none =>
    refine ⟨keyspace.SetStringKey now ks0 p.1 p.2 none, ?_, ?_, ?_, ?_, ?_⟩
    · rw [List.foldl_cons, List.foldl_nil]
      simp only [Option.some_bind]
      rw [loadToken_setFrame now ks0 hk hv]
    · rw [hset]
      simp
    · rw [hset]
      simp
    · rw [hset]
    · intro q hq
      rw [hset]
      exact ⟨lookupS_insertS_ne _ _ _ hq _, lookupS_insertS_ne _ _ _ hq _, rfl⟩
  | some t =>
    obtain ⟨hb1, hb2⟩ := hstamp t he
    have hlook2 : lookupS p.1 (keyspace.SetStringKey now ks0 p.1 p.2 none).keys =
        some { group := "string", expires := none } := by
      rw [hset]
      simp
    have hexp2 : (keyspace.ExpireAt (keyspace.SetStringKey now ks0 p.1 p.2 none) p.1
        (unixSec t * nsPerSec)).2 =
        { (keyspace.SetStringKey now ks0 p.1 p.2 none) with
          keys := insertS p.1 { group := "string", expires := some (unixSec t * nsPerSec) }
            (keyspace.SetStringKey now ks0 p.1 p.2 none).keys
          modifications := (keyspace.SetStringKey now ks0 p.1 p.2 none).modifications + 1 } := by
      simp only [keyspace.ExpireAt, hlook2]
    refine ⟨(keyspace.ExpireAt (keyspace.SetStringKey now ks0 p.1 p.2 none) p.1
      (unixSec t * nsPerSec)).2, ?_, ?_, ?_, ?_, ?_⟩
    · rw [List.foldl_cons, List.foldl_cons, List.foldl_nil]
      simp only [Option.some_bind]
      rw [loadToken_setFrame now ks0 hk hv]
      simp only [Option.some_bind]
      rw [loadToken_expireatFrame now (keyspace.SetStringKey now ks0 p.1 p.2 none)
        (unixSec t) hk hb1 hb2]
    · rw [hexp2]
      simp [quantizeTime]
    · rw [hexp2]
      simp only []
      rw [hset]
      simp
    · rw [hexp2]
      simp only []
      rw [hset]
    · intro q hq
      rw [hexp2]
      simp only []
      refine ⟨?_, ?_, ?_⟩
      · rw [lookupS_insertS_ne _ _ _ hq _]
        rw [hset]
        simp only []
        exact lookupS_insertS_ne _ _ _ hq _
      · rw [hset]
        simp only []
        exact lookupS_insertS_ne _ _ _ hq _
      · rw [hset]

theorem pushToTail_fresh (ks0 : keyspace K) (k : Str) (l : GoList)
    (hfree : lookupS k ks0.keys = none) :
    keyspace.PushToTail ks0 k l =
      (.ok (l.length : Int),
        { ks0 with
          listMap := insertS k l ks0.listMap
          keys := insertS k { group := "list", expires := none } ks0.keys }) := by
  simp only [keyspace.PushToTail, hfree]
  rfl

theorem listEntry_fold (now : GoTime) (ks ks0 : keyspace K) (p : Str × GoList)
    (hk : SnapContent p.1) (hvs : ∀ v ∈ p.2, SnapContent v) (hlne : p.2 ≠ [])
    (hlen : (p.2.length : Int) + 2 < 2 ^ 64)
    (hstamp : ∀ t,
      ((lookupS p.1 ks.keys).getD ({ group := "", expires := none })).expires = some t →
      -(2 ^ 63) ≤ unixSec t ∧ unixSec t < 2 ^ 63)
    (hfree : lookupS p.1 ks0.keys = none) :
    ∃ s1, (listEntryFrames ks p).foldl
        (fun acc line => acc.bind (fun s => loadToken now s line)) (some ks0) = some s1 ∧
      lookupS p.1 s1.keys = some ⟨"list",
        (((lookupS p.1 ks.keys).getD
          ({ group := "", expires := none })).expires).map quantizeTime⟩ ∧
      lookupS p.1 s1.listMap = some p.2 ∧
      lookupS p.1 s1.stringMap = lookupS p.1 ks0.stringMap ∧
      (∀ q, q ≠ p.1 → lookupS q s1.keys = lookupS q ks0.keys ∧
        lookupS q s1.stringMap = lookupS q ks0.stringMap ∧
        lookupS q s1.listMap = lookupS q ks0.listMap) := by
  have hpush := pushToTail_fresh ks0 p.1 p.2 hfree
  have hpush2 : (keyspace.PushToTail ks0 p.1 p.2).2 =
      { ks0 with
        listMap := insertS p.1 p.2 ks0.listMap
        keys := insertS p.1 { group := "list", expires := none } ks0.keys } := by
    rw [hpush]
  rw [listEntryFrames, if_pos (by cases hp2 : p.2 with
    | nil => exact absurd hp2 hlne
    | cons a t => simp)]
  cases he : ((lookupS p.1 ks.keys).getD ({ group := "", expires := none })).expires with
  | none =>
    refine ⟨(keyspace.PushToTail ks0 p.1 p.2).2, ?_, ?_, ?_, ?_, ?_⟩
    · rw [List.foldl_cons, List.foldl_nil]
      simp only [Option.some_bind]
      rw [loadToken_rpushFrame now ks0 hk hvs hlen]
    · rw [hpush2]
      simp
    · rw [hpush2]
      simp
    · rw [hpush2]
    · intro q hq
      rw [hpush2]
      exact ⟨lookupS_insertS_ne _ _ _ hq _, rfl, lookupS_insertS_ne _ _ _ hq _⟩
  | some t =>
    obtain ⟨hb1, hb2⟩ := hstamp t he
    have hlook2 : lookupS p.1 ((keyspace.PushToTail ks0 p.1 p.2).2).keys =
        some { group := "list", expires := none } := by
      rw [hpush2]
      simp
    have hexp2 : (keyspace.ExpireAt ((keyspace.PushToTail ks0 p.1 p.2).2) p.1
        (unixSec t * nsPerSec)).2 =
        { ((keyspace.PushToTail ks0 p.1 p.2).2) with
          keys := insertS p.1 { group := "list", expires := some (unixSec t * nsPerSec) }
            ((keyspace.PushToTail ks0 p.1 p.2).2).keys
          modifications := ((keyspace.PushToTail ks0 p.1 p.2).2).modifications + 1 } := by
      simp only [keyspace.ExpireAt, hlook2]
    refine ⟨(keyspace.ExpireAt ((keyspace.PushToTail ks0 p.1 p.2).2) p.1
      (unixSec t * nsPerSec)).2, ?_, ?_, ?_, ?_, ?_⟩
    · rw [List.foldl_cons, List.foldl_cons, List.foldl_nil]
      simp only [Option.some_bind]
      rw [loadToken_rpushFrame now ks0 hk hvs hlen]
      simp only [Option.some_bind]
      rw [loadToken_expireatFrame now ((keyspace.PushToTail ks0 p.1 p.2).2)
        (unixSec t) hk hb1 hb2]
    · rw [hexp2]
      simp [quantizeTime]
    · rw [hexp2]
      simp only []
      rw [hpush2]
      simp
    · rw [hexp2]
      simp only []
      rw [hpush2]
    · intro q hq
      rw [hexp2]
      simp only []
      refine ⟨?_, ?_, ?_⟩
      · rw [lookupS_insertS_ne _ _ _ hq _]
        rw [hpush2]
        simp only []
        exact lookupS_insertS_ne _ _ _ hq _
      · rw [hpush2]
      · rw [hpush2]
        simp only []
        exact lookupS_insertS_ne _ _ _ hq _

theorem replayString (now : GoTime) (ks : keyspace K) :
    ∀ (entries : List (Str × Str)) (ks0 : keyspace K),
      (∀ p ∈ entries, SnapContent p.1 ∧ SnapContent p.2) →
      (∀ p ∈ entries, ∀ t,
        ((lookupS p.1 ks.keys).getD ({ group := "", expires := none })).expires = some t →
        -(2 ^ 63) ≤ unixSec t ∧ unixSec t < 2 ^ 63) →
      (entries.map Prod.fst).Nodup →
      (∀ p ∈ entries, lookupS p.1 ks0.keys = none) →
      ∃ ks1, (entries.flatMap (stringEntryFrames ks)).foldl
          (fun acc line => acc.bind (fun s => loadToken now s line)) (some ks0) = some ks1 ∧
        (∀ q, q ∉ entries.map Prod.fst →
          lookupS q ks1.keys = lookupS q ks0.keys ∧
          lookupS q ks1.stringMap = lookupS q ks0.stringMap ∧
          lookupS q ks1.listMap = lookupS q ks0.listMap) ∧
        (∀ p ∈ entries,
          lookupS p.1 ks1.keys = some ⟨"string",
            (((lookupS p.1 ks.keys).getD
              ({ group := "", expires := none })).expires).map quantizeTime⟩ ∧
          lookupS p.1 ks1.stringMap = some p.2 ∧
          lookupS p.1 ks1.listMap = lookupS p.1 ks0.listMap) := by
  intro entries
  induction entries with
  | nil =>
    intro ks0 _ _ _ _
    exact ⟨ks0, rfl, fun q _ => ⟨rfl, rfl, rfl⟩, fun p hp => absurd hp (List.not_mem_nil p)⟩
  | cons p rest ih =>
    intro ks0 hC hS hND hF
    rw [List.map_cons, List.nodup_cons] at hND
    obtain ⟨hp1notin, hNDrest⟩ := hND
    obtain ⟨hpc1, hpc2⟩ := hC p (List.mem_cons_self _ _)
    obtain ⟨s1, hfold1, hk1, hstr1, hlist1, hpres1⟩ :=
      stringEntry_fold now ks ks0 p hpc1 hpc2 (hS p (List.mem_cons_self _ _))
        (hF p (List.mem_cons_self _ _))
    have hfreshrest : ∀ p2 ∈ rest, lookupS p2.1 s1.keys = none := by
      intro p2 hp2
      have hne : p2.1 ≠ p.1 := by
        intro e
        exact hp1notin (e ▸ List.mem_map_of_mem Prod.fst hp2)
      rw [(hpres1 p2.1 hne).1]
      exact hF p2 (List.mem_cons_of_mem _ hp2)
    obtain ⟨ks1, hfold2, hpres2, hvals2⟩ :=
      ih s1 (fun p2 hp2 => hC p2 (List.mem_cons_of_mem _ hp2))
        (fun p2 hp2 => hS p2 (List.mem_cons_of_mem _ hp2)) hNDrest hfreshrest
    refine ⟨ks1, ?_, ?_, ?_⟩
    · rw [List.flatMap_cons, List.foldl_append, hfold1, hfold2]
    · intro q hq
      rw [List.map_cons, List.mem_cons] at hq
      push_neg at hq
      obtain ⟨hq1, hq2⟩ := hq
      obtain ⟨ha1, ha2, ha3⟩ := hpres2 q hq2
      obtain ⟨hb1, hb2, hb3⟩ := hpres1 q hq1
      exact ⟨ha1.trans hb1, ha2.trans hb2, ha3.trans hb3⟩
    · intro p2 hp2
      rcases List.mem_cons.mp hp2 with h | h
      · subst h
        have hnotin : p2.1 ∉ rest.map Prod.fst := hp1notin
        obtain ⟨ha1, ha2, ha3⟩ := hpres2 p2.1 hnotin
        exact ⟨ha1.trans hk1, ha2.trans hstr1, ha3.trans hlist1⟩
      · have hne : p2.1 ≠ p.1 := by
          intro e
          exact hp1notin (e ▸ List.mem_map_of_mem Prod.fst h)
        obtain ⟨ha1, ha2, ha3⟩ := hvals2 p2 h
        exact ⟨ha1, ha2, ha3.trans (hpres1 p2.1 hne).2.2⟩

theorem replayList (now : GoTime) (ks : keyspace K) :
    ∀ (entries : List (Str × GoList)) (ks0 : keyspace K),
      (∀ p ∈ entries, SnapContent p.1 ∧ p.2 ≠ [] ∧ (∀ v ∈ p.2, SnapContent v) ∧
        (p.2.length : Int) + 2 < 2 ^ 64) →
      (∀ p ∈ entries, ∀ t,
        ((lookupS p.1 ks.keys).getD ({ group := "", expires := none })).expires = some t →
        -(2 ^ 63) ≤ unixSec t ∧ unixSec t < 2 ^ 63) →
      (entries.map Prod.fst).Nodup →
      (∀ p ∈ entries, lookupS p.1 ks0.keys = none) →
      ∃ ks1, (entries.flatMap (listEntryFrames ks)).foldl
          (fun acc line => acc.bind (fun s => loadToken now s line)) (some ks0) = some ks1 ∧
        (∀ q, q ∉ entries.map Prod.fst →
          lookupS q ks1.keys = lookupS q ks0.keys ∧
          lookupS q ks1.stringMap = lookupS q ks0.stringMap ∧
          lookupS q ks1.listMap = lookupS q ks0.listMap) ∧
        (∀ p ∈ entries,
          lookupS p.1 ks1.keys = some ⟨"list",
            (((lookupS p.1 ks.keys).getD
              ({ group := "", expires := none })).expires).map quantizeTime⟩ ∧
          lookupS p.1 ks1.listMap = some p.2 ∧
          lookupS p.1 ks1.stringMap = lookupS p.1 ks0.stringMap) := by
  intro entries
  induction entries with
  | nil =>
    intro ks0 _ _ _ _
    exact ⟨ks0, rfl, fun q _ => ⟨rfl, rfl, rfl⟩, fun p hp => absurd hp (List.not_mem_nil p)⟩
  | cons p rest ih =>
    intro ks0 hC hS hND hF
    rw [List.map_cons, List.nodup_cons] at hND
    obtain ⟨hp1notin, hNDrest⟩ := hND
    obtain ⟨hpc1, hpc2, hpc3, hpc4⟩ := hC p (List.mem_cons_self _ _)
    obtain ⟨s1, hfold1, hk1, hlist1, hstr1, hpres1⟩ :=
      listEntry_fold now ks ks0 p hpc1 hpc3 hpc2 hpc4 (hS p (List.mem_cons_self _ _))
        (hF p (List.mem_cons_self _ _))
    have hfreshrest : ∀ p2 ∈ rest, lookupS p2.1 s1.keys = none := by
      intro p2 hp2
      have hne : p2.1 ≠ p.1 := by
        intro e
        exact hp1notin (e ▸ List.mem_map_of_mem Prod.fst hp2)
      rw [(hpres1 p2.1 hne).1]
      exact hF p2 (List.mem_cons_of_mem _ hp2)
    obtain ⟨ks1, hfold2, hpres2, hvals2⟩ :=
      ih s1 (fun p2 hp2 => hC p2 (List.mem_cons_of_mem _ hp2))
        (fun p2 hp2 => hS p2 (List.mem_cons_of_mem _ hp2)) hNDrest hfreshrest
    refine ⟨ks1, ?_, ?_, ?_⟩
    · rw [List.flatMap_cons, List.foldl_append, hfold1, hfold2]
    · intro q hq
      rw [List.map_cons, List.mem_cons] at hq
      push_neg at hq
      obtain ⟨hq1, hq2⟩ := hq
      obtain ⟨ha1, ha2, ha3⟩ := hpres2 q hq2
      obtain ⟨hb1, hb2, hb3⟩ := hpres1 q hq1
      exact ⟨ha1.trans hb1, ha2.trans hb2, ha3.trans hb3⟩
    · intro p2 hp2
      rcases List.mem_cons.mp hp2 with h | h
      · subst h
        have hnotin : p2.1 ∉ rest.map Prod.fst := hp1notin
        obtain ⟨ha1, ha2, ha3⟩ := hpres2 p2.1 hnotin
        exact ⟨ha1.trans hk1, ha3.trans hlist1, ha2.trans hstr1⟩
      · have hne : p2.1 ≠ p.1 := by
          intro e
          exact hp1notin (e ▸ List.mem_map_of_mem Prod.fst h)
        obtain ⟨ha1, ha2, ha3⟩ := hvals2 p2 h
        exact ⟨ha1, ha2, ha3.trans (hpres1 p2.1 hne).2.1⟩

theorem lookupS_of_mem_nodup {q : Str} {v : α} :
    ∀ {m : List (Str × α)}, NodupKeys m → (q, v) ∈ m → lookupS q m = some v := by
  intro m
  induction m with
  | nil => intro _ h; cases h
  | cons p rest ih =>
    obtain ⟨a, w⟩ := p
    intro hnd hm
    rw [NodupKeys, List.map_cons, List.nodup_cons] at hnd
    obtain ⟨hnotin, hndrest⟩ := hnd
    rcases List.mem_cons.mp hm with h | h
    · injection h with h1 h2
      rw [lookupS_cons, if_pos h1.symm, h2]
    · have hne : a ≠ q := by
        intro e
        apply hnotin
        rw [e]
        exact List.mem_map.mpr ⟨(q, v), h, rfl⟩
      rw [lookupS_cons, if_neg hne]
      exact ih hndrest h

theorem scan_saveFrames (ks : keyspace K) (hC : SnapContentOK ks) :
    scanFrames ((saveFrames ks).flatten) = saveFrames ks := by
  obtain ⟨hCs, hCl, hCk, hFs, hFl⟩ := hC
  refine scanFrames_flatten _ ?_
  intro f hf
  rw [saveFrames, List.mem_append] at hf
  rcases hf with hf | hf
  · rw [List.mem_flatMap] at hf
    obtain ⟨p, hp, hfm⟩ := hf
    obtain ⟨hk, hv⟩ := hCs p hp
    have hlen := hFs p hp f hfm
    rw [stringEntryFrames] at hfm
    rcases List.mem_cons.mp hfm with h | h
    · subst h
      obtain ⟨a, b, c, d⟩ := setFrame_shape hk.2.1 hk.2.2.1 hv.2.1 hv.2.2.1
      exact ⟨a, b, c, d, hlen⟩
    · cases he : ((lookupS p.1 ks.keys).getD ({ group := "", expires := none })).expires with
      | none =>
        rw [he] at h
        cases h
      | some t =>
        rw [he] at h
        rcases List.mem_cons.mp h with h | h
        · subst h
          obtain ⟨a, b, c, d⟩ := expireatFrame_shape (unixSec t) hk.2.1 hk.2.2.1
          exact ⟨a, b, c, d, hlen⟩
        · cases h
  · rw [List.mem_flatMap] at hf
    obtain ⟨p, hp, hfm⟩ := hf
    obtain ⟨hk, hne, hvs, _⟩ := hCl p hp
    have hlen := hFl p hp f hfm
    rw [listEntryFrames] at hfm
    rw [if_pos (by cases hp2 : p.2 with
      | nil => exact absurd hp2 hne
      | cons a t => simp)] at hfm
    rcases List.mem_cons.mp hfm with h | h
    · subst h
      obtain ⟨a, b, c, d⟩ := rpushFrame_shape hk.2.1 hk.2.2.1
        (fun v hv => ⟨(hvs v hv).2.1, (hvs v hv).2.2.1⟩) hne
      exact ⟨a, b, c, d, hlen⟩
    · cases he : ((lookupS p.1 ks.keys).getD ({ group := "", expires := none })).expires with
      | none =>
        rw [he] at h
        cases h
      | some t =>
        rw [he] at h
        rcases List.mem_cons.mp h with h | h
        · subst h
          obtain ⟨a, b, c, d⟩ := expireatFrame_shape (unixSec t) hk.2.1 hk.2.2.1
          exact ⟨a, b, c, d, hlen⟩
        · cases h

